import Mathlib

/-!
# Parametric order and monotonicity analysis (storm-pars)

A shallow embedding of

* `storm-pars/analysis/MonotonicityChecker.cpp`
* `storm-pars/analysis/AssumptionMaker.cpp`
* `storm-pars/analysis/LocalMonotonicityResult.cpp`
* `storm-pars/derivative/EqualParameterReducer.cpp` (`joinDuplicateTransitions`,
  `jipConvert`)

Conventions of the embedding.

* A C++ `std::vector` is a `List`; an indexed read `v[i]` is `v[i]?`, and a read
  outside the vector (undefined behaviour in C++) makes the embedded function
  return `none`.
* Unsigned 64-bit state indices are `Nat`; no arithmetic on them can overflow in
  the embedded functions (they are only compared and incremented below a vector
  length).
* Member variables that a method mutates are passed in and returned explicitly.
* Collaborators whose code is not part of the sources (the rational-function
  arithmetic, `checkDerivative`, `Order::sortStates`, the assumption checker, class
  `MonotonicityResult`) are parameters of the embedded functions.
* Objects held through `std::shared_ptr` that a method changes through the pointer live
  in an explicit heap, so that two pointers to one object are told from pointers to two
  objects.
-/

namespace storm.analysis

/-! ## MonotonicityChecker -/

/-- The five-valued classification `MonotonicityResult::Monotonicity`. -/
inductive Monotonicity where
  | Incr
  | Decr
  | Constant
  | Not
  | Unknown
deriving DecidableEq, Repr

/-- One entry of a sparse matrix row: `entry.getColumn()` and `entry.getValue()`. -/
structure MatrixEntry (V : Type) where
  column : Nat
  value : V
deriving DecidableEq, Repr

/-- The part of `storage::SparseMatrix` the checker reads: its rows and `getColumnCount()`. -/
structure SparseMatrix (V : Type) where
  rows : List (List (MatrixEntry V))
  columnCount : Nat

/-- The row of a state, `matrix.getRow(state)`; `none` for a row outside the matrix. -/
def SparseMatrix.getRow {V : Type} (matrix : SparseMatrix V) (state : Nat) :
    Option (List (MatrixEntry V)) :=
  matrix.rows[state]?

/-- The operations on the value type (`RationalFunction`) and the static helper
`checkDerivative` that `MonotonicityChecker.cpp` calls and whose code is not part of the
sources. `checkDerivative d region` is the pair (`d` is non-negative on the region,
`d` is non-positive on the region). -/
structure ValueOps (V Var Region : Type) where
  isConstant : V → Bool
  zero : V
  derivative : V → Var → V
  checkDerivative : V → Region → Bool × Bool

/-- The order collaborator: of class `Order` the checker only calls `sortStates`. -/
structure Order where
  sortStates : List Nat → List Nat

/-- The member `derivatives`: a map from a function to a map from a variable to the
derivative, as association lists. -/
abbrev DerivativeCache (V Var : Type) := List (V × List (Var × V))

/-- Assignment `m[k] = v` on an association list: overwrite the first entry with key `k`, or add one. -/
def assocSet {K T : Type} [DecidableEq K] (k : K) (v : T) : List (K × T) → List (K × T)
  | [] => [(k, v)]
  | (k1, v1) :: rest => if k1 = k then (k, v) :: rest else (k1, v1) :: assocSet k v rest

/-- The inner map `derivatives[function]`; `operator[]` yields an empty map for a new key. -/
def DerivativeCache.inner {V Var : Type} [DecidableEq V] (cache : DerivativeCache V Var)
    (function : V) : List (Var × V) :=
  (cache.lookup function).getD []

/-- The cache after evaluating `derivatives[function]`, which inserts an empty inner map
when the key is new. -/
def DerivativeCache.touch {V Var : Type} [DecidableEq V] (cache : DerivativeCache V Var)
    (function : V) : DerivativeCache V Var :=
  match cache.lookup function with
  | some _ => cache
  | none => assocSet function [] cache

/-- Method `MonotonicityChecker::getDerivative`: zero for a constant function, otherwise the
memoised derivative, computed and stored at the first request. -/
def getDerivative {V Var Region : Type} [DecidableEq V] [DecidableEq Var]
    (ops : ValueOps V Var Region) (function : V) (var : Var)
    (derivatives : DerivativeCache V Var) : V × DerivativeCache V Var :=
  if ops.isConstant function then
    (ops.zero, derivatives)
  else
    let touched := derivatives.touch function
    match (touched.inner function).lookup var with
    | some d => (d, touched)
    | none =>
      let d := ops.derivative function var
      (d, assocSet function (assocSet var d (touched.inner function)) touched)

/-- The classification that `checkTransitionMonRes` derives from the pair `res`
returned by `checkDerivative`. -/
def classifySigns (res : Bool × Bool) : Monotonicity :=
  if res.1 && !res.2 then Monotonicity.Incr
  else if !res.1 && res.2 then Monotonicity.Decr
  else if res.1 && res.2 then Monotonicity.Constant
  else Monotonicity.Not

/-- Method `MonotonicityChecker::checkTransitionMonRes`. -/
def checkTransitionMonRes {V Var Region : Type} [DecidableEq V] [DecidableEq Var]
    (ops : ValueOps V Var Region) (function : V) (param : Var) (region : Region)
    (derivatives : DerivativeCache V Var) : Monotonicity × DerivativeCache V Var :=
  let r := getDerivative ops function param derivatives
  (classifySigns (ops.checkDerivative r.1 region), r.2)

/-- The local variables of the `for (auto entry : row)` loop of `checkLocalMonotonicity`,
together with the memo table. -/
structure RowScan (V Var : Type) where
  succs : List Nat
  succsMonUnsorted : List Monotonicity
  ignore : Bool
  derivatives : DerivativeCache V Var

/-- The `for (auto entry : row)` loop of `checkLocalMonotonicity`. -/
def scanRow {V Var Region : Type} [DecidableEq V] [DecidableEq Var]
    (ops : ValueOps V Var Region) (var : Var) (region : Region) :
    List (MatrixEntry V) → RowScan V Var → RowScan V Var
  | [], acc => acc
  | entry :: rest, acc =>
    let r := checkTransitionMonRes ops entry.value var region acc.derivatives
    scanRow ops var region rest
      { succs := acc.succs ++ [entry.column]
        succsMonUnsorted := acc.succsMonUnsorted ++ [r.1]
        ignore := acc.ignore && ops.isConstant entry.value
        derivatives := r.2 }

/-- The three lines
`itr = std::find(succs.begin(), succs.end(), succsSorted[index])`,
`newIndex = std::distance(succs.begin(), itr)`, `succsMonUnsorted[newIndex]`
of both walking loops. A state that is not among `succs` gives `newIndex = succs.size()`,
a read outside `succsMonUnsorted`. -/
def transitionMonAt (succs : List Nat) (succsMonUnsorted : List Monotonicity)
    (succsSorted : List Nat) (index : Nat) : Option Monotonicity :=
  match succsSorted[index]? with
  | none => none
  | some s => succsMonUnsorted[succs.indexOf s]?

/-- The first `while` loop of `checkLocalMonotonicity`; the result is the pair
(`index`, `localMonotonicity`) at loop exit. `fuel` bounds the number of iterations;
the loop is entered with `fuel + index = succSize`. -/
def firstLoop (succs : List Nat) (succsMonUnsorted : List Monotonicity)
    (succsSorted : List Nat) (succSize : Nat) :
    Nat → Nat → Monotonicity → Option (Nat × Monotonicity)
  | 0, index, localMonotonicity => some (index, localMonotonicity)
  | fuel + 1, index, localMonotonicity =>
    if index < succSize ∧ localMonotonicity = Monotonicity.Constant then
      match transitionMonAt succs succsMonUnsorted succsSorted index with
      | none => none
      | some transitionMon =>
        firstLoop succs succsMonUnsorted succsSorted succSize fuel (index + 1)
          (if transitionMon = Monotonicity.Not ∧ succSize ≠ 1 then Monotonicity.Unknown
           else transitionMon)
    else some (index, localMonotonicity)

/-- The second `while` loop of `checkLocalMonotonicity` followed by
`return localMonotonicity`; the result is the value the function returns. `fuel` bounds
the number of iterations; the loop is entered with `succSize ≤ fuel + index`. -/
def secondLoop (succs : List Nat) (succsMonUnsorted : List Monotonicity)
    (succsSorted : List Nat) (succSize : Nat) :
    Nat → Nat → Bool → Monotonicity → Option Monotonicity
  | 0, _, _, localMonotonicity => some localMonotonicity
  | fuel + 1, index, allowedToSwap, localMonotonicity =>
    if index < succSize ∧ localMonotonicity ≠ Monotonicity.Not
        ∧ localMonotonicity ≠ Monotonicity.Unknown then
      match transitionMonAt succs succsMonUnsorted succsSorted index with
      | none => none
      | some transitionMon =>
        if transitionMon = Monotonicity.Not ∨ transitionMon = Monotonicity.Unknown then
          some Monotonicity.Unknown
        else if allowedToSwap then
          secondLoop succs succsMonUnsorted succsSorted succSize fuel (index + 1)
            (if transitionMon ≠ Monotonicity.Constant ∧ transitionMon ≠ localMonotonicity
             then false else true)
            localMonotonicity
        else
          secondLoop succs succsMonUnsorted succsSorted succSize fuel (index + 1) false
            (if transitionMon = localMonotonicity ∨ transitionMon = Monotonicity.Not
                ∨ transitionMon = Monotonicity.Unknown
             then Monotonicity.Unknown else localMonotonicity)
    else some localMonotonicity

/-- The part of `checkLocalMonotonicity` after the row has been scanned and found not to
be constant: the sentinel test on the last sorted successor, the two-successor special
case and the two walking loops. -/
def walkSorted (columnCount : Nat) (succs : List Nat) (succsMonUnsorted : List Monotonicity)
    (succsSorted : List Nat) : Option Monotonicity :=
  match succsSorted[succs.length - 1]? with
  | none => none
  | some last =>
    if last = columnCount then some Monotonicity.Unknown
    else
      let succSize := if succs.length = 2 then 1 else succs.length
      match firstLoop succs succsMonUnsorted succsSorted succSize succSize 0
          Monotonicity.Constant with
      | none => none
      | some (index, localMonotonicity) =>
        secondLoop succs succsMonUnsorted succsSorted succSize succSize index true
          localMonotonicity

/-- Method `MonotonicityChecker::checkLocalMonotonicity`. The result is the returned
classification and the memo table after the call; `none` when the call reads outside a
vector or outside the matrix. -/
def checkLocalMonotonicity {V Var Region : Type} [DecidableEq V] [DecidableEq Var]
    (ops : ValueOps V Var Region) (matrix : SparseMatrix V) (order : Order) (state : Nat)
    (var : Var) (region : Region) (derivatives : DerivativeCache V Var) :
    Option (Monotonicity × DerivativeCache V Var) :=
  match matrix.getRow state with
  | none => none
  | some row =>
    let scan := scanRow ops var region row
      { succs := [], succsMonUnsorted := [], ignore := true, derivatives := derivatives }
    if scan.ignore then some (Monotonicity.Constant, scan.derivatives)
    else
      match walkSorted matrix.columnCount scan.succs scan.succsMonUnsorted
          (order.sortStates scan.succs) with
      | none => none
      | some mon => some (mon, scan.derivatives)

/-- The classifications of the transitions of a row, in row order, as the scanning loop
of `checkLocalMonotonicity` computes them (the vector `succsMonUnsorted`). -/
def rowClassifications {V Var Region : Type} [DecidableEq V] [DecidableEq Var]
    (ops : ValueOps V Var Region) (var : Var) (region : Region) (row : List (MatrixEntry V))
    (derivatives : DerivativeCache V Var) : List Monotonicity :=
  (scanRow ops var region row
    { succs := [], succsMonUnsorted := [], ignore := true,
      derivatives := derivatives }).succsMonUnsorted

/-- The classification of a weight computed without the memo table: the derivative is
zero for a constant weight and `function.derivative(param)` otherwise. -/
def transitionMon {V Var Region : Type} (ops : ValueOps V Var Region) (function : V)
    (param : Var) (region : Region) : Monotonicity :=
  classifySigns
    (ops.checkDerivative
      (if ops.isConstant function then ops.zero else ops.derivative function param) region)

/-- Every entry of the memo table is the derivative it is filed under. -/
def CacheSound {V Var Region : Type} [DecidableEq V] [DecidableEq Var]
    (ops : ValueOps V Var Region) (cache : DerivativeCache V Var) : Prop :=
  ∀ f inner, cache.lookup f = some inner →
    ∀ v d, inner.lookup v = some d → d = ops.derivative f v

/-! ### The walking loops over a list of classifications

`firstLoopL` and `secondLoopL` are the two `while` loops run over the list of the
classifications still to be read, instead of an index into `succsSorted`. -/

/-- The first walking loop over the classifications still to be read; the result is the
unread rest and `localMonotonicity`. -/
def firstLoopL (succSize : Nat) :
    List Monotonicity → Monotonicity → List Monotonicity × Monotonicity
  | [], localMonotonicity => ([], localMonotonicity)
  | transitionMon :: rest, localMonotonicity =>
    if localMonotonicity = Monotonicity.Constant then
      firstLoopL succSize rest
        (if transitionMon = Monotonicity.Not ∧ succSize ≠ 1 then Monotonicity.Unknown
         else transitionMon)
    else (transitionMon :: rest, localMonotonicity)

/-- The second walking loop over the classifications still to be read. -/
def secondLoopL : List Monotonicity → Bool → Monotonicity → Monotonicity
  | [], _, localMonotonicity => localMonotonicity
  | transitionMon :: rest, allowedToSwap, localMonotonicity =>
    if localMonotonicity ≠ Monotonicity.Not ∧ localMonotonicity ≠ Monotonicity.Unknown then
      if transitionMon = Monotonicity.Not ∨ transitionMon = Monotonicity.Unknown then
        Monotonicity.Unknown
      else if allowedToSwap then
        secondLoopL rest
          (if transitionMon ≠ Monotonicity.Constant ∧ transitionMon ≠ localMonotonicity
           then false else true)
          localMonotonicity
      else
        secondLoopL rest false
          (if transitionMon = localMonotonicity ∨ transitionMon = Monotonicity.Not
              ∨ transitionMon = Monotonicity.Unknown
           then Monotonicity.Unknown else localMonotonicity)
    else localMonotonicity

/-- Both walking loops over a list of classifications. -/
def walkL (succSize : Nat) (ms : List Monotonicity) : Monotonicity :=
  secondLoopL (firstLoopL succSize ms Monotonicity.Constant).1 true
    (firstLoopL succSize ms Monotonicity.Constant).2

/-! ### The statement of the one-swap rule -/

/-- The classification recorded for the transition to successor `s`: the entry paired
with `s` when the successors are listed next to their classifications. -/
def classificationOf (succs : List Nat) (succsMon : List Monotonicity) (s : Nat) :
    Option Monotonicity :=
  (succs.zip succsMon).lookup s

/-- The non-`Constant` classifications of the transitions, listed in the order of the
sorted successors. -/
def nonConstantInOrder (succs : List Nat) (succsMon : List Monotonicity)
    (succsSorted : List Nat) : List Monotonicity :=
  (succsSorted.filterMap (classificationOf succs succsMon)).filter
    (fun m => decide (m ≠ Monotonicity.Constant))

/-- The opposite direction of `Incr` and `Decr`. -/
def Monotonicity.opposite : Monotonicity → Monotonicity
  | Monotonicity.Incr => Monotonicity.Decr
  | Monotonicity.Decr => Monotonicity.Incr
  | m => m

/-- The one-swap rule as the specification words it, on the list `ns` of non-`Constant`
classifications in sorted order: `Constant` for the empty list; the first element `L`
when `ns` is one or more `L` followed only by the opposite kind; `Unknown` otherwise. -/
def oneSwapVerdict : List Monotonicity → Monotonicity
  | [] => Monotonicity.Constant
  | l :: rest =>
    if (rest.dropWhile (fun m => decide (m = l))).all (fun m => decide (m = l.opposite))
    then l else Monotonicity.Unknown

/-! ### A concrete value type for the two-successor scenario -/

/-- Modelled from the spec: the rational-function weights of the scenario `p`, `1 − p`.
The class `RationalFunction` is not part of the sources; a weight here is the affine
function `const + slope · x_param` of one parameter, which covers `p` and `1 − p`. -/
structure AffineWeight where
  const : Int
  param : Nat
  slope : Int
deriving DecidableEq, Repr

/-- Modelled from the spec: a parameter region, "a closed interval per parameter"; the
class `storage::ParameterRegion` is not part of the sources. -/
structure ParameterRegion where
  lower : Nat → Int
  upper : Nat → Int

/-- The value of an affine weight at a point of its parameter. -/
def AffineWeight.eval (w : AffineWeight) (x : Int) : Int :=
  w.const + w.slope * x

/-- Modelled from the spec: the operations on weights that are not part of the sources.
`isConstant` holds of a weight without a parameter, the derivative of
`const + slope · x_param` is `slope` with respect to `x_param` and zero with respect to
any other parameter, and `checkDerivative` is "checking the derivative's sign over the
whole region": an affine function is non-negative (non-positive) on an interval exactly
when it is so at both end points. -/
def affineOps : ValueOps AffineWeight Nat ParameterRegion where
  isConstant := fun w => decide (w.slope = 0)
  zero := { const := 0, param := 0, slope := 0 }
  derivative := fun w v =>
    if w.param = v then { const := w.slope, param := v, slope := 0 }
    else { const := 0, param := v, slope := 0 }
  checkDerivative := fun d region =>
    (decide (0 ≤ d.eval (region.lower d.param) ∧ 0 ≤ d.eval (region.upper d.param)),
     decide (d.eval (region.lower d.param) ≤ 0 ∧ d.eval (region.upper d.param) ≤ 0))

/-- The weight `p` of the scenario, for the parameter with index `p`. -/
def weightP (p : Nat) : AffineWeight := { const := 0, param := p, slope := 1 }

/-- The weight `1 − p` of the scenario. -/
def weightOneMinusP (p : Nat) : AffineWeight := { const := 1, param := p, slope := -1 }

/-- The region `p ∈ [0, 1]` (every parameter ranges over `[0, 1]`). -/
def unitRegion : ParameterRegion := { lower := fun _ => 0, upper := fun _ => 1 }

/-! ## AssumptionMaker -/

/-- The three-valued verdict `AssumptionStatus` of the assumption checker. -/
inductive AssumptionStatus where
  | VALID
  | INVALID
  | UNKNOWN
deriving DecidableEq, Repr

/-- Modelled from the spec: the enumeration `BinaryRelationExpression::RelationType` is
declared outside the sources; the spec lists the relations `>`, `<`, `=`, of which the
code names `Greater` and `Equal`. -/
inductive RelationType where
  | Greater
  | Less
  | Equal
deriving DecidableEq, Repr

/-- An `expressions::Variable` of the maker's expression manager. The constructor of
`AssumptionMaker` declares one rational variable per state, named
`std::to_string(i)`; the variable is identified by that number. -/
structure Variable where
  index : Nat
deriving DecidableEq, Repr

/-- The content of an `expressions::BinaryRelationExpression` over two variables: the
operands in the order in which they are passed to its constructor, and the relation. -/
structure BinaryRelationExpression where
  firstOperand : Variable
  secondOperand : Variable
  relationType : RelationType
deriving DecidableEq, Repr

/-- A `std::shared_ptr<BinaryRelationExpression>`: the address of the object made by
`std::make_shared` and the object it points to. The result map is keyed by the pointer,
so two keys are equal exactly when their addresses are. -/
structure SharedPtr where
  address : Nat
  target : BinaryRelationExpression
deriving DecidableEq, Repr

/-- The result type `std::map<std::shared_ptr<BinaryRelationExpression>, AssumptionStatus>`
as the list of its entries. -/
abbrev AssumptionMap := List (SharedPtr × AssumptionStatus)

/-- Method `std::map::insert`: the entry is added unless its key (the address) is present. -/
def AssumptionMap.insert (result : AssumptionMap) (entry : SharedPtr × AssumptionStatus) :
    AssumptionMap :=
  if result.any (fun e => decide (e.1.address = entry.1.address)) then result
  else result ++ [entry]

/-- What a call of `createAndCheckAssumptions` can change besides its result: the state of
the assumption checker (`checker`, so that a checker need not answer the same question
the same way twice) and the next address `std::make_shared` hands out. Addresses are
never handed out twice, which makes objects that are alive together distinct. -/
structure MakerState (σ : Type) where
  checker : σ
  nextAddress : Nat

/-- The members of `AssumptionMaker` that `createAndCheckAssumptions` uses:
`numberOfStates` (the variables declared in the expression manager) and the member
`assumptionChecker`, whose code is not part of the sources, through its method
`validateAssumption(assumption, order, region)`. -/
structure AssumptionMaker (σ O R : Type) where
  numberOfStates : Nat
  validateAssumption : σ → BinaryRelationExpression → O → R → AssumptionStatus × σ

/-- The ways in which `createAndCheckAssumptions` ends without returning a map. -/
inductive Failure where
  | unknownVariable
  | assertionFailed
deriving DecidableEq, Repr

/-- Call `expressionManager->getVariable(std::to_string(val))`: the variable of a state, which
exists for the states below `numberOfStates`. -/
def AssumptionMaker.getVariable {σ O R : Type} (maker : AssumptionMaker σ O R) (val : Nat) :
    Option Variable :=
  if val < maker.numberOfStates then some { index := val } else none

/-- Method `AssumptionMaker::createAndCheckAssumption`. The expression is constructed with
`var2` as its first and `var1` as its second operand, and validated by the checker. -/
def createAndCheckAssumption {σ O R : Type} (maker : AssumptionMaker σ O R)
    (var1 var2 : Variable) (relationType : RelationType) (order : O) (region : R)
    (st : MakerState σ) : (SharedPtr × AssumptionStatus) × MakerState σ :=
  let assumption : SharedPtr :=
    { address := st.nextAddress
      target := { firstOperand := var2, secondOperand := var1, relationType := relationType } }
  let validationResult := maker.validateAssumption st.checker assumption.target order region
  ((assumption, validationResult.1),
   { checker := validationResult.2, nextAddress := st.nextAddress + 1 })

/-- The `assert` of the third candidate's absence,
`assert (createAndCheckAssumption(var1, var2, Equal, …).second != VALID)`,
followed by `return result`. With assertions disabled the `assert` is not evaluated. -/
def assertEqualNotValid {σ O R : Type} (maker : AssumptionMaker σ O R) (assertions : Bool)
    (var1 var2 : Variable) (order : O) (region : R) (result : AssumptionMap)
    (st : MakerState σ) : Except Failure (AssumptionMap × MakerState σ) :=
  if assertions then
    let a := createAndCheckAssumption maker var1 var2 RelationType.Equal order region st
    if a.1.2 ≠ AssumptionStatus.VALID then Except.ok (result, a.2)
    else Except.error Failure.assertionFailed
  else Except.ok (result, st)

/-- The `assert` after a `VALID` first candidate,
`assert (createAndCheckAssumption(var2, var1, Greater, …).second != VALID
 && createAndCheckAssumption(var1, var2, Equal, …).second != VALID)`,
followed by `return result`; `&&` evaluates its right operand only when the left holds. -/
def assertOthersNotValid {σ O R : Type} (maker : AssumptionMaker σ O R) (assertions : Bool)
    (var1 var2 : Variable) (order : O) (region : R) (result : AssumptionMap)
    (st : MakerState σ) : Except Failure (AssumptionMap × MakerState σ) :=
  if assertions then
    let a := createAndCheckAssumption maker var2 var1 RelationType.Greater order region st
    if a.1.2 ≠ AssumptionStatus.VALID then
      assertEqualNotValid maker true var1 var2 order region result a.2
    else Except.error Failure.assertionFailed
  else Except.ok (result, st)

/-- Lines 38 to 47 of `createAndCheckAssumptions`: the third candidate. -/
def thirdCandidate {σ O R : Type} (maker : AssumptionMaker σ O R)
    (var1 var2 : Variable) (order : O) (region : R) (result : AssumptionMap)
    (st : MakerState σ) : Except Failure (AssumptionMap × MakerState σ) :=
  let assumption := createAndCheckAssumption maker var1 var2 RelationType.Equal order region st
  if assumption.1.2 ≠ AssumptionStatus.INVALID then
    if assumption.1.2 = AssumptionStatus.VALID then
      Except.ok (AssumptionMap.insert [] assumption.1, assumption.2)
    else Except.ok (AssumptionMap.insert result assumption.1, assumption.2)
  else Except.ok (result, assumption.2)

/-- Lines 28 to 47 of `createAndCheckAssumptions`: the second candidate, then the third. -/
def secondCandidate {σ O R : Type} (maker : AssumptionMaker σ O R) (assertions : Bool)
    (var1 var2 : Variable) (order : O) (region : R) (result : AssumptionMap)
    (st : MakerState σ) : Except Failure (AssumptionMap × MakerState σ) :=
  let assumption :=
    createAndCheckAssumption maker var2 var1 RelationType.Greater order region st
  if assumption.1.2 ≠ AssumptionStatus.INVALID then
    if assumption.1.2 = AssumptionStatus.VALID then
      assertEqualNotValid maker assertions var1 var2 order region
        (AssumptionMap.insert [] assumption.1) assumption.2
    else
      thirdCandidate maker var1 var2 order region
        (AssumptionMap.insert result assumption.1) assumption.2
  else thirdCandidate maker var1 var2 order region result assumption.2

/-- Method `AssumptionMaker::createAndCheckAssumptions`. `assertions` tells whether the `assert`
statements are compiled in. The result is the returned map and the state after the
call, or the reason why no map is returned. -/
def createAndCheckAssumptions {σ O R : Type} (maker : AssumptionMaker σ O R)
    (assertions : Bool) (val1 val2 : Nat) (order : O) (region : R) (st : MakerState σ) :
    Except Failure (AssumptionMap × MakerState σ) :=
  match maker.getVariable val1, maker.getVariable val2 with
  | some var1, some var2 =>
    let result : AssumptionMap := []
    let assumption :=
      createAndCheckAssumption maker var1 var2 RelationType.Greater order region st
    if assumption.1.2 ≠ AssumptionStatus.INVALID then
      if assumption.1.2 = AssumptionStatus.VALID then
        assertOthersNotValid maker assertions var1 var2 order region
          (AssumptionMap.insert result assumption.1) assumption.2
      else
        secondCandidate maker assertions var1 var2 order region
          (AssumptionMap.insert result assumption.1) assumption.2
    else secondCandidate maker assertions var1 var2 order region result assumption.2
  | _, _ => Except.error Failure.unknownVariable

/-- An assumption checker that is a function of the assumption, the order and the
region: it has no state and answers the same question the same way every time. -/
def deterministicMaker {O R : Type} (numberOfStates : Nat)
    (verdict : BinaryRelationExpression → O → R → AssumptionStatus) :
    AssumptionMaker Unit O R where
  numberOfStates := numberOfStates
  validateAssumption := fun s assumption order region => (verdict assumption order region, s)

/-- The three candidates in the order in which `createAndCheckAssumptions` validates
them, each as the expression that `createAndCheckAssumption` constructs for it. -/
def candidates (val1 val2 : Nat) : List BinaryRelationExpression :=
  [ { firstOperand := { index := val2 }, secondOperand := { index := val1 },
      relationType := RelationType.Greater },
    { firstOperand := { index := val1 }, secondOperand := { index := val2 },
      relationType := RelationType.Greater },
    { firstOperand := { index := val2 }, secondOperand := { index := val1 },
      relationType := RelationType.Equal } ]

/-- The two shapes of a returned map: a single `VALID` entry, or `UNKNOWN` entries only. -/
def ValidOrUnknown (res : AssumptionMap) : Prop :=
  (∃ e, res = [e] ∧ e.2 = AssumptionStatus.VALID)
    ∨ ∀ e ∈ res, e.2 = AssumptionStatus.UNKNOWN

/-- What the checker reports for a list of candidates asked in this order, each paired
with its candidate; the checker's state is threaded from one question to the next. -/
def checkerAnswers {σ O R : Type} (maker : AssumptionMaker σ O R) (order : O) (region : R) :
    σ → List BinaryRelationExpression → List (BinaryRelationExpression × AssumptionStatus)
  | _, [] => []
  | s, c :: rest =>
    (c, (maker.validateAssumption s c order region).1)
      :: checkerAnswers maker order region (maker.validateAssumption s c order region).2 rest

/-- The content of a returned map: every entry as the expression its key points to,
with its status. -/
def AssumptionMap.contents (res : AssumptionMap) :
    List (BinaryRelationExpression × AssumptionStatus) :=
  res.map (fun e => (e.1.target, e.2))

/-- A deterministic assumption checker that also keeps the list of the assumptions it
was asked to validate, in the order of the calls of `validateAssumption`. -/
def recordingMaker {O R : Type} (numberOfStates : Nat)
    (verdict : BinaryRelationExpression → O → R → AssumptionStatus) :
    AssumptionMaker (List BinaryRelationExpression) O R where
  numberOfStates := numberOfStates
  validateAssumption := fun asked assumption order region =>
    (verdict assumption order region, asked ++ [assumption])

/-- The number of candidates that `createAndCheckAssumptions` validates outside its
assertions, given the verdicts on the first and on the second candidate: it stops at the
first `VALID` one. -/
def candidatesTried (first second : AssumptionStatus) : Nat :=
  if first = AssumptionStatus.VALID then 1
  else if second = AssumptionStatus.VALID then 2
  else 3

/-! ## LocalMonotonicityResult

Objects of class `MonotonicityResult` are held through `std::shared_ptr`. They live in a
heap, a list of object values in which an address is a position; `std::make_shared`
appends a new object, and a method called through a pointer replaces the object at that
address. A `LocalMonotonicityResult` itself is the record of its members; the pointers
among them are addresses into the heap. -/

/-- The operations of class `MonotonicityResult` that `LocalMonotonicityResult.cpp` calls;
the class is not part of the sources. `fresh` is the object made by the default
constructor, a `const` method reads the value of an object, a method that changes its
object maps the old value to the new one, and `copy` gives the value of the new object
that `MonotonicityResult::copy()` returns a pointer to. -/
structure MonotonicityResultOps (MR Var : Type) where
  fresh : MR
  getMonotonicity : MR → Var → Monotonicity
  addMonotonicityResult : MR → Var → Monotonicity → MR
  updateMonotonicityResult : MR → Var → Monotonicity → MR
  isAllMonotonicity : MR → Bool
  setDone : MR → MR
  copy : MR → MR

/-- The heap of `MonotonicityResult` objects. -/
abbrev Heap (MR : Type) := List MR

/-- A method that changes its object, called through the pointer `address`; `none` for
a pointer to no object. -/
def Heap.modify {MR : Type} (heap : Heap MR) (address : Nat) (method : MR → MR) :
    Option (Heap MR) :=
  match heap[address]? with
  | none => none
  | some object => some (heap.set address (method object))

/-- The call `BitVector::set(index, value)`; `none` for an index outside the vector. -/
def bitSet (bits : List Bool) (index : Nat) (value : Bool) : Option (List Bool) :=
  if index < bits.length then some (bits.set index value) else none

/-- The call `BitVector::full()`: every bit is set. -/
def bitFull (bits : List Bool) : Bool :=
  bits.all (fun b => b)

/-- The members of `LocalMonotonicityResult`: `stateMonRes` (a null pointer is `none`),
`globalMonotonicityResult`, the bit vector `statesMonotone`, `done`, `indexMinimize`
and `indexMaximize`. -/
structure LocalMonotonicityResult where
  stateMonRes : List (Option Nat)
  globalMonotonicityResult : Nat
  statesMonotone : List Bool
  done : Bool
  indexMinimize : Int
  indexMaximize : Int
deriving DecidableEq, Repr

/-- Modelled from the spec: the default member initialiser of `done` stands in the header
`LocalMonotonicityResult.h`, which is not part of the sources; a result is done "once
every state is marked constant or once explicitly forced done", so it is not forced done
when it is made. -/
def defaultDone : Bool := false

/-- Modelled from the spec: the default member initialisers of `indexMinimize` and
`indexMaximize` stand in the header `LocalMonotonicityResult.h`, which is not part of
the sources; the assertion `indexMinimize == -1` of `setIndexMinimize` guards against
"re-setting an already-fixed index field", so `-1` is the value of a field not yet
fixed. -/
def defaultIndex : Int := -1

/-- The constructor `LocalMonotonicityResult(numberOfStates)`: null pointers for all
states, a new global result, no state marked. -/
def LocalMonotonicityResult.construct {MR Var : Type} (ops : MonotonicityResultOps MR Var)
    (numberOfStates : Nat) (heap : Heap MR) : LocalMonotonicityResult × Heap MR :=
  ({ stateMonRes := List.replicate numberOfStates none
     globalMonotonicityResult := heap.length
     statesMonotone := List.replicate numberOfStates false
     done := defaultDone
     indexMinimize := defaultIndex
     indexMaximize := defaultIndex },
   heap ++ [ops.fresh])

/-- Method `LocalMonotonicityResult::getMonotonicity`; `none` for a state outside the
vectors or a pointer to no object. -/
def LocalMonotonicityResult.getMonotonicity {MR Var : Type}
    (ops : MonotonicityResultOps MR Var) (r : LocalMonotonicityResult) (state : Nat)
    (var : Var) (heap : Heap MR) : Option Monotonicity :=
  match r.stateMonRes[state]? with
  | none => none
  | some (some address) =>
    match heap[address]? with
    | none => none
    | some object => some (ops.getMonotonicity object var)
  | some none =>
    match r.statesMonotone[state]? with
    | none => none
    | some true => some Monotonicity.Constant
    | some false => some Monotonicity.Unknown

/-- Method `LocalMonotonicityResult::getGlobalMonotonicityResult`: the global result, here
the value of the object the returned pointer points to. -/
def LocalMonotonicityResult.getGlobalMonotonicityResult {MR : Type}
    (r : LocalMonotonicityResult) (heap : Heap MR) : Option MR :=
  heap[r.globalMonotonicityResult]?

/-- Method `LocalMonotonicityResult::isDone`. -/
def LocalMonotonicityResult.isDone (r : LocalMonotonicityResult) : Bool :=
  r.done || bitFull r.statesMonotone

/-- Method `LocalMonotonicityResult::setDone`. -/
def LocalMonotonicityResult.setDone (r : LocalMonotonicityResult) (done : Bool) :
    LocalMonotonicityResult :=
  { r with done := done }

/-- Method `LocalMonotonicityResult::setIndexMinimize`; with assertions enabled the call
fails (`none`) unless `indexMinimize == -1`. -/
def LocalMonotonicityResult.setIndexMinimize (r : LocalMonotonicityResult)
    (assertions : Bool) (i : Int) : Option LocalMonotonicityResult :=
  if assertions = true ∧ r.indexMinimize ≠ -1 then none
  else some { r with indexMinimize := i }

/-- Method `LocalMonotonicityResult::setIndexMaximize`. -/
def LocalMonotonicityResult.setIndexMaximize (r : LocalMonotonicityResult) (i : Int) :
    LocalMonotonicityResult :=
  { r with indexMaximize := i }

/-- Method `LocalMonotonicityResult::getIndexMinimize`. -/
def LocalMonotonicityResult.getIndexMinimize (r : LocalMonotonicityResult) : Int :=
  r.indexMinimize

/-- Method `LocalMonotonicityResult::getIndexMaximize`. -/
def LocalMonotonicityResult.getIndexMaximize (r : LocalMonotonicityResult) : Int :=
  r.indexMaximize

/-- Method `LocalMonotonicityResult::setMonotonicityResult`: `stateMonRes[state] = monRes`;
`none` for a state outside the vector. -/
def LocalMonotonicityResult.setMonotonicityResult (r : LocalMonotonicityResult)
    (state : Nat) (monRes : Option Nat) : Option LocalMonotonicityResult :=
  if state < r.stateMonRes.length then
    some { r with stateMonRes := r.stateMonRes.set state monRes }
  else none

/-- Method `LocalMonotonicityResult::setGlobalMonotonicityResult`. -/
def LocalMonotonicityResult.setGlobalMonotonicityResult (r : LocalMonotonicityResult)
    (monRes : Nat) : LocalMonotonicityResult :=
  { r with globalMonotonicityResult := monRes }

/-- Method `LocalMonotonicityResult::setStatesMonotone`. -/
def LocalMonotonicityResult.setStatesMonotone (r : LocalMonotonicityResult)
    (statesMonotone : List Bool) : LocalMonotonicityResult :=
  { r with statesMonotone := statesMonotone }

/-- Method `LocalMonotonicityResult::setConstant`: `statesMonotone.set(state)`. -/
def LocalMonotonicityResult.setConstant (r : LocalMonotonicityResult) (state : Nat) :
    Option LocalMonotonicityResult :=
  match bitSet r.statesMonotone state true with
  | none => none
  | some bits => some { r with statesMonotone := bits }

/-- Lines 31 to 33 of `setMonotonicity`: a null `stateMonRes[state]` is replaced by a
pointer to a new object. The result is the pointer `stateMonRes[state]` has afterwards,
the changed members and the heap. -/
def LocalMonotonicityResult.ensureStateResult {MR Var : Type}
    (ops : MonotonicityResultOps MR Var) (r : LocalMonotonicityResult) (state : Nat)
    (heap : Heap MR) : Option (Nat × LocalMonotonicityResult × Heap MR) :=
  match r.stateMonRes[state]? with
  | none => none
  | some (some address) => some (address, r, heap)
  | some none =>
    some (heap.length, { r with stateMonRes := r.stateMonRes.set state (some heap.length) },
      heap ++ [ops.fresh])

/-- Lines 36 to 43 of `setMonotonicity`: the update of the bit of `state`, and of the
done flag of the global result. `address` is the pointer `stateMonRes[state]`. -/
def LocalMonotonicityResult.updateStatesMonotone {MR Var : Type}
    (ops : MonotonicityResultOps MR Var) (r : LocalMonotonicityResult) (state : Nat)
    (address : Nat) (mon : Monotonicity) (heap : Heap MR) :
    Option (LocalMonotonicityResult × Heap MR) :=
  if mon = Monotonicity.Unknown ∨ mon = Monotonicity.Not then
    match bitSet r.statesMonotone state false with
    | none => none
    | some bits => some ({ r with statesMonotone := bits }, heap)
  else
    match heap[address]? with
    | none => none
    | some object =>
      match bitSet r.statesMonotone state (ops.isAllMonotonicity object) with
      | none => none
      | some bits =>
        if LocalMonotonicityResult.isDone { r with statesMonotone := bits } then
          match heap.modify r.globalMonotonicityResult ops.setDone with
          | none => none
          | some heap2 => some ({ r with statesMonotone := bits }, heap2)
        else some ({ r with statesMonotone := bits }, heap)

/-- Method `LocalMonotonicityResult::setMonotonicity`; `none` for a state outside the
vectors or a pointer to no object. -/
def LocalMonotonicityResult.setMonotonicity {MR Var : Type}
    (ops : MonotonicityResultOps MR Var) (r : LocalMonotonicityResult) (state : Nat)
    (var : Var) (mon : Monotonicity) (heap : Heap MR) :
    Option (LocalMonotonicityResult × Heap MR) :=
  match r.ensureStateResult ops state heap with
  | none => none
  | some (address, r1, heap1) =>
    match heap1.modify address (fun object => ops.addMonotonicityResult object var mon) with
    | none => none
    | some heap2 =>
      match heap2.modify r1.globalMonotonicityResult
          (fun object => ops.updateMonotonicityResult object var mon) with
      | none => none
      | some heap3 => r1.updateStatesMonotone ops state address mon heap3

/-- The `for` loop of `copy`: `entries` are the pointers `stateMonRes[state]`,
`stateMonRes[state + 1]`, … of the original still to be visited; for every pointer that
is not null the copy gets the pointer returned by `MonotonicityResult::copy()`. That
this method of the absent class returns a pointer to a new object is taken from the
spec ("new state-result objects, new global-result object"). -/
def copyStateResults {MR Var : Type} (ops : MonotonicityResultOps MR Var) :
    List (Option Nat) → Nat → LocalMonotonicityResult → Heap MR →
      Option (LocalMonotonicityResult × Heap MR)
  | [], _, copy, heap => some (copy, heap)
  | none :: entries, state, copy, heap =>
    copyStateResults ops entries (state + 1) copy heap
  | some address :: entries, state, copy, heap =>
    match heap[address]? with
    | none => none
    | some object =>
      match copy.setMonotonicityResult state (some heap.length) with
      | none => none
      | some copy1 =>
        copyStateResults ops entries (state + 1) copy1 (heap ++ [ops.copy object])

/-- Method `LocalMonotonicityResult::copy`. The result is the members of the new object
and the heap; `none` for a pointer to no object. -/
def LocalMonotonicityResult.copy {MR Var : Type} (ops : MonotonicityResultOps MR Var)
    (r : LocalMonotonicityResult) (heap : Heap MR) :
    Option (LocalMonotonicityResult × Heap MR) :=
  match copyStateResults ops r.stateMonRes 0
      (LocalMonotonicityResult.construct ops r.stateMonRes.length heap).1
      (LocalMonotonicityResult.construct ops r.stateMonRes.length heap).2 with
  | none => none
  | some (copy1, heap1) =>
    match heap1[r.globalMonotonicityResult]? with
    | none => none
    | some global =>
      some ((copy1.setGlobalMonotonicityResult heap1.length).setStatesMonotone
              r.statesMonotone,
            heap1 ++ [ops.copy global])

/-- A call of one of the methods `setMonotonicity`, `setConstant`, `setDone`. -/
inductive Call (Var : Type) where
  | setMonotonicity (state : Nat) (var : Var) (mon : Monotonicity)
  | setConstant (state : Nat)
  | setDone (done : Bool)

/-- The effect of a call on a result and the heap. -/
def LocalMonotonicityResult.call {MR Var : Type} (ops : MonotonicityResultOps MR Var)
    (r : LocalMonotonicityResult) (heap : Heap MR) :
    Call Var → Option (LocalMonotonicityResult × Heap MR)
  | Call.setMonotonicity state var mon => r.setMonotonicity ops state var mon heap
  | Call.setConstant state =>
    match r.setConstant state with
    | none => none
    | some r1 => some (r1, heap)
  | Call.setDone done => some (r.setDone done, heap)

/-- The effect of a sequence of calls, first call first. -/
def LocalMonotonicityResult.calls {MR Var : Type} (ops : MonotonicityResultOps MR Var) :
    List (Call Var) → LocalMonotonicityResult → Heap MR →
      Option (LocalMonotonicityResult × Heap MR)
  | [], r, heap => some (r, heap)
  | c :: rest, r, heap =>
    match r.call ops heap c with
    | none => none
    | some (r1, heap1) => LocalMonotonicityResult.calls ops rest r1 heap1

/-- The pointers of a result point to objects of the heap, no per-state pointer is the
pointer to the global result, and the bit vector has one bit per state. The constructor
establishes this, and `setMonotonicity`, `setConstant`, `setDone` and `copy` keep it. -/
def WellFormed {MR : Type} (r : LocalMonotonicityResult) (heap : Heap MR) : Prop :=
  r.globalMonotonicityResult < heap.length
    ∧ r.statesMonotone.length = r.stateMonRes.length
    ∧ ∀ address, some address ∈ r.stateMonRes →
        address < heap.length ∧ address ≠ r.globalMonotonicityResult

/-- The address is one of the pointers of the result. -/
def Owns (r : LocalMonotonicityResult) (address : Nat) : Prop :=
  address = r.globalMonotonicityResult ∨ some address ∈ r.stateMonRes

/-- The "done was forced" of a sequence of calls: the argument of the last `setDone`
call, or the initial value when there is none. -/
def forcedDone {Var : Type} : List (Call Var) → Bool → Bool
  | [], forced => forced
  | Call.setDone done :: rest, _ => forcedDone rest done
  | _ :: rest, forced => forcedDone rest forced

/-- Whether a sequence of calls holds a call `setMonotonicity(state, …)`. -/
def setsMonotonicityOf {Var : Type} (state : Nat) : List (Call Var) → Bool
  | [] => false
  | Call.setMonotonicity s _ _ :: rest => decide (s = state) || setsMonotonicityOf state rest
  | _ :: rest => setsMonotonicityOf state rest

/-- Whether a sequence of calls holds a call `setConstant(state)`. -/
def setsConstant {Var : Type} (state : Nat) : List (Call Var) → Bool
  | [] => false
  | Call.setConstant s :: rest => decide (s = state) || setsConstant state rest
  | _ :: rest => setsConstant state rest

/-- The object that holds the classifications of a state before a call of
`setMonotonicity`: the object `stateMonRes[state]` points to, or the new object the call
makes for a null pointer. -/
def stateObject {MR Var : Type} (ops : MonotonicityResultOps MR Var)
    (r : LocalMonotonicityResult) (heap : Heap MR) (state : Nat) : MR :=
  match r.stateMonRes[state]? with
  | some (some address) => heap[address]?.getD ops.fresh
  | _ => ops.fresh

/-- The bit that `setMonotonicity(state, var, mon)` writes for the state when its
classifications were held by `object`. -/
def monotoneBit {MR Var : Type} (ops : MonotonicityResultOps MR Var) (object : MR)
    (var : Var) (mon : Monotonicity) : Bool :=
  if mon = Monotonicity.Unknown ∨ mon = Monotonicity.Not then false
  else ops.isAllMonotonicity (ops.addMonotonicityResult object var mon)

/-! ### A model of class `MonotonicityResult` -/

/-- Modelled from the spec: the "combine evidence" operation on classifications, the
join of the lattice `Unknown ⊑ Constant ⊑ {Incr, Decr} ⊑ Not` of the design
notes ("`Unknown` is least informative; `Not` defeats both `Increasing` and
`Decreasing`", "`Constant` comparable to both"). -/
def Monotonicity.combine : Monotonicity → Monotonicity → Monotonicity
  | Monotonicity.Unknown, m => m
  | m, Monotonicity.Unknown => m
  | Monotonicity.Not, _ => Monotonicity.Not
  | _, Monotonicity.Not => Monotonicity.Not
  | Monotonicity.Constant, m => m
  | m, Monotonicity.Constant => m
  | Monotonicity.Incr, Monotonicity.Incr => Monotonicity.Incr
  | Monotonicity.Decr, Monotonicity.Decr => Monotonicity.Decr
  | Monotonicity.Incr, Monotonicity.Decr => Monotonicity.Not
  | Monotonicity.Decr, Monotonicity.Incr => Monotonicity.Not

/-- Modelled from the spec: an object of class `MonotonicityResult`, which is not part of
the sources: "a per-parameter monotonicity mapping" and a done flag. -/
structure MonotonicityResult (Var : Type) where
  monotonicityResult : List (Var × Monotonicity)
  done : Bool
deriving DecidableEq, Repr

/-- Modelled from the spec: "records/merges a classification" in an object of the absent
class `MonotonicityResult`: the classification of a parameter without an entry is
recorded, that of a parameter with an entry is combined with the entry. -/
def MonotonicityResult.record {Var : Type} [DecidableEq Var] (r : MonotonicityResult Var)
    (var : Var) (mon : Monotonicity) : MonotonicityResult Var :=
  match r.monotonicityResult.lookup var with
  | none => { r with monotonicityResult := assocSet var mon r.monotonicityResult }
  | some old =>
    { r with monotonicityResult := assocSet var (old.combine mon) r.monotonicityResult }

/-- Modelled from the spec: the operations of the absent class `MonotonicityResult`. A
parameter "never set" is `Unknown`; `addMonotonicityResult` and
`updateMonotonicityResult` record or merge; `isAllMonotonicity` holds when the result is
"fully determined for all tracked parameters", every recorded classification being
`Incr`, `Decr` or `Constant`; `copy` gives an object with the same content. -/
def specMonotonicityResultOps (Var : Type) [DecidableEq Var] :
    MonotonicityResultOps (MonotonicityResult Var) Var where
  fresh := { monotonicityResult := [], done := false }
  getMonotonicity := fun r var =>
    (r.monotonicityResult.lookup var).getD Monotonicity.Unknown
  addMonotonicityResult := fun r var mon => r.record var mon
  updateMonotonicityResult := fun r var mon => r.record var mon
  isAllMonotonicity := fun r =>
    r.monotonicityResult.all
      (fun e => decide (e.2 = Monotonicity.Incr ∨ e.2 = Monotonicity.Decr
        ∨ e.2 = Monotonicity.Constant))
  setDone := fun r => { r with done := true }
  copy := fun r => r

/-- No classification is recorded for `(state, var)`: the pointer of the state is null,
or the object it points to has no entry for `var`. -/
def NotRecorded {Var : Type} [DecidableEq Var] (r : LocalMonotonicityResult)
    (heap : Heap (MonotonicityResult Var)) (state : Nat) (var : Var) : Prop :=
  r.stateMonRes[state]? = some none
    ∨ ∃ address object, r.stateMonRes[state]? = some (some address)
        ∧ heap[address]? = some object ∧ object.monotonicityResult.lookup var = none

/-! ## Concrete inputs -/

/-- A value type that carries the sign pair of its derivative: a weight is the pair that
`checkDerivative` reports for it, and it is constant when both signs hold. -/
def signOps : ValueOps (Bool × Bool) Unit Unit where
  isConstant := fun v => v.1 && v.2
  zero := (true, true)
  derivative := fun v _ => v
  checkDerivative := fun d _ => d

/-- The constant weight `1`. -/
def weightOne : AffineWeight := { const := 1, param := 0, slope := 0 }

/-- A chain over three states: state `0` moves to state `1` with weight `p` and to state
`2` with weight `1 − p`; states `1` and `2` are absorbing. -/
def chainMatrix : SparseMatrix AffineWeight where
  rows :=
    [ [{ column := 1, value := weightP 0 }, { column := 2, value := weightOneMinusP 0 }],
      [{ column := 1, value := weightOne }],
      [{ column := 2, value := weightOne }] ]
  columnCount := 3

/-- A matrix over sign pairs whose state `0` has three successors with transitions
classified `Incr`, `Constant`, `Decr`, and whose state `1` has three successors with
transitions classified `Incr`, `Not`, `Decr`. -/
def signMatrix : SparseMatrix (Bool × Bool) where
  rows :=
    [ [{ column := 1, value := (true, false) }, { column := 2, value := (true, true) },
       { column := 3, value := (false, true) }],
      [{ column := 1, value := (true, false) }, { column := 2, value := (false, false) },
       { column := 3, value := (false, true) }] ]
  columnCount := 4

/-- An order whose `sortStates` keeps the states in the order given. -/
def keepOrder : Order := { sortStates := fun states => states }

/-- An order whose `sortStates` reverses the states given. -/
def reverseOrder : Order := { sortStates := fun states => states.reverse }

/-- An order that can rank nothing over `n` states: `sortStates` returns the sentinel `n`
for every state. -/
def unplacedOrder (n : Nat) : Order := { sortStates := fun states => states.map (fun _ => n) }

/-- A deterministic checker that finds every `Greater` candidate whose first operand is
state `0` `VALID`, every other `Greater` candidate `UNKNOWN`, and every `Equal`
candidate `INVALID`. -/
def sampleVerdict (assumption : BinaryRelationExpression) (_ : Unit) (_ : Unit) :
    AssumptionStatus :=
  match assumption.relationType with
  | RelationType.Greater =>
    if assumption.firstOperand.index = 0 then AssumptionStatus.VALID
    else AssumptionStatus.UNKNOWN
  | _ => AssumptionStatus.INVALID

/-- A deterministic checker that finds every `Greater` candidate `UNKNOWN` and every
other candidate `INVALID`. -/
def undecidedVerdict (assumption : BinaryRelationExpression) (_ : Unit) (_ : Unit) :
    AssumptionStatus :=
  match assumption.relationType with
  | RelationType.Greater => AssumptionStatus.UNKNOWN
  | _ => AssumptionStatus.INVALID

/-- The state of a maker that has not allocated anything yet. -/
def freshState : MakerState Unit := { checker := (), nextAddress := 0 }

/-- The pointer to the candidate "`Greater` with first operand state `0` and second operand
state `1`" allocated at `address`. -/
def samplePtr (address : Nat) : SharedPtr :=
  { address := address
    target := { firstOperand := { index := 0 }, secondOperand := { index := 1 },
                relationType := RelationType.Greater } }

/-- The chain of `chainMatrix` with the weights of state `0` written in the parameter
with index `1`: `q` to state `1` and `1 − q` to state `2`. -/
def otherParameterMatrix : SparseMatrix AffineWeight where
  rows :=
    [ [{ column := 1, value := weightP 1 }, { column := 2, value := weightOneMinusP 1 }],
      [{ column := 1, value := weightOne }],
      [{ column := 2, value := weightOne }] ]
  columnCount := 3

/-- A `LocalMonotonicityResult` over two states as its constructor makes it on an empty
heap, with class `MonotonicityResult` as modelled from the spec over parameters numbered
by `Nat`. -/
def newResult : LocalMonotonicityResult × Heap (MonotonicityResult Nat) :=
  LocalMonotonicityResult.construct (specMonotonicityResultOps Nat) 2 []

/-- The calls `setConstant(0)`, `setMonotonicity(1, 0, Incr)`, `setDone(true)`. -/
def sampleCalls : List (Call Nat) :=
  [Call.setConstant 0, Call.setMonotonicity 1 0 Monotonicity.Incr, Call.setDone true]

/-- The members of `newResult` after `sampleCalls`. -/
def ranResult : LocalMonotonicityResult :=
  { stateMonRes := [none, some 1]
    globalMonotonicityResult := 0
    statesMonotone := [true, true]
    done := true
    indexMinimize := -1
    indexMaximize := -1 }

/-- The heap of `newResult` after `sampleCalls`. -/
def ranHeap : Heap (MonotonicityResult Nat) :=
  [{ monotonicityResult := [(0, Monotonicity.Incr)], done := true },
   { monotonicityResult := [(0, Monotonicity.Incr)], done := false }]

/-- A `LocalMonotonicityResult` over one state, forced done by `setDone(true)` and with
its index fields fixed by `setIndexMinimize(5)` and `setIndexMaximize(7)`; the state is
not marked constant. -/
def forcedDoneResult : Option (LocalMonotonicityResult × Heap (MonotonicityResult Nat)) :=
  match ((LocalMonotonicityResult.construct (specMonotonicityResultOps Nat) 1 []).1.setDone
      true).setIndexMinimize true 5 with
  | none => none
  | some r =>
    some (r.setIndexMaximize 7,
      (LocalMonotonicityResult.construct (specMonotonicityResultOps Nat) 1 []).2)

/-- What a result reports for `isDone()`, `getIndexMinimize()` and `getIndexMaximize()`. -/
def doneAndIndices (r : LocalMonotonicityResult) : Bool × Int × Int :=
  (r.isDone, r.getIndexMinimize, r.getIndexMaximize)

/-- The candidate that the claimed priority order puts first for the states `0` and `1`:
`Greater` with first operand state `0` and second operand state `1`. -/
def claimedFirstCandidate : BinaryRelationExpression :=
  { firstOperand := { index := 0 }, secondOperand := { index := 1 },
    relationType := RelationType.Greater }

/-- The relation with the operands of `assumption` exchanged. -/
def BinaryRelationExpression.swapped (assumption : BinaryRelationExpression) :
    BinaryRelationExpression :=
  { assumption with
    firstOperand := assumption.secondOperand
    secondOperand := assumption.firstOperand }

/-- The assumptions a recording checker was asked to validate by a call that returned. -/
def askedBy {σ : Type} (result : Except Failure (AssumptionMap × MakerState σ)) :
    Option σ :=
  match result with
  | Except.ok p => some p.2.checker
  | Except.error _ => none

/-! ## EqualParameterReducer: `joinDuplicateTransitions` and `jipConvert`

The functions of `storm-pars/derivative/EqualParameterReducer.cpp` that the header
`storm-pars/transformer/TimeTravelling.h` documents. The values of the matrix are
rational functions; of their arithmetic the two functions use `+` and `*`, which are the
operations of the value type here, and the tests `isZero()` and `isConstant()`. A
`std::map` is an association list read with `List.lookup` and written with `assocSet`. -/

/-- The tests on `RationalFunction` that `jipConvert` calls; the class is not part of the
sources. -/
structure RationalFunctionOps (V : Type) where
  isZero : V → Bool
  isConstant : V → Bool

/-- A `storage::FlexibleSparseMatrix`: the vector of its rows, each a vector of entries. -/
abbrev FlexibleSparseMatrix (V : Type) := List (List (MatrixEntry V))

/-- The local variables `keyOrder` and `existingEntries` of `joinDuplicateTransitions`. -/
structure JoinState (V : Type) where
  keyOrder : List Nat
  existingEntries : List (Nat × MatrixEntry V)

/-- The first `for` loop of `joinDuplicateTransitions`: the value of an entry whose column
is in `existingEntries` is added to the entry there, an entry with a new column is
stored and its column appended to `keyOrder`. -/
def joinLoop {V : Type} [Add V] : List (MatrixEntry V) → JoinState V → JoinState V
  | [], acc => acc
  | entry :: rest, acc =>
    match acc.existingEntries.lookup entry.column with
    | some existing =>
      joinLoop rest
        { acc with
          existingEntries :=
            assocSet entry.column { existing with value := existing.value + entry.value }
              acc.existingEntries }
    | none =>
      joinLoop rest
        { keyOrder := acc.keyOrder ++ [entry.column]
          existingEntries := assocSet entry.column entry acc.existingEntries }

/-- The second `for` loop of `joinDuplicateTransitions`: `existingEntries.at(key)` for
every key of `keyOrder`; `none` when `at` throws for a key that is not in the map. -/
def collectEntries {V : Type} (existingEntries : List (Nat × MatrixEntry V)) :
    List Nat → Option (List (MatrixEntry V))
  | [] => some []
  | key :: rest =>
    match existingEntries.lookup key with
    | none => none
    | some entry =>
      match collectEntries existingEntries rest with
      | none => none
      | some newEntries => some (entry :: newEntries)

/-- Function `EqualParameterReducer::joinDuplicateTransitions`. -/
def joinDuplicateTransitions {V : Type} [Add V] (entries : List (MatrixEntry V)) :
    Option (List (MatrixEntry V)) :=
  let acc := joinLoop entries { keyOrder := [], existingEntries := [] }
  collectEntries acc.existingEntries acc.keyOrder

/-- Insertion of an entry into a row sorted by descending column, before the first entry
with a smaller column. -/
def insertByColumn {V : Type} (entry : MatrixEntry V) :
    List (MatrixEntry V) → List (MatrixEntry V)
  | [] => [entry]
  | first :: rest =>
    if first.column < entry.column then entry :: first :: rest
    else first :: insertByColumn entry rest

/-- The call of `std::sort` in `jipConvert`, with the comparison
`a.getColumn() > b.getColumn()`: the row sorted by descending column. `std::sort` does
not say in which order it leaves entries with equal columns; here an entry comes behind
the entries of equal column that followed it in the row. -/
def sortByColumn {V : Type} : List (MatrixEntry V) → List (MatrixEntry V)
  | [] => []
  | entry :: rest => insertByColumn entry (sortByColumn rest)

/-- The matrix and the map `alreadyVisited`, both of which `jipConvert` changes through a
reference. -/
structure JipState (V : Type) where
  matrix : FlexibleSparseMatrix V
  alreadyVisited : List (Nat × Bool)

/-- The ways in which a call of `jipConvert` does not return: a read or write outside a
vector or a `push_back` to the row that is being iterated over (undefined behaviour),
`std::out_of_range` thrown by `stateRewardVector->at`, and, of the embedding only, a
recursion deeper than the fuel given. -/
inductive JipFailure where
  | outOfBounds
  | iteratedRowChanged
  | outOfRange
  | outOfFuel
deriving DecidableEq, Repr

/-- The value of `constantTransition` for the entry to `nextState`, lines 425 to 436 of
`jipConvert`: `false` for a successor with a non-zero state reward, the value stored in
`alreadyVisited` for a successor that is in the map, and otherwise the result of the
recursive call `call`, made after `alreadyVisited[nextState] = false` and stored in the
map afterwards. -/
def constantTransitionOf {V : Type} (ops : RationalFunctionOps V)
    (stateRewardVector : Option (List V))
    (call : Nat → JipState V → Except JipFailure (Bool × JipState V)) (nextState : Nat)
    (st : JipState V) : Except JipFailure (Bool × JipState V) :=
  let rewarded : Except JipFailure Bool :=
    match stateRewardVector with
    | none => Except.ok false
    | some rewards =>
      match rewards[nextState]? with
      | none => Except.error JipFailure.outOfRange
      | some reward => Except.ok (!ops.isZero reward)
  match rewarded with
  | Except.error e => Except.error e
  | Except.ok true => Except.ok (false, st)
  | Except.ok false =>
    match st.alreadyVisited.lookup nextState with
    | some visited => Except.ok (visited, st)
    | none =>
      match call nextState
          { st with alreadyVisited := assocSet nextState false st.alreadyVisited } with
      | Except.error e => Except.error e
      | Except.ok (constantTransition, st1) =>
        Except.ok (constantTransition,
          { st1 with
            alreadyVisited := assocSet nextState constantTransition st1.alreadyVisited })

/-- Lines 437 to 451 of `jipConvert`: the row of `state` is cleared in the first
iteration; then, for a constant transition, every entry of the row of `nextState` is
appended to the row of `state` with its value multiplied by `probability`, and otherwise
the entry itself is appended. When `nextState` is `state` the loop iterates over the row
it appends to, which is defined only for an empty row. -/
def appendSuccessors {V : Type} [Mul V] (state : Nat) (entry : MatrixEntry V)
    (constantTransition : Bool) (firstIteration : Bool) (matrix : FlexibleSparseMatrix V) :
    Except JipFailure (FlexibleSparseMatrix V) :=
  match matrix[state]? with
  | none => Except.error JipFailure.outOfBounds
  | some row =>
    let cleared := if firstIteration then [] else row
    if constantTransition then
      if entry.column = state then
        if cleared.isEmpty then Except.ok (matrix.set state cleared)
        else Except.error JipFailure.iteratedRowChanged
      else
        match matrix[entry.column]? with
        | none => Except.error JipFailure.outOfBounds
        | some successors =>
          Except.ok (matrix.set state
            (cleared ++ successors.map
              (fun successor =>
                { column := successor.column, value := entry.value * successor.value })))
    else Except.ok (matrix.set state (cleared ++ [entry]))

/-- The `for` loop over `copiedRow` of `jipConvert`. The result is `false` with the
state at the `return false` inside the loop, and `true` with the state at the end of the
loop when the loop runs to its end. -/
def jipLoop {V : Type} [Mul V] (ops : RationalFunctionOps V)
    (stateRewardVector : Option (List V))
    (call : Nat → JipState V → Except JipFailure (Bool × JipState V)) (state : Nat) :
    List (MatrixEntry V) → Bool → JipState V → Except JipFailure (Bool × JipState V)
  | [], _, st => Except.ok (true, st)
  | entry :: rest, firstIteration, st =>
    if ops.isZero entry.value then
      jipLoop ops stateRewardVector call state rest firstIteration st
    else if !ops.isConstant entry.value then Except.ok (false, st)
    else
      match constantTransitionOf ops stateRewardVector call entry.column st with
      | Except.error e => Except.error e
      | Except.ok (constantTransition, st1) =>
        match appendSuccessors state entry constantTransition firstIteration st1.matrix with
        | Except.error e => Except.error e
        | Except.ok matrix =>
          jipLoop ops stateRewardVector call state rest false { st1 with matrix := matrix }

/-- Function `EqualParameterReducer::jipConvert`. The arguments `treeStates` and
`allParameters` are not used by the function and are left out. `fuel` bounds the depth
of the recursion. -/
def jipConvert {V : Type} [Add V] [Mul V] (ops : RationalFunctionOps V)
    (stateRewardVector : Option (List V)) :
    Nat → Nat → JipState V → Except JipFailure (Bool × JipState V)
  | 0, _, _ => Except.error JipFailure.outOfFuel
  | fuel + 1, state, st =>
    match st.matrix[state]? with
    | none => Except.error JipFailure.outOfBounds
    | some copiedRow =>
      match jipLoop ops stateRewardVector (jipConvert ops stateRewardVector fuel) state
          copiedRow true st with
      | Except.error e => Except.error e
      | Except.ok (false, st1) => Except.ok (false, st1)
      | Except.ok (true, st1) =>
        match st1.matrix[state]? with
        | none => Except.error JipFailure.outOfBounds
        | some row =>
          match joinDuplicateTransitions (sortByColumn row) with
          | none => Except.error JipFailure.outOfRange
          | some joined =>
            Except.ok (true, { st1 with matrix := st1.matrix.set state joined })

/-- The columns of a list in the order in which they first occur, after the columns
`seen`. -/
def firstColumns : List Nat → List Nat → List Nat
  | seen, [] => seen
  | seen, c :: rest =>
    if c ∈ seen then firstColumns seen rest else firstColumns (seen ++ [c]) rest

/-- The sum of the values of the entries with column `c`. -/
def columnSum {V : Type} [AddCommMonoid V] (entries : List (MatrixEntry V)) (c : Nat) : V :=
  ((entries.filter (fun e => decide (e.column = c))).map MatrixEntry.value).sum

/-- The sums of the values of the rows of a matrix. -/
def rowSums {V : Type} [AddCommMonoid V] (matrix : FlexibleSparseMatrix V) : List V :=
  matrix.map (fun row => (row.map MatrixEntry.value).sum)

/-- The value a call of `jipConvert` returns and the matrix it leaves, when the call
returns. -/
def returnedAndMatrix {V : Type} (result : Except JipFailure (Bool × JipState V)) :
    Option (Bool × FlexibleSparseMatrix V) :=
  match result with
  | Except.ok p => some (p.1, p.2.matrix)
  | Except.error _ => none

/-- The tests of rational numbers, as constant rational functions: every value is
constant. -/
def constantOps : RationalFunctionOps ℚ where
  isZero := fun v => decide (v = 0)
  isConstant := fun _ => true

/-- A Markov chain over two states: state `0` stays where it is with probability `1/2`
and moves to state `1` with probability `1/2`; state `1` is absorbing. -/
def selfLoopMatrix : FlexibleSparseMatrix ℚ :=
  [ [{ column := 0, value := 1 / 2 }, { column := 1, value := 1 / 2 }],
    [{ column := 1, value := 1 }] ]

/-! ## SparseMultiObjectivePreprocessorResult

Method `containsOnlyTrivialObjectives` of
`storm/modelchecker/multiobjective/preprocessing/SparseMultiObjectivePreprocessorResult.h`. -/

/-- The queries on formulas that `containsOnlyTrivialObjectives` makes; the formula
classes of `storm/logic` are not part of the sources. `F` is a formula, `C` a cumulative
reward formula as `asCumulativeRewardFormula()` gives it; `isTimeBound` and `isStepBound`
are the tests `getTimeBoundReference().isTimeBound()` and
`getTimeBoundReference().isStepBound()`. The method calls `getSubformula` and
`asCumulativeRewardFormula` only on a formula that passed the test standing before
them. -/
structure FormulaOps (F C : Type) where
  isRewardOperatorFormula : F → Bool
  getSubformula : F → F
  isTotalRewardFormula : F → Bool
  isLongRunAverageRewardFormula : F → Bool
  isCumulativeRewardFormula : F → Bool
  asCumulativeRewardFormula : F → C
  isMultiDimensional : C → Bool
  isTimeBound : C → Bool
  isStepBound : C → Bool

/-- An objective, of which the method reads the member `formula`. -/
structure Objective (F : Type) where
  formula : F

/-- Method `SparseMultiObjectivePreprocessorResult::containsOnlyTrivialObjectives`, as a
function of the member `objectives`. -/
def containsOnlyTrivialObjectives {F C : Type} (ops : FormulaOps F C) :
    List (Objective F) → Bool
  | [] => true
  | obj :: rest =>
    if ops.isRewardOperatorFormula obj.formula
        && ops.isTotalRewardFormula (ops.getSubformula obj.formula) then
      containsOnlyTrivialObjectives ops rest
    else if ops.isRewardOperatorFormula obj.formula
        && ops.isLongRunAverageRewardFormula (ops.getSubformula obj.formula) then
      containsOnlyTrivialObjectives ops rest
    else if ops.isRewardOperatorFormula obj.formula
        && ops.isCumulativeRewardFormula (ops.getSubformula obj.formula) then
      let subf := ops.asCumulativeRewardFormula (ops.getSubformula obj.formula)
      if !ops.isMultiDimensional subf && (ops.isTimeBound subf || ops.isStepBound subf) then
        containsOnlyTrivialObjectives ops rest
      else false
    else false

/-- The objective is trivial: a reward operator formula whose subformula is a total
reward formula, a long-run average reward formula, or a cumulative reward formula that
is not multi-dimensional and whose bound is a time bound or a step bound. -/
def TrivialObjective {F C : Type} (ops : FormulaOps F C) (obj : Objective F) : Prop :=
  ops.isRewardOperatorFormula obj.formula = true
    ∧ (ops.isTotalRewardFormula (ops.getSubformula obj.formula) = true
      ∨ ops.isLongRunAverageRewardFormula (ops.getSubformula obj.formula) = true
      ∨ (ops.isCumulativeRewardFormula (ops.getSubformula obj.formula) = true
        ∧ ops.isMultiDimensional
            (ops.asCumulativeRewardFormula (ops.getSubformula obj.formula)) = false
        ∧ (ops.isTimeBound
              (ops.asCumulativeRewardFormula (ops.getSubformula obj.formula)) = true
          ∨ ops.isStepBound
              (ops.asCumulativeRewardFormula (ops.getSubformula obj.formula)) = true)))

/-! ### A value type with a parameter -/

/-- A stand-in for a rational function of one parameter `p`, used for concrete inputs:
the function `const + slope · p` with rational coefficients. The class
`RationalFunction` is not part of the sources. -/
structure LinearFunction where
  const : ℚ
  slope : ℚ
deriving DecidableEq

/-- The sum of two functions `const + slope · p`. -/
def LinearFunction.add (f g : LinearFunction) : LinearFunction :=
  { const := f.const + g.const, slope := f.slope + g.slope }

/-- The product of two functions `const + slope · p`, which is of this form again when one
of the factors is constant, as the left factor of every product that `jipConvert` forms
is; of any other product the term in `p²` is left out. -/
def LinearFunction.mul (f g : LinearFunction) : LinearFunction :=
  { const := f.const * g.const, slope := f.const * g.slope + f.slope * g.const }

instance : Add LinearFunction := ⟨LinearFunction.add⟩

instance : Mul LinearFunction := ⟨LinearFunction.mul⟩

/-- The tests `isZero()` and `isConstant()` on functions `const + slope · p`. -/
def linearOps : RationalFunctionOps LinearFunction where
  isZero := fun f => decide (f.const = 0 ∧ f.slope = 0)
  isConstant := fun f => decide (f.slope = 0)

/-- The constant function with value `c`. -/
def constantFunction (c : ℚ) : LinearFunction := { const := c, slope := 0 }

/-- A parametric Markov chain over four states: state `0` moves to state `1` with
probability `1/2`, to state `2` with probability `p/2` and to state `3` with probability
`(1 − p)/2`; the states `1`, `2` and `3` are absorbing. -/
def mixedRowMatrix : FlexibleSparseMatrix LinearFunction :=
  [ [{ column := 1, value := constantFunction (1 / 2) },
     { column := 2, value := { const := 0, slope := 1 / 2 } },
     { column := 3, value := { const := 1 / 2, slope := -1 / 2 } }],
    [{ column := 1, value := constantFunction 1 }],
    [{ column := 2, value := constantFunction 1 }],
    [{ column := 3, value := constantFunction 1 }] ]

/-- A Markov chain over three states with a cycle of constant transitions: state `0`
moves to state `1`, state `1` moves back to state `0` with probability `1/2` and to
state `2` with probability `1/2`, and state `2` is absorbing. -/
def cycleMatrix : FlexibleSparseMatrix LinearFunction :=
  [ [{ column := 1, value := constantFunction 1 }],
    [{ column := 0, value := constantFunction (1 / 2) },
     { column := 2, value := constantFunction (1 / 2) }],
    [{ column := 2, value := constantFunction 1 }] ]

/-- The matrix that `jipConvert(0, …)` makes of `cycleMatrix`. -/
def cycleMatrixConverted : FlexibleSparseMatrix LinearFunction :=
  [ [{ column := 2, value := constantFunction (1 / 2) },
     { column := 1, value := constantFunction (1 / 2) }],
    [{ column := 2, value := constantFunction (1 / 2) },
     { column := 1, value := constantFunction (1 / 2) }],
    [{ column := 2, value := constantFunction 1 }] ]

/-- A parametric Markov chain over three states: state `0` moves to state `1` with
probability `p` and to state `2` with probability `1 − p`; the states `1` and `2` are
absorbing. -/
def parametricRowMatrix : FlexibleSparseMatrix LinearFunction :=
  [ [{ column := 1, value := { const := 0, slope := 1 } },
     { column := 2, value := { const := 1, slope := -1 } }],
    [{ column := 1, value := constantFunction 1 }],
    [{ column := 2, value := constantFunction 1 }] ]

/-- The matrix that `jipConvert(0, …)` leaves of `mixedRowMatrix` when it returns
`false`: the row of state `0` holds the entry made of its first, constant entry only. -/
def mixedRowMatrixLeft : FlexibleSparseMatrix LinearFunction :=
  [ [{ column := 1, value := constantFunction (1 / 2) }],
    [{ column := 1, value := constantFunction 1 }],
    [{ column := 2, value := constantFunction 1 }],
    [{ column := 3, value := constantFunction 1 }] ]

/-! ### Predicates on the arguments of `jipConvert` -/

/-- Every column of the matrix is a state, that is a row, of the matrix. -/
def ColumnsInRange {V : Type} (matrix : FlexibleSparseMatrix V) : Prop :=
  ∀ row ∈ matrix, ∀ e ∈ row, e.column < matrix.length

/-- The number of states of the matrix that are not in `alreadyVisited`. -/
def unvisitedCount {V : Type} (st : JipState V) : Nat :=
  (List.range st.matrix.length).countP (fun s => (st.alreadyVisited.lookup s).isNone)

/-- The state reward vector, when there is one, has a reward for each of `n` states. -/
def RewardsCover {V : Type} (stateRewardVector : Option (List V)) (n : Nat) : Prop :=
  ∀ rewards, stateRewardVector = some rewards → n ≤ rewards.length

/-- The row of `state` can be rebuilt without appending to it the entries of the row
itself: `state` is in `alreadyVisited` with the value `false`, as it is during a
recursive call for it, or the row holds no non-zero constant entry to `state`. -/
def SelfSafe {V : Type} (ops : RationalFunctionOps V) (row : List (MatrixEntry V))
    (state : Nat) (st : JipState V) : Prop :=
  st.alreadyVisited.lookup state = some false
    ∨ ∀ x ∈ row, x.column = state → ops.isZero x.value = true ∨ ops.isConstant x.value = false

/-- What a call of `jipConvert` that returns keeps: the number of rows, that the columns
are states, and the entries that `alreadyVisited` had. -/
def JipState.Keeps {V : Type} (st st2 : JipState V) : Prop :=
  st2.matrix.length = st.matrix.length
    ∧ (ColumnsInRange st.matrix → ColumnsInRange st2.matrix)
    ∧ ∀ k v, st.alreadyVisited.lookup k = some v → st2.alreadyVisited.lookup k = some v

/-- No two states share a per-state result: the pointers of `stateMonRes` that are not
null are pairwise different. The constructor establishes this and `setMonotonicity`
keeps it. -/
def DistinctPointers (r : LocalMonotonicityResult) : Prop :=
  ∀ i j address : Nat, i ≠ j → r.stateMonRes[i]? = some (some address) →
    r.stateMonRes[j]? ≠ some (some address)

/-- A `LocalMonotonicityResult` over two states that both have a per-state result: the
global result is the object at address `0`, the results of the states `0` and `1` are
the objects at the addresses `1` and `2`. -/
def twoResults : LocalMonotonicityResult :=
  { stateMonRes := [some 1, some 2]
    globalMonotonicityResult := 0
    statesMonotone := [true, false]
    done := false
    indexMinimize := 4
    indexMaximize := 5 }

/-- The heap of `twoResults`. -/
def twoResultsHeap : Heap (MonotonicityResult Nat) :=
  [{ monotonicityResult := [(0, Monotonicity.Not)], done := false },
   { monotonicityResult := [(0, Monotonicity.Incr)], done := false },
   { monotonicityResult := [(0, Monotonicity.Not)], done := false }]

/-! ## EqualParameterReducer: `updateTreeStates`

A `std::set<uint_fast64_t>` is the list of its elements in ascending order, without
duplicates; `std::map<uint_fast64_t, std::set<uint_fast64_t>>` is an association list. -/

/-- The call `set.emplace(x)` on a `std::set`: `x` is put at its place in the ascending
order unless it is an element already. -/
def setInsert (x : Nat) (set : List Nat) : List Nat :=
  if x ∈ set then set else set.orderedInsert (fun a b => a ≤ b) x

/-- The loop `for (state : states) target.emplace(state)`. -/
def insertAll : List Nat → List Nat → List Nat
  | [], target => target
  | state :: rest, target => insertAll rest (setInsert state target)

/-- The map `treeStates.at(parameter)`, from a state to its set of tree states. -/
abbrev TreeMap := List (Nat × List Nat)

/-- The set that `treeStates.at(parameter)[state]` denotes: the set stored for the state,
or the empty set that `operator[]` makes for a state that is not in the map. -/
def TreeMap.get (m : TreeMap) (state : Nat) : List Nat :=
  (m.lookup state).getD []

/-- The map after `operator[]` was evaluated for `state`: a state that was not in the map
is in it with the empty set. -/
def TreeMap.touch (m : TreeMap) (state : Nat) : TreeMap :=
  match m.lookup state with
  | some _ => m
  | none => assocSet state [] m

/-- The map `treeStates.at(parameter)` and the local variable `newWorkingSet` of the
`while` loop of `updateTreeStates`. -/
structure TreeScan where
  states : TreeMap
  newWorkingSet : List Nat

/-- The body of the loop `for (entry : backwardsTransitions.getRow(row))` of
`updateTreeStates`: for a constant entry, nothing but the evaluations of `operator[]`
happens when the tree states of `row` are a subset of those of `entry.getColumn()`; else
they are added to those of `entry.getColumn()`, which is put into `newWorkingSet`. The
test loop evaluates `operator[]` for `row`, and for `entry.getColumn()` in each of its
iterations. -/
def processEntry {V : Type} (ops : RationalFunctionOps V) (row : Nat) (entry : MatrixEntry V)
    (acc : TreeScan) : TreeScan :=
  if ops.isConstant entry.value then
    let touched := acc.states.touch row
    let rowStates := touched.get row
    let touched2 := if rowStates.isEmpty then touched else touched.touch entry.column
    if rowStates.all (fun state => decide (state ∈ touched2.get entry.column)) then
      { acc with states := touched2 }
    else
      { states := assocSet entry.column (insertAll rowStates (touched2.get entry.column))
          touched2
        newWorkingSet := setInsert entry.column acc.newWorkingSet }
  else acc

/-- The loop `for (entry : backwardsTransitions.getRow(row))`. -/
def processEntries {V : Type} (ops : RationalFunctionOps V) (row : Nat) :
    List (MatrixEntry V) → TreeScan → TreeScan
  | [], acc => acc
  | entry :: rest, acc => processEntries ops row rest (processEntry ops row entry acc)

/-- The test `stateRewardVector && !stateRewardVector->at(row).isZero()`; `at` throws
`std::out_of_range` for a state without a reward. -/
def hasReward {V : Type} (ops : RationalFunctionOps V) (stateRewardVector : Option (List V))
    (row : Nat) : Except JipFailure Bool :=
  match stateRewardVector with
  | none => Except.ok false
  | some rewards =>
    match rewards[row]? with
    | none => Except.error JipFailure.outOfRange
    | some reward => Except.ok (!ops.isZero reward)

/-- The body of the loop `for (row : workingSet)` of `updateTreeStates`: a state with a
reward is passed over, for any other state the entries of its row of
`backwardsTransitions` are processed. -/
def processRow {V : Type} (ops : RationalFunctionOps V) (stateRewardVector : Option (List V))
    (backwardsTransitions : SparseMatrix V) (row : Nat) (acc : TreeScan) :
    Except JipFailure TreeScan :=
  match hasReward ops stateRewardVector row with
  | Except.error e => Except.error e
  | Except.ok true => Except.ok acc
  | Except.ok false =>
    match backwardsTransitions.getRow row with
    | none => Except.error JipFailure.outOfBounds
    | some entries => Except.ok (processEntries ops row entries acc)

/-- The loop `for (row : workingSet)`. -/
def processWorkingSet {V : Type} (ops : RationalFunctionOps V)
    (stateRewardVector : Option (List V)) (backwardsTransitions : SparseMatrix V) :
    List Nat → TreeScan → Except JipFailure TreeScan
  | [], acc => Except.ok acc
  | row :: rest, acc =>
    match processRow ops stateRewardVector backwardsTransitions row acc with
    | Except.error e => Except.error e
    | Except.ok acc1 =>
      processWorkingSet ops stateRewardVector backwardsTransitions rest acc1

/-- The loop `while (!workingSet.empty())` of `updateTreeStates` for a parameter that has
an entry in `treeStates`; `fuel` bounds the number of iterations. -/
def treeStatesLoop {V : Type} (ops : RationalFunctionOps V)
    (stateRewardVector : Option (List V)) (backwardsTransitions : SparseMatrix V) :
    Nat → List Nat → TreeMap → Except JipFailure TreeMap
  | 0, workingSet, states =>
    if workingSet.isEmpty then Except.ok states else Except.error JipFailure.outOfFuel
  | fuel + 1, workingSet, states =>
    if workingSet.isEmpty then Except.ok states
    else
      match processWorkingSet ops stateRewardVector backwardsTransitions workingSet
          { states := states, newWorkingSet := [] } with
      | Except.error e => Except.error e
      | Except.ok acc =>
        treeStatesLoop ops stateRewardVector backwardsTransitions fuel acc.newWorkingSet
          acc.states

/-- The loop `while (!workingSet.empty())` for a parameter that has no entry in
`treeStates`: `treeStates.at(parameter)` throws `std::out_of_range` at the first constant
entry, and without one `newWorkingSet` stays empty, so that the loop ends after one
iteration. -/
def absentParameterLoop {V : Type} (ops : RationalFunctionOps V)
    (stateRewardVector : Option (List V)) (backwardsTransitions : SparseMatrix V) :
    List Nat → Except JipFailure Unit
  | [] => Except.ok ()
  | row :: rest =>
    match hasReward ops stateRewardVector row with
    | Except.error e => Except.error e
    | Except.ok true => absentParameterLoop ops stateRewardVector backwardsTransitions rest
    | Except.ok false =>
      match backwardsTransitions.getRow row with
      | none => Except.error JipFailure.outOfBounds
      | some entries =>
        if entries.any (fun entry => ops.isConstant entry.value) then
          Except.error JipFailure.outOfRange
        else absentParameterLoop ops stateRewardVector backwardsTransitions rest

/-- The loop `for (parameter : allParameters)` of `updateTreeStates`;
`workingSets.at(parameter)` throws `std::out_of_range` for a parameter without a working
set. -/
def updateParameters {V Var : Type} [DecidableEq Var] (ops : RationalFunctionOps V)
    (stateRewardVector : Option (List V)) (backwardsTransitions : SparseMatrix V)
    (workingSets : List (Var × List Nat)) (fuel : Nat) :
    List Var → List (Var × TreeMap) → Except JipFailure (List (Var × TreeMap))
  | [], treeStates => Except.ok treeStates
  | parameter :: rest, treeStates =>
    match workingSets.lookup parameter with
    | none => Except.error JipFailure.outOfRange
    | some workingSet =>
      match treeStates.lookup parameter with
      | none =>
        match absentParameterLoop ops stateRewardVector backwardsTransitions workingSet with
        | Except.error e => Except.error e
        | Except.ok _ =>
          updateParameters ops stateRewardVector backwardsTransitions workingSets fuel rest
            treeStates
      | some states =>
        match treeStatesLoop ops stateRewardVector backwardsTransitions fuel workingSet
            states with
        | Except.error e => Except.error e
        | Except.ok states2 =>
          updateParameters ops stateRewardVector backwardsTransitions workingSets fuel rest
            (assocSet parameter states2 treeStates)

/-- Function `EqualParameterReducer::updateTreeStates`. The result is the map
`treeStates` after the call. `transpose` stands for
`flexibleMatrix.createSparseMatrix().transpose(true)`, whose code is not part of the
sources; `allParameters` is the set of parameters in its order; `fuel` bounds the number
of iterations of each `while` loop. -/
def updateTreeStates {V Var : Type} [DecidableEq Var] (ops : RationalFunctionOps V)
    (transpose : FlexibleSparseMatrix V → SparseMatrix V) (fuel : Nat)
    (treeStates : List (Var × TreeMap)) (workingSets : List (Var × List Nat))
    (flexibleMatrix : FlexibleSparseMatrix V) (allParameters : List Var)
    (stateRewardVector : Option (List V)) : Except JipFailure (List (Var × TreeMap)) :=
  updateParameters ops stateRewardVector (transpose flexibleMatrix) workingSets fuel
    allParameters treeStates

/-! ### Predicates on the arguments of `updateTreeStates` -/

/-- Every set of the map is a `std::set` (it has no duplicates) of elements of
`elements`. -/
def TreeMap.Within (elements : List Nat) (m : TreeMap) : Prop :=
  ∀ state : Nat, (m.get state).Nodup ∧ ∀ x ∈ m.get state, x ∈ elements

/-- The columns of the entries of a matrix. -/
def matrixColumns {V : Type} (matrix : SparseMatrix V) : List Nat :=
  matrix.rows.flatten.map MatrixEntry.column

/-- The sum of the sizes of the sets that the map holds for the states `columns`. -/
def treePotential (columns : List Nat) (m : TreeMap) : Nat :=
  (columns.map (fun state => (m.get state).length)).sum

/-- A step of the search of `updateTreeStates`: `row` carries no reward, and its row of
`backwardsTransitions` holds a constant entry with column `pred`; in the matrix that was
transposed this is a constant transition from `pred` to `row`. -/
def BackwardStep {V : Type} (ops : RationalFunctionOps V)
    (stateRewardVector : Option (List V)) (backwardsTransitions : SparseMatrix V)
    (row pred : Nat) : Prop :=
  hasReward ops stateRewardVector row = Except.ok false
    ∧ ∃ entries entry, backwardsTransitions.getRow row = some entries ∧ entry ∈ entries
        ∧ entry.column = pred ∧ ops.isConstant entry.value = true

/-- For every step of the search from a state that is not in `pending`, the tree states
of the state are tree states of its predecessor. -/
def ClosedExcept {V : Type} (ops : RationalFunctionOps V)
    (stateRewardVector : Option (List V)) (backwardsTransitions : SparseMatrix V)
    (pending : List Nat) (m : TreeMap) : Prop :=
  ∀ row pred : Nat, BackwardStep ops stateRewardVector backwardsTransitions row pred →
    (∀ x ∈ m.get row, x ∈ m.get pred) ∨ row ∈ pending

/-- What the loops of `updateTreeStates` do to the map of a parameter and to
`newWorkingSet`: sets and the new working set only grow, the new working set receives
columns of the matrix only, a state whose set has grown is in the new working set, and
when the sets were duplicate-free sets of `elements` they are so afterwards and the sum
of their sizes has not become smaller, and has become larger unless the new working set
is what it was. -/
def TreeScan.Advances (columns elements : List Nat) (acc acc2 : TreeScan) : Prop :=
  (∀ (state x : Nat), x ∈ acc.states.get state → x ∈ acc2.states.get state)
    ∧ (∀ y ∈ acc.newWorkingSet, y ∈ acc2.newWorkingSet)
    ∧ (∀ y ∈ acc2.newWorkingSet, y ∈ acc.newWorkingSet ∨ y ∈ columns)
    ∧ (∀ (state x : Nat), x ∈ acc2.states.get state → x ∉ acc.states.get state →
        state ∈ acc2.newWorkingSet)
    ∧ (acc.states.Within elements →
        acc2.states.Within elements
          ∧ treePotential columns acc.states ≤ treePotential columns acc2.states
          ∧ (acc2.newWorkingSet = acc.newWorkingSet
            ∨ (treePotential columns acc.states < treePotential columns acc2.states
              ∧ acc2.newWorkingSet ≠ [])))

/-! ### Concrete inputs of `updateTreeStates` -/

/-- The transposed matrix at the concrete inputs: row `column` of the result holds, for
every entry of the matrix in column `column`, an entry with the row of that entry as its
column, by ascending rows. -/
def transposeMatrix {V : Type} (matrix : FlexibleSparseMatrix V) : SparseMatrix V where
  rows := (List.range matrix.length).map (fun column =>
    (List.range matrix.length).flatMap (fun row =>
      ((matrix.getD row []).filter (fun entry => entry.column = column)).map
        (fun entry => { column := row, value := entry.value })))
  columnCount := matrix.length

/-- A parametric Markov chain over five states: state `0` moves to state `1`, state `1`
moves to state `2`, state `2` moves to state `3` with probability `p` and to state `4`
with probability `1 − p`, and the states `3` and `4` are absorbing. -/
def pathMatrix : FlexibleSparseMatrix LinearFunction :=
  [ [{ column := 1, value := constantFunction 1 }],
    [{ column := 2, value := constantFunction 1 }],
    [{ column := 3, value := { const := 0, slope := 1 } },
     { column := 4, value := { const := 1, slope := -1 } }],
    [{ column := 3, value := constantFunction 1 }],
    [{ column := 4, value := constantFunction 1 }] ]

/-- The working sets for `pathMatrix` and its one parameter, numbered `0`: the state
with the parametric transitions. -/
def pathWorkingSets : List (Nat × List Nat) := [(0, [2])]

/-- The map `treeStates` for `pathMatrix` as `timeTravel` sets it up before the first
call of `updateTreeStates`: the state with the parametric transitions has itself as its
tree state. -/
def pathTreeStates : List (Nat × TreeMap) := [(0, [(2, [2])])]

/-- A map `treeStates` for `pathMatrix` in which state `1` has the tree state `2`
already and state `0` has none. -/
def pathTreeStatesFilled : List (Nat × TreeMap) := [(0, [(1, [2]), (2, [2])])]

/-- The map `treeStates` for `cycleMatrix` and one parameter, numbered `0`, with `2` the
tree state of state `2`. -/
def cycleTreeStates : List (Nat × TreeMap) := [(0, [(2, [2])])]

/-- The working sets for `cycleMatrix` and its one parameter: state `2`. -/
def cycleWorkingSets : List (Nat × List Nat) := [(0, [2])]

/-! ## Further definitions: index fields, memo table, recorded classifications -/

/-- The members of the object at the end of a call of `setIndexMinimize`: after the
assignment when the call returns, and as they are at the failed `assert`, which stands
before the assignment, when it does not. -/
def LocalMonotonicityResult.membersAfterSetIndexMinimize (r : LocalMonotonicityResult)
    (assertions : Bool) (i : Int) : LocalMonotonicityResult :=
  if assertions = true ∧ r.indexMinimize ≠ -1 then r else { r with indexMinimize := i }

/-- The memo table of a checker after a sequence of `getDerivative` calls, each given by
its arguments `(function, var)`, first call first. -/
def getDerivativeCalls {V Var Region : Type} [DecidableEq V] [DecidableEq Var]
    (ops : ValueOps V Var Region) :
    List (V × Var) → DerivativeCache V Var → DerivativeCache V Var
  | [], derivatives => derivatives
  | (function, var) :: rest, derivatives =>
    getDerivativeCalls ops rest (getDerivative ops function var derivatives).2

/-- The memo table of a checker as its constructor leaves it: the member `derivatives`
is default-constructed, an empty map. -/
def newDerivatives (V Var : Type) : DerivativeCache V Var := []

/-- The result `newResult` after `setIndexMaximize(3)`. -/
def maximizeFixedResult : LocalMonotonicityResult :=
  newResult.1.setIndexMaximize 3

/-- The calls `setMonotonicity(0, 0, Incr)`, `setConstant(0)` on `newResult`, followed by
the reads of the bit of state `0` and of `getMonotonicity(0, 1)`. -/
def otherParameterQuery : Option (Option Bool × Option Monotonicity) :=
  match LocalMonotonicityResult.calls (specMonotonicityResultOps Nat)
      [Call.setMonotonicity 0 0 Monotonicity.Incr, Call.setConstant 0]
      newResult.1 newResult.2 with
  | none => none
  | some (r, heap) =>
    some (r.statesMonotone[0]?, r.getMonotonicity (specMonotonicityResultOps Nat) 0 1 heap)

/-- A matrix whose state `0` has two constant outgoing weights and whose state `1` has no
outgoing entry. -/
def constantRowsMatrix : SparseMatrix AffineWeight where
  rows :=
    [ [{ column := 0, value := weightOne }, { column := 1, value := weightOne }],
      [] ]
  columnCount := 2

/-! ## Theorems: the scanning loop -/

section ScanRow

variable {V Var Region : Type} [DecidableEq V] [DecidableEq Var]

theorem scanRow_succs (ops : ValueOps V Var Region) (var : Var) (region : Region)
    (row : List (MatrixEntry V)) (acc : RowScan V Var) :
    (scanRow ops var region row acc).succs = acc.succs ++ row.map MatrixEntry.column := by
  induction row generalizing acc with
  | nil => simp [scanRow]
  | cons e rest ih => simp [scanRow, ih]

theorem scanRow_ignore (ops : ValueOps V Var Region) (var : Var) (region : Region)
    (row : List (MatrixEntry V)) (acc : RowScan V Var) :
    (scanRow ops var region row acc).ignore
      = (acc.ignore && row.all (fun e => ops.isConstant e.value)) := by
  induction row generalizing acc with
  | nil => simp [scanRow]
  | cons e rest ih => simp [scanRow, ih, Bool.and_assoc]

theorem scanRow_mon_length (ops : ValueOps V Var Region) (var : Var) (region : Region)
    (row : List (MatrixEntry V)) (acc : RowScan V Var) :
    (scanRow ops var region row acc).succsMonUnsorted.length
      = acc.succsMonUnsorted.length + row.length := by
  induction row generalizing acc with
  | nil => simp [scanRow]
  | cons e rest ih => simp [scanRow, ih]; omega

theorem rowClassifications_length (ops : ValueOps V Var Region) (var : Var)
    (region : Region) (row : List (MatrixEntry V)) (derivatives : DerivativeCache V Var) :
    (rowClassifications ops var region row derivatives).length = row.length := by
  simp [rowClassifications, scanRow_mon_length]

/-- The first component of `checkLocalMonotonicity` in terms of the walk, for a row that
is not constant. -/
theorem checkLocalMonotonicity_eq_walk (ops : ValueOps V Var Region)
    (matrix : SparseMatrix V) (order : Order) (state : Nat) (var : Var) (region : Region)
    (derivatives : DerivativeCache V Var) (row : List (MatrixEntry V))
    (hrow : matrix.getRow state = some row)
    (hnc : ∃ e ∈ row, ops.isConstant e.value = false) :
    (checkLocalMonotonicity ops matrix order state var region derivatives).map Prod.fst
      = walkSorted matrix.columnCount (row.map MatrixEntry.column)
          (rowClassifications ops var region row derivatives)
          (order.sortStates (row.map MatrixEntry.column)) := by
  obtain ⟨e, he, hec⟩ := hnc
  have hign : (scanRow ops var region row
      { succs := [], succsMonUnsorted := [], ignore := true,
        derivatives := derivatives }).ignore = false := by
    rw [scanRow_ignore]
    simp only [Bool.true_and]
    apply Bool.eq_false_iff.mpr
    intro hall
    have := List.all_eq_true.mp hall e he
    simp [hec] at this
  simp only [checkLocalMonotonicity, hrow, hign, rowClassifications, scanRow_succs]
  simp only [List.nil_append, Bool.false_eq_true, if_false]
  cases walkSorted matrix.columnCount (row.map MatrixEntry.column)
      (scanRow ops var region row
        { succs := [], succsMonUnsorted := [], ignore := true,
          derivatives := derivatives }).succsMonUnsorted
      (order.sortStates (row.map MatrixEntry.column)) <;> simp

end ScanRow

/-! ## Theorems: `checkLocalMonotonicity` -/

section CheckLocal

variable {V Var Region : Type} [DecidableEq V] [DecidableEq Var]

/-- A state all of whose outgoing weights are constant functions (`isConstant`) is
`Constant`: the fast path of `checkLocalMonotonicity`, taken before the order is
consulted. -/
theorem checkLocalMonotonicity_constant_weights (ops : ValueOps V Var Region)
    (matrix : SparseMatrix V) (order : Order) (state : Nat) (var : Var) (region : Region)
    (derivatives : DerivativeCache V Var) (row : List (MatrixEntry V))
    (hrow : matrix.getRow state = some row)
    (hconst : ∀ e ∈ row, ops.isConstant e.value = true) :
    (checkLocalMonotonicity ops matrix order state var region derivatives).map Prod.fst
      = some Monotonicity.Constant := by
  have hign : (scanRow ops var region row
      { succs := [], succsMonUnsorted := [], ignore := true,
        derivatives := derivatives }).ignore = true := by
    rw [scanRow_ignore]
    simp only [Bool.true_and]
    exact List.all_eq_true.mpr hconst
  simp [checkLocalMonotonicity, hrow, hign]

/-- The walk returns `Unknown` when the last sorted successor is the sentinel. -/
theorem walkSorted_unplaced (columnCount : Nat) (succs : List Nat)
    (succsMon : List Monotonicity) (succsSorted : List Nat)
    (hlen : succsSorted.length = succs.length)
    (hlast : succsSorted.getLast? = some columnCount) :
    walkSorted columnCount succs succsMon succsSorted = some Monotonicity.Unknown := by
  rw [List.getLast?_eq_getElem?, hlen] at hlast
  simp [walkSorted, hlast]

/-- C2. For every state with a non-constant outgoing weight, if the last element of
`order.sortStates(succs)` is the sentinel `matrix.getColumnCount()`, then
`checkLocalMonotonicity` returns `Unknown`, whatever the transitions are classified as.
The order's `sortStates` is taken to return as many states as it is given, so that its
last element is the one at index `succSize - 1`. -/
theorem checkLocalMonotonicity_unplaced (ops : ValueOps V Var Region)
    (matrix : SparseMatrix V) (order : Order) (state : Nat) (var : Var) (region : Region)
    (derivatives : DerivativeCache V Var) (row : List (MatrixEntry V))
    (hrow : matrix.getRow state = some row)
    (hnc : ∃ e ∈ row, ops.isConstant e.value = false)
    (hlen : (order.sortStates (row.map MatrixEntry.column)).length = row.length)
    (hlast : (order.sortStates (row.map MatrixEntry.column)).getLast?
      = some matrix.columnCount) :
    (checkLocalMonotonicity ops matrix order state var region derivatives).map Prod.fst
      = some Monotonicity.Unknown := by
  rw [checkLocalMonotonicity_eq_walk ops matrix order state var region derivatives row
    hrow hnc]
  exact walkSorted_unplaced _ _ _ _ (by rw [hlen, List.length_map]) hlast

theorem classifySigns_ne_unknown (res : Bool × Bool) :
    classifySigns res ≠ Monotonicity.Unknown := by
  unfold classifySigns
  split_ifs <;> simp

theorem scanRow_mon_ne_unknown (ops : ValueOps V Var Region) (var : Var) (region : Region)
    (row : List (MatrixEntry V)) (acc : RowScan V Var)
    (hacc : ∀ m ∈ acc.succsMonUnsorted, m ≠ Monotonicity.Unknown) :
    ∀ m ∈ (scanRow ops var region row acc).succsMonUnsorted, m ≠ Monotonicity.Unknown := by
  induction row generalizing acc with
  | nil => simpa [scanRow] using hacc
  | cons e rest ih =>
    simp only [scanRow]
    apply ih
    intro m hm
    simp only [List.mem_append, List.mem_singleton] at hm
    rcases hm with hm | hm
    · exact hacc m hm
    · rw [hm]
      exact classifySigns_ne_unknown _

theorem rowClassifications_ne_unknown (ops : ValueOps V Var Region) (var : Var)
    (region : Region) (row : List (MatrixEntry V)) (derivatives : DerivativeCache V Var) :
    ∀ m ∈ rowClassifications ops var region row derivatives, m ≠ Monotonicity.Unknown := by
  apply scanRow_mon_ne_unknown
  simp

/-- The lookup of both walking loops reads the classification at position `j` when the
sorted successor at `index` is the successor at position `j` of a duplicate-free row. -/
theorem transitionMonAt_of_getElem (succs : List Nat) (succsMon : List Monotonicity)
    (succsSorted : List Nat) (index j : Nat) (hnodup : succs.Nodup) (hj : j < succs.length)
    (h : succsSorted[index]? = succs[j]?) :
    transitionMonAt succs succsMon succsSorted index = succsMon[j]? := by
  rw [List.getElem?_eq_getElem hj] at h
  simp only [transitionMonAt, h]
  rw [List.indexOf_getElem hnodup j hj]

/-- The walk over exactly two successors, both ranked: the result is the classification
at the row position `i` of the successor that is sorted first. -/
theorem walkSorted_two (columnCount : Nat) (succs : List Nat)
    (succsMon : List Monotonicity) (succsSorted : List Nat)
    (hsucc : succs.length = 2) (hmlen : succsMon.length = 2) (hnodup : succs.Nodup)
    (hperm : succsSorted.Perm succs) (hranked : ∀ s ∈ succs, s ≠ columnCount)
    (i : Nat) (hi : i < 2) (hfirst : succsSorted[0]? = succs[i]?) :
    walkSorted columnCount succs succsMon succsSorted = succsMon[i]? := by
  have hslen : succsSorted.length = 2 := by rw [hperm.length_eq, hsucc]
  obtain ⟨m, hm⟩ : ∃ m, succsMon[i]? = some m :=
    ⟨succsMon[i], List.getElem?_eq_getElem (by omega)⟩
  obtain ⟨last, hl⟩ : ∃ last, succsSorted[1]? = some last :=
    ⟨succsSorted[1], List.getElem?_eq_getElem (by omega)⟩
  have hlast : last ≠ columnCount := hranked last (hperm.subset (List.getElem?_mem hl))
  have hlook : transitionMonAt succs succsMon succsSorted 0 = some m := by
    rw [transitionMonAt_of_getElem _ _ _ 0 i hnodup (by omega) hfirst, hm]
  simp [walkSorted, hsucc, hl, hlast, firstLoop, secondLoop, hlook, hm]

/-- C3. For a state with exactly two successors, both ranked by the order, and a
non-constant weight, `checkLocalMonotonicity` returns the classification of the
transition to the successor that `order.sortStates` lists first (position `i` of the
row), which is one of `Incr`, `Decr`, `Constant`, `Not`; the classification of the other
transition does not enter the result. -/
theorem checkLocalMonotonicity_two_successors (ops : ValueOps V Var Region)
    (matrix : SparseMatrix V) (order : Order) (state : Nat) (var : Var) (region : Region)
    (derivatives : DerivativeCache V Var) (row : List (MatrixEntry V))
    (hrow : matrix.getRow state = some row)
    (hlen : row.length = 2)
    (hnodup : (row.map MatrixEntry.column).Nodup)
    (hnc : ∃ e ∈ row, ops.isConstant e.value = false)
    (hperm : (order.sortStates (row.map MatrixEntry.column)).Perm
      (row.map MatrixEntry.column))
    (hranked : ∀ s ∈ row.map MatrixEntry.column, s ≠ matrix.columnCount)
    (i : Nat) (hi : i < 2)
    (hfirst : (order.sortStates (row.map MatrixEntry.column))[0]?
      = (row.map MatrixEntry.column)[i]?) :
    (checkLocalMonotonicity ops matrix order state var region derivatives).map Prod.fst
        = (rowClassifications ops var region row derivatives)[i]?
      ∧ (checkLocalMonotonicity ops matrix order state var region derivatives).map Prod.fst
        ≠ some Monotonicity.Unknown
      ∧ (checkLocalMonotonicity ops matrix order state var region derivatives).map Prod.fst
        ≠ none := by
  rw [checkLocalMonotonicity_eq_walk ops matrix order state var region derivatives row
    hrow hnc]
  have hmlen : (rowClassifications ops var region row derivatives).length = 2 := by
    rw [rowClassifications_length, hlen]
  have hsucc : (row.map MatrixEntry.column).length = 2 := by
    rw [List.length_map, hlen]
  rw [walkSorted_two matrix.columnCount _ _ _ hsucc hmlen hnodup hperm hranked i hi hfirst]
  obtain ⟨m, hm⟩ : ∃ m, (rowClassifications ops var region row derivatives)[i]? = some m :=
    ⟨(rowClassifications ops var region row derivatives)[i], List.getElem?_eq_getElem (by omega)⟩
  have hmu : m ≠ Monotonicity.Unknown :=
    rowClassifications_ne_unknown _ _ _ _ _ m (List.getElem?_mem hm)
  simp [hm, hmu]

/-! ### The index-based loops are the list-based loops -/

theorem firstLoop_eq_list (succs : List Nat) (succsMon : List Monotonicity)
    (succsSorted : List Nat) (succSize : Nat) (ms : List Monotonicity)
    (hms : ms.length = succSize)
    (hread : ∀ i, i < succSize → transitionMonAt succs succsMon succsSorted i = ms[i]?) :
    ∀ fuel index localMonotonicity, fuel + index = succSize →
      ∃ index2, firstLoop succs succsMon succsSorted succSize fuel index localMonotonicity
          = some (index2, (firstLoopL succSize (ms.drop index) localMonotonicity).2)
        ∧ ms.drop index2 = (firstLoopL succSize (ms.drop index) localMonotonicity).1
        ∧ index2 ≤ succSize := by
  intro fuel
  induction fuel with
  | zero =>
    intro index lm h
    have hdrop : ms.drop index = [] := List.drop_eq_nil_of_le (by omega)
    exact ⟨index, by simp [firstLoop, hdrop, firstLoopL], by simp [hdrop, firstLoopL], by omega⟩
  | succ fuel ih =>
    intro index lm h
    have hlt : index < ms.length := by omega
    have hdrop : ms.drop index = ms[index] :: ms.drop (index + 1) :=
      List.drop_eq_getElem_cons hlt
    have hr : transitionMonAt succs succsMon succsSorted index = some ms[index] := by
      rw [hread index (by omega), List.getElem?_eq_getElem hlt]
    by_cases hc : lm = Monotonicity.Constant
    · obtain ⟨i2, h1, h2, h3⟩ := ih (index + 1)
        (if ms[index] = Monotonicity.Not ∧ succSize ≠ 1 then Monotonicity.Unknown
          else ms[index]) (by omega)
      refine ⟨i2, ?_, ?_, h3⟩
      · rw [hdrop]
        simp only [firstLoop, firstLoopL, hc, hr]
        rw [if_pos ⟨by omega, trivial⟩]
        simpa using h1
      · rw [hdrop]
        simp only [firstLoopL, hc]
        simpa using h2
    · refine ⟨index, ?_, ?_, by omega⟩
      · rw [hdrop]
        simp [firstLoop, firstLoopL, hc]
      · rw [hdrop]
        simp [firstLoopL, hc]

theorem secondLoop_eq_list (succs : List Nat) (succsMon : List Monotonicity)
    (succsSorted : List Nat) (succSize : Nat) (ms : List Monotonicity)
    (hms : ms.length = succSize)
    (hread : ∀ i, i < succSize → transitionMonAt succs succsMon succsSorted i = ms[i]?) :
    ∀ fuel index allowedToSwap localMonotonicity, succSize ≤ fuel + index →
      secondLoop succs succsMon succsSorted succSize fuel index allowedToSwap
          localMonotonicity
        = some (secondLoopL (ms.drop index) allowedToSwap localMonotonicity) := by
  intro fuel
  induction fuel with
  | zero =>
    intro index a lm h
    have hdrop : ms.drop index = [] := List.drop_eq_nil_of_le (by omega)
    simp [secondLoop, hdrop, secondLoopL]
  | succ fuel ih =>
    intro index a lm h
    by_cases hlt : index < succSize
    · have hlt2 : index < ms.length := by omega
      have hdrop : ms.drop index = ms[index] :: ms.drop (index + 1) :=
        List.drop_eq_getElem_cons hlt2
      have hr : transitionMonAt succs succsMon succsSorted index = some ms[index] := by
        rw [hread index hlt, List.getElem?_eq_getElem hlt2]
      rw [hdrop]
      simp only [secondLoop, secondLoopL, hr, hlt, true_and]
      split_ifs <;> first | rfl | exact ih _ _ _ (by omega)
    · have hdrop : ms.drop index = [] := List.drop_eq_nil_of_le (by omega)
      simp [secondLoop, hdrop, secondLoopL, hlt]

/-- For a row that does not have exactly two entries, whose last sorted successor is not
the sentinel and all of whose sorted successors can be looked up, the walk of
`checkLocalMonotonicity` is the list-based walk over the looked-up classifications. -/
theorem walkSorted_eq_walkL (columnCount : Nat) (succs : List Nat)
    (succsMon : List Monotonicity) (succsSorted : List Nat) (ms : List Monotonicity)
    (last : Nat) (hlast : succsSorted[succs.length - 1]? = some last)
    (hne : last ≠ columnCount) (htwo : succs.length ≠ 2)
    (hms : ms.length = succs.length)
    (hread : ∀ i, i < succs.length → transitionMonAt succs succsMon succsSorted i = ms[i]?) :
    walkSorted columnCount succs succsMon succsSorted = some (walkL succs.length ms) := by
  obtain ⟨i2, h1, h2, h3⟩ := firstLoop_eq_list succs succsMon succsSorted succs.length ms
    hms hread succs.length 0 Monotonicity.Constant (by omega)
  simp only [walkSorted, hlast, hne, if_false, htwo, h1]
  rw [secondLoop_eq_list succs succsMon succsSorted succs.length ms hms hread succs.length
    i2 true _ (by omega)]
  simp only [List.drop_zero] at h2
  simp only [walkL, List.drop_zero, h2]

/-! ### The fuel of the loops suffices -/

theorem firstLoop_fuel (succs : List Nat) (succsMon : List Monotonicity)
    (succsSorted : List Nat) (succSize : Nat) :
    ∀ fuel index localMonotonicity, succSize ≤ fuel + index →
      firstLoop succs succsMon succsSorted succSize (fuel + 1) index localMonotonicity
        = firstLoop succs succsMon succsSorted succSize fuel index localMonotonicity := by
  intro fuel
  induction fuel with
  | zero =>
    intro index lm h
    have : ¬ index < succSize := by omega
    simp [firstLoop, this]
  | succ fuel ih =>
    intro index lm h
    rw [firstLoop, firstLoop]
    split_ifs
    · cases transitionMonAt succs succsMon succsSorted index with
      | none => rfl
      | some tm => exact ih _ _ (by omega)
    · rfl

theorem secondLoop_fuel (succs : List Nat) (succsMon : List Monotonicity)
    (succsSorted : List Nat) (succSize : Nat) :
    ∀ fuel index allowedToSwap localMonotonicity, succSize ≤ fuel + index →
      secondLoop succs succsMon succsSorted succSize (fuel + 1) index allowedToSwap
          localMonotonicity
        = secondLoop succs succsMon succsSorted succSize fuel index allowedToSwap
            localMonotonicity := by
  intro fuel
  induction fuel with
  | zero =>
    intro index a lm h
    have : ¬ index < succSize := by omega
    simp [secondLoop, this]
  | succ fuel ih =>
    intro index a lm h
    rw [secondLoop, secondLoop]
    split_ifs <;> first
      | rfl
      | (cases transitionMonAt succs succsMon succsSorted index with
          | none => rfl
          | some tm =>
            simp only []
            split_ifs <;> first | rfl | exact ih _ _ _ (by omega))

/-! ### Looking up the classification of a successor -/

theorem classificationOf_eq_getElem? (succs : List Nat) (succsMon : List Monotonicity)
    (hlen : succs.length = succsMon.length) (s : Nat) :
    classificationOf succs succsMon s = succsMon[succs.indexOf s]? := by
  induction succs generalizing succsMon with
  | nil =>
    cases succsMon with
    | nil => simp [classificationOf]
    | cons m ms => simp at hlen
  | cons a rest ih =>
    cases succsMon with
    | nil => simp at hlen
    | cons m ms =>
      have hlen2 : rest.length = ms.length := by simpa using hlen
      by_cases h : a = s
      · subst h
        simp [classificationOf, List.lookup_cons]
      · have h2 : (s == a) = false := by
          simp only [beq_eq_false_iff_ne, ne_eq]
          exact fun e => h e.symm
        have ih2 := ih ms hlen2
        simp only [classificationOf] at ih2
        simp only [classificationOf, List.zip_cons_cons, List.lookup_cons, h2]
        rw [List.indexOf_cons_ne _ h]
        simpa using ih2

/-- The classifications that the walking loops look up, sorted successor by sorted
successor, are the ones recorded for these successors. -/
theorem transitionMonAt_sorted (succs : List Nat) (succsMon : List Monotonicity)
    (succsSorted : List Nat) (hlen : succs.length = succsMon.length)
    (hsub : ∀ s ∈ succsSorted, s ∈ succs) :
    (succsSorted.filterMap (classificationOf succs succsMon)).length = succsSorted.length
      ∧ ∀ i, i < succsSorted.length →
        transitionMonAt succs succsMon succsSorted i
          = (succsSorted.filterMap (classificationOf succs succsMon))[i]? := by
  have hsome : ∀ s ∈ succsSorted,
      classificationOf succs succsMon s = some (succsMon[succs.indexOf s]?.getD Monotonicity.Unknown) := by
    intro s hs
    rw [classificationOf_eq_getElem? succs succsMon hlen s]
    have : succs.indexOf s < succsMon.length := by
      rw [← hlen]
      exact List.indexOf_lt_length.mpr (hsub s hs)
    rw [List.getElem?_eq_getElem this]
    rfl
  have hmap : succsSorted.filterMap (classificationOf succs succsMon)
      = succsSorted.map (fun s => succsMon[succs.indexOf s]?.getD Monotonicity.Unknown) := by
    rw [← List.filterMap_eq_map]
    apply List.filterMap_congr
    intro s hs
    simpa using hsome s hs
  refine ⟨by rw [hmap, List.length_map], ?_⟩
  intro i hi
  rw [hmap, List.getElem?_map, List.getElem?_eq_getElem hi]
  simp only [transitionMonAt, List.getElem?_eq_getElem hi, Option.map_some']
  have hs := hsome succsSorted[i] (List.getElem_mem hi)
  rw [classificationOf_eq_getElem? succs succsMon hlen] at hs
  exact hs

/-! ### The list-based walk and the one-swap rule -/

theorem secondLoopL_unknown (ms : List Monotonicity) (allowedToSwap : Bool) :
    secondLoopL ms allowedToSwap Monotonicity.Unknown = Monotonicity.Unknown := by
  cases ms <;> simp [secondLoopL]

theorem firstLoopL_of_ne_constant (succSize : Nat) (ms : List Monotonicity)
    (lm : Monotonicity) (h : lm ≠ Monotonicity.Constant) :
    firstLoopL succSize ms lm = (ms, lm) := by
  cases ms <;> simp [firstLoopL, h]

/-- After a swap, only the opposite kind and `Constant` keep the locked-in direction. -/
theorem secondLoopL_swapped (l : Monotonicity)
    (hl : l = Monotonicity.Incr ∨ l = Monotonicity.Decr) (ms : List Monotonicity)
    (hms : ∀ m ∈ ms, m = Monotonicity.Incr ∨ m = Monotonicity.Decr
      ∨ m = Monotonicity.Constant) :
    secondLoopL ms false l
      = if (ms.filter (fun m => decide (m ≠ Monotonicity.Constant))).all
            (fun m => decide (m = l.opposite))
        then l else Monotonicity.Unknown := by
  induction ms with
  | nil => simp [secondLoopL]
  | cons m rest ih =>
    have ih2 := ih (fun x hx => hms x (List.mem_cons_of_mem _ hx))
    have hm := hms m (List.mem_cons_self _ _)
    rcases hl with hl | hl <;> rcases hm with hm | hm | hm <;> subst hl <;> subst hm <;>
      simp [secondLoopL, secondLoopL_unknown, Monotonicity.opposite, List.filter_cons] <;>
      simpa [Monotonicity.opposite] using ih2

/-- Before a swap, a run of the locked-in direction may be followed by the opposite one. -/
theorem secondLoopL_locked (l : Monotonicity)
    (hl : l = Monotonicity.Incr ∨ l = Monotonicity.Decr) (ms : List Monotonicity)
    (hms : ∀ m ∈ ms, m = Monotonicity.Incr ∨ m = Monotonicity.Decr
      ∨ m = Monotonicity.Constant) :
    secondLoopL ms true l = oneSwapVerdict
      (l :: ms.filter (fun m => decide (m ≠ Monotonicity.Constant))) := by
  induction ms with
  | nil => simp [secondLoopL, oneSwapVerdict]
  | cons m rest ih =>
    have hrest : ∀ x ∈ rest, x = Monotonicity.Incr ∨ x = Monotonicity.Decr
        ∨ x = Monotonicity.Constant := fun x hx => hms x (List.mem_cons_of_mem _ hx)
    have ih2 := ih hrest
    have hsw := secondLoopL_swapped l hl rest hrest
    have hm := hms m (List.mem_cons_self _ _)
    rcases hl with hl | hl <;> rcases hm with hm | hm | hm <;> subst hl <;> subst hm <;>
      simp [secondLoopL, oneSwapVerdict, Monotonicity.opposite, List.filter_cons,
        List.dropWhile_cons] <;>
      first
        | simpa [oneSwapVerdict, Monotonicity.opposite] using ih2
        | simpa [Monotonicity.opposite] using hsw

/-- The list-based walk over classifications that are `Incr`, `Decr` or `Constant`
computes the one-swap rule. -/
theorem walkL_eq_oneSwapVerdict (succSize : Nat) (ms : List Monotonicity)
    (hms : ∀ m ∈ ms, m = Monotonicity.Incr ∨ m = Monotonicity.Decr
      ∨ m = Monotonicity.Constant) :
    walkL succSize ms
      = oneSwapVerdict (ms.filter (fun m => decide (m ≠ Monotonicity.Constant))) := by
  induction ms with
  | nil => simp [walkL, firstLoopL, secondLoopL, oneSwapVerdict]
  | cons m rest ih =>
    have hrest : ∀ x ∈ rest, x = Monotonicity.Incr ∨ x = Monotonicity.Decr
        ∨ x = Monotonicity.Constant := fun x hx => hms x (List.mem_cons_of_mem _ hx)
    have ih2 := ih hrest
    have hm := hms m (List.mem_cons_self _ _)
    rcases hm with hm | hm | hm <;> subst hm
    · have := secondLoopL_locked Monotonicity.Incr (Or.inl rfl) rest hrest
      simpa [walkL, firstLoopL, firstLoopL_of_ne_constant, List.filter_cons] using this
    · have := secondLoopL_locked Monotonicity.Decr (Or.inr rfl) rest hrest
      simpa [walkL, firstLoopL, firstLoopL_of_ne_constant, List.filter_cons] using this
    · simpa [walkL, firstLoopL, List.filter_cons] using ih2

/-! ### `Not` in a walk over several successors -/

theorem secondLoopL_ne_not (ms : List Monotonicity) :
    ∀ (allowedToSwap : Bool) (lm : Monotonicity), lm ≠ Monotonicity.Not →
      secondLoopL ms allowedToSwap lm ≠ Monotonicity.Not := by
  induction ms with
  | nil => intro a lm h; simpa [secondLoopL] using h
  | cons m rest ih =>
    intro a lm h
    simp only [secondLoopL]
    split_ifs <;> first | exact h | exact ih _ _ h | exact ih _ _ (by simp) | simp

theorem firstLoopL_ne_not (succSize : Nat) (hsize : succSize ≠ 1) (ms : List Monotonicity) :
    ∀ lm : Monotonicity, lm ≠ Monotonicity.Not →
      (firstLoopL succSize ms lm).2 ≠ Monotonicity.Not := by
  induction ms with
  | nil => intro lm h; simpa [firstLoopL] using h
  | cons m rest ih =>
    intro lm h
    simp only [firstLoopL]
    split_ifs with h1 h2
    · exact ih _ (by simp)
    · apply ih
      intro hm
      exact h2 ⟨hm, hsize⟩
    · exact h

theorem walkL_ne_not (succSize : Nat) (hsize : succSize ≠ 1) (ms : List Monotonicity) :
    walkL succSize ms ≠ Monotonicity.Not :=
  secondLoopL_ne_not _ _ _ (firstLoopL_ne_not succSize hsize ms _ (by simp))

theorem secondLoopL_of_mem_not (ms : List Monotonicity) :
    ∀ (allowedToSwap : Bool) (lm : Monotonicity), lm ≠ Monotonicity.Not →
      Monotonicity.Not ∈ ms → secondLoopL ms allowedToSwap lm = Monotonicity.Unknown := by
  induction ms with
  | nil => intro a lm _ h; simp at h
  | cons m rest ih =>
    intro a lm h hmem
    by_cases hu : lm = Monotonicity.Unknown
    · rw [hu, secondLoopL_unknown]
    · have hrest : m ≠ Monotonicity.Not → Monotonicity.Not ∈ rest := by
        intro hm
        rcases List.mem_cons.mp hmem with h1 | h1
        · exact absurd h1.symm hm
        · exact h1
      simp only [secondLoopL]
      rw [if_pos ⟨h, hu⟩]
      split_ifs with h1 h2 h3 h4
      · rfl
      · exact ih _ _ h (hrest (fun e => h1 (Or.inl e)))
      · exact ih _ _ h (hrest (fun e => h1 (Or.inl e)))
      · exact ih _ _ (by simp) (hrest (fun e => h1 (Or.inl e)))
      · exact ih _ _ h (hrest (fun e => h1 (Or.inl e)))

theorem firstLoopL_of_mem_not (succSize : Nat) (hsize : succSize ≠ 1)
    (ms : List Monotonicity) :
    ∀ lm : Monotonicity, lm ≠ Monotonicity.Not → Monotonicity.Not ∈ ms →
      (firstLoopL succSize ms lm).2 = Monotonicity.Unknown
        ∨ ((firstLoopL succSize ms lm).2 ≠ Monotonicity.Not
            ∧ Monotonicity.Not ∈ (firstLoopL succSize ms lm).1) := by
  induction ms with
  | nil => intro lm _ h; simp at h
  | cons m rest ih =>
    intro lm h hmem
    by_cases hc : lm = Monotonicity.Constant
    · by_cases hm : m = Monotonicity.Not
      · left
        simp [firstLoopL, hc, hm, hsize, firstLoopL_of_ne_constant]
      · have hrest : Monotonicity.Not ∈ rest := by
          rcases List.mem_cons.mp hmem with h1 | h1
          · exact absurd h1.symm hm
          · exact h1
        have := ih m hm hrest
        simpa [firstLoopL, hc, hm] using this
    · right
      rw [firstLoopL_of_ne_constant succSize _ lm hc]
      exact ⟨h, hmem⟩

theorem walkL_of_mem_not (succSize : Nat) (hsize : succSize ≠ 1) (ms : List Monotonicity)
    (hmem : Monotonicity.Not ∈ ms) : walkL succSize ms = Monotonicity.Unknown := by
  rcases firstLoopL_of_mem_not succSize hsize ms Monotonicity.Constant (by simp) hmem with
    h | ⟨h1, h2⟩
  · simp only [walkL]
    rw [h, secondLoopL_unknown]
  · exact secondLoopL_of_mem_not _ _ _ h1 h2

/-! ### Three or more successors -/

/-- The walk of a row with three or more successors whose sorted successors are a
reordering of the successors, none of them the sentinel. -/
theorem walkSorted_of_perm (columnCount : Nat) (succs : List Nat)
    (succsMon : List Monotonicity) (succsSorted : List Nat)
    (h3 : 3 ≤ succs.length) (hlen : succs.length = succsMon.length)
    (hperm : succsSorted.Perm succs)
    (hlast : succsSorted.getLast? ≠ some columnCount) :
    walkSorted columnCount succs succsMon succsSorted
      = some (walkL succs.length
          (succsSorted.filterMap (classificationOf succs succsMon))) := by
  have hslen : succsSorted.length = succs.length := hperm.length_eq
  obtain ⟨hmslen, hread⟩ := transitionMonAt_sorted succs succsMon succsSorted hlen
    (fun s hs => hperm.subset hs)
  have hidx : succs.length - 1 < succsSorted.length := by omega
  have hl : succsSorted[succs.length - 1]? = some succsSorted[succs.length - 1] :=
    List.getElem?_eq_getElem hidx
  have hne : succsSorted[succs.length - 1] ≠ columnCount := by
    intro e
    apply hlast
    rw [List.getLast?_eq_getElem?, hslen, hl, e]
  exact walkSorted_eq_walkL columnCount succs succsMon succsSorted _ _ hl hne (by omega)
    (by rw [hmslen, hslen]) (fun i hi => hread i (by omega))

theorem mem_of_classificationOf (succs : List Nat) (succsMon : List Monotonicity)
    (hlen : succs.length = succsMon.length) (s : Nat) (m : Monotonicity)
    (h : classificationOf succs succsMon s = some m) : m ∈ succsMon := by
  rw [classificationOf_eq_getElem? succs succsMon hlen s] at h
  exact List.getElem?_mem h

/-- C5. For a state with three or more successors, all ranked by the order, a
non-constant weight, and every transition classified `Incr`, `Decr` or `Constant`:
with `ns` the non-`Constant` classifications in the order of `order.sortStates(succs)`,
`checkLocalMonotonicity` returns `Constant` if `ns` is empty, the first element `L` of
`ns` if `ns` is one or more `L` followed only by the opposite kind, and `Unknown`
otherwise. -/
theorem checkLocalMonotonicity_one_swap (ops : ValueOps V Var Region)
    (matrix : SparseMatrix V) (order : Order) (state : Nat) (var : Var) (region : Region)
    (derivatives : DerivativeCache V Var) (row : List (MatrixEntry V))
    (hrow : matrix.getRow state = some row)
    (h3 : 3 ≤ row.length)
    (hnc : ∃ e ∈ row, ops.isConstant e.value = false)
    (hperm : (order.sortStates (row.map MatrixEntry.column)).Perm
      (row.map MatrixEntry.column))
    (hranked : ∀ s ∈ row.map MatrixEntry.column, s ≠ matrix.columnCount)
    (hcls : ∀ m ∈ rowClassifications ops var region row derivatives,
      m = Monotonicity.Incr ∨ m = Monotonicity.Decr ∨ m = Monotonicity.Constant) :
    (checkLocalMonotonicity ops matrix order state var region derivatives).map Prod.fst
      = some (oneSwapVerdict
          (nonConstantInOrder (row.map MatrixEntry.column)
            (rowClassifications ops var region row derivatives)
            (order.sortStates (row.map MatrixEntry.column)))) := by
  rw [checkLocalMonotonicity_eq_walk ops matrix order state var region derivatives row
    hrow hnc]
  have hlen : (row.map MatrixEntry.column).length
      = (rowClassifications ops var region row derivatives).length := by
    rw [rowClassifications_length, List.length_map]
  have hlast : (order.sortStates (row.map MatrixEntry.column)).getLast?
      ≠ some matrix.columnCount := by
    intro e
    exact hranked _ (hperm.subset (List.mem_of_getLast?_eq_some e)) rfl
  rw [walkSorted_of_perm matrix.columnCount _ _ _ (by simpa using h3) hlen hperm hlast]
  rw [walkL_eq_oneSwapVerdict]
  · rfl
  · intro m hm
    obtain ⟨s, _, hs⟩ := List.mem_filterMap.mp hm
    exact hcls m (mem_of_classificationOf _ _ hlen s m hs)

/-- C6. For a state with three or more successors and a non-constant weight,
`checkLocalMonotonicity` returns a classification other than `Not`, and it returns
`Unknown` when one of the transitions is classified `Not`, wherever that transition
stands among the sorted successors. The order's `sortStates` is taken to return as many
states as it is given and, unless the last of them is the sentinel, a reordering of the
successors. -/
theorem checkLocalMonotonicity_not_degrades (ops : ValueOps V Var Region)
    (matrix : SparseMatrix V) (order : Order) (state : Nat) (var : Var) (region : Region)
    (derivatives : DerivativeCache V Var) (row : List (MatrixEntry V))
    (hrow : matrix.getRow state = some row)
    (h3 : 3 ≤ row.length)
    (hnodup : (row.map MatrixEntry.column).Nodup)
    (hnc : ∃ e ∈ row, ops.isConstant e.value = false)
    (hlen : (order.sortStates (row.map MatrixEntry.column)).length = row.length)
    (hperm : (order.sortStates (row.map MatrixEntry.column)).getLast?
        ≠ some matrix.columnCount →
      (order.sortStates (row.map MatrixEntry.column)).Perm (row.map MatrixEntry.column)) :
    ∃ r, (checkLocalMonotonicity ops matrix order state var region derivatives).map Prod.fst
        = some r
      ∧ r ≠ Monotonicity.Not
      ∧ (Monotonicity.Not ∈ rowClassifications ops var region row derivatives →
          r = Monotonicity.Unknown) := by
  by_cases hlast : (order.sortStates (row.map MatrixEntry.column)).getLast?
      = some matrix.columnCount
  · refine ⟨Monotonicity.Unknown, ?_, by simp, fun _ => rfl⟩
    rw [checkLocalMonotonicity_eq_walk ops matrix order state var region derivatives row
      hrow hnc]
    exact walkSorted_unplaced _ _ _ _ (by rw [hlen, List.length_map]) hlast
  · have hp := hperm hlast
    have hmlen : (row.map MatrixEntry.column).length
        = (rowClassifications ops var region row derivatives).length := by
      rw [rowClassifications_length, List.length_map]
    have hsize : (row.map MatrixEntry.column).length ≠ 1 := by
      rw [List.length_map]; omega
    refine ⟨walkL (row.map MatrixEntry.column).length
      ((order.sortStates (row.map MatrixEntry.column)).filterMap
        (classificationOf (row.map MatrixEntry.column)
          (rowClassifications ops var region row derivatives))),
      ?_, walkL_ne_not _ hsize _, ?_⟩
    · rw [checkLocalMonotonicity_eq_walk ops matrix order state var region derivatives row
        hrow hnc]
      exact walkSorted_of_perm matrix.columnCount _ _ _ (by simpa using h3) hmlen hp hlast
    · intro hnot
      apply walkL_of_mem_not _ hsize
      obtain ⟨j, hj⟩ := List.mem_iff_getElem?.mp hnot
      have hjlt : j < (rowClassifications ops var region row derivatives).length := by
        by_contra hge
        rw [List.getElem?_eq_none (by omega)] at hj
        simp at hj
      have hjs : j < (row.map MatrixEntry.column).length := by omega
      apply List.mem_filterMap.mpr
      refine ⟨(row.map MatrixEntry.column)[j], hp.symm.subset (List.getElem_mem hjs), ?_⟩
      rw [classificationOf_eq_getElem? _ _ hmlen, List.indexOf_getElem hnodup j hjs]
      exact hj

/-! ### The memo table -/

theorem lookup_assocSet_self {K T : Type} [DecidableEq K] (k : K) (v : T)
    (l : List (K × T)) : (assocSet k v l).lookup k = some v := by
  induction l with
  | nil => simp [assocSet, List.lookup_cons]
  | cons e rest ih =>
    obtain ⟨k1, v1⟩ := e
    by_cases h : k1 = k
    · simp [assocSet, h, List.lookup_cons]
    · have h2 : (k == k1) = false := by simpa using fun e => h e.symm
      simp [assocSet, h, List.lookup_cons, h2, ih]

theorem lookup_assocSet_ne {K T : Type} [DecidableEq K] (k k2 : K) (v : T)
    (l : List (K × T)) (hne : k2 ≠ k) : (assocSet k v l).lookup k2 = l.lookup k2 := by
  induction l with
  | nil =>
    have h2 : (k2 == k) = false := by simpa using hne
    simp [assocSet, List.lookup_cons, h2]
  | cons e rest ih =>
    obtain ⟨k1, v1⟩ := e
    by_cases h : k1 = k
    · subst h
      have h2 : (k2 == k1) = false := by simpa using hne
      simp [assocSet, List.lookup_cons, h2]
    · simp only [assocSet, h, if_false, List.lookup_cons, ih]

theorem cacheSound_nil (ops : ValueOps V Var Region) :
    CacheSound ops ([] : DerivativeCache V Var) := by
  intro f inner h
  simp at h

theorem cacheSound_touch (ops : ValueOps V Var Region) (cache : DerivativeCache V Var)
    (function : V) (h : CacheSound ops cache) : CacheSound ops (cache.touch function) := by
  unfold DerivativeCache.touch
  cases hl : cache.lookup function with
  | some _ => exact h
  | none =>
    intro f inner hf v d hd
    by_cases hfe : f = function
    · subst hfe
      rw [lookup_assocSet_self] at hf
      cases hf
      simp at hd
    · rw [lookup_assocSet_ne _ _ _ _ hfe] at hf
      exact h f inner hf v d hd

/-- With a sound memo table `getDerivative` returns what it would compute without the
table, and leaves the table sound. -/
theorem getDerivative_sound (ops : ValueOps V Var Region) (function : V) (var : Var)
    (cache : DerivativeCache V Var) (h : CacheSound ops cache) :
    (getDerivative ops function var cache).1
        = (if ops.isConstant function then ops.zero else ops.derivative function var)
      ∧ CacheSound ops (getDerivative ops function var cache).2 := by
  unfold getDerivative
  by_cases hc : ops.isConstant function = true
  · simp [hc, h]
  · simp only [hc, Bool.false_eq_true, if_false]
    have ht := cacheSound_touch ops cache function h
    cases hl : List.lookup var ((cache.touch function).inner function) with
    | some d =>
      refine ⟨?_, ht⟩
      simp only [DerivativeCache.inner] at hl
      cases hi : List.lookup function (cache.touch function) with
      | none => rw [hi] at hl; simp at hl
      | some inner =>
        rw [hi] at hl
        exact ht function inner hi var d (by simpa using hl)
    | none =>
      refine ⟨rfl, ?_⟩
      intro f inner hf v d hd
      by_cases hfe : f = function
      · subst hfe
        rw [lookup_assocSet_self] at hf
        cases hf
        by_cases hve : v = var
        · subst hve
          rw [lookup_assocSet_self] at hd
          cases hd
          rfl
        · rw [lookup_assocSet_ne _ _ _ _ hve] at hd
          simp only [DerivativeCache.inner] at hd
          cases hi : List.lookup f (cache.touch f) with
          | none => rw [hi] at hd; simp at hd
          | some inner2 =>
            rw [hi] at hd
            exact ht f inner2 hi v d (by simpa using hd)
      · rw [lookup_assocSet_ne _ _ _ _ hfe] at hf
        exact ht f inner hf v d hd

theorem checkTransitionMonRes_sound (ops : ValueOps V Var Region) (function : V)
    (param : Var) (region : Region) (cache : DerivativeCache V Var)
    (h : CacheSound ops cache) :
    (checkTransitionMonRes ops function param region cache).1
        = transitionMon ops function param region
      ∧ CacheSound ops (checkTransitionMonRes ops function param region cache).2 := by
  obtain ⟨h1, h2⟩ := getDerivative_sound ops function param cache h
  exact ⟨by simp only [checkTransitionMonRes, transitionMon, h1], h2⟩

theorem scanRow_sound (ops : ValueOps V Var Region) (var : Var) (region : Region)
    (row : List (MatrixEntry V)) (acc : RowScan V Var)
    (h : CacheSound ops acc.derivatives) :
    (scanRow ops var region row acc).succsMonUnsorted
        = acc.succsMonUnsorted ++ row.map (fun e => transitionMon ops e.value var region)
      ∧ CacheSound ops (scanRow ops var region row acc).derivatives := by
  induction row generalizing acc with
  | nil => simpa [scanRow] using h
  | cons e rest ih =>
    obtain ⟨h1, h2⟩ := checkTransitionMonRes_sound ops e.value var region acc.derivatives h
    simp only [scanRow]
    obtain ⟨h3, h4⟩ := ih
      { succs := acc.succs ++ [e.column]
        succsMonUnsorted := acc.succsMonUnsorted ++
          [(checkTransitionMonRes ops e.value var region acc.derivatives).1]
        ignore := acc.ignore && ops.isConstant e.value
        derivatives := (checkTransitionMonRes ops e.value var region acc.derivatives).2 } h2
    exact ⟨by rw [h3, h1]; simp, h4⟩

/-- With a sound memo table the classifications of a row are the classifications of its
weights computed without the table. -/
theorem rowClassifications_sound (ops : ValueOps V Var Region) (var : Var)
    (region : Region) (row : List (MatrixEntry V)) (derivatives : DerivativeCache V Var)
    (h : CacheSound ops derivatives) :
    rowClassifications ops var region row derivatives
      = row.map (fun e => transitionMon ops e.value var region) := by
  have := (scanRow_sound ops var region row
    { succs := [], succsMonUnsorted := [], ignore := true, derivatives := derivatives } h).1
  simpa [rowClassifications] using this

end CheckLocal

/-! ### The two-successor scenario -/

theorem transitionMon_weightP (p : Nat) :
    transitionMon affineOps (weightP p) p unitRegion = Monotonicity.Incr := by
  simp [transitionMon, affineOps, weightP, classifySigns, AffineWeight.eval, unitRegion]

theorem transitionMon_weightOneMinusP (p : Nat) :
    transitionMon affineOps (weightOneMinusP p) p unitRegion = Monotonicity.Decr := by
  simp [transitionMon, affineOps, weightOneMinusP, classifySigns, AffineWeight.eval,
    unitRegion]

/-- C4. For a state `s0` with exactly two outgoing transitions, weight `p` to `s1` and
weight `1 − p` to `s2`, over the region `p ∈ [0, 1]`, `checkLocalMonotonicity` returns
`Incr` when the order sorts `s1` before `s2` and `Decr` when it sorts `s2` before `s1`.
The entries of the row may stand in either order, and the memo table is any sound one
(the empty table of a new checker is). -/
theorem checkLocalMonotonicity_scenario (matrix : SparseMatrix AffineWeight)
    (order : Order) (s0 s1 s2 p : Nat) (derivatives : DerivativeCache AffineWeight Nat)
    (row : List (MatrixEntry AffineWeight))
    (hsound : CacheSound affineOps derivatives)
    (hrow : matrix.getRow s0 = some row)
    (hentries : row = [{ column := s1, value := weightP p },
          { column := s2, value := weightOneMinusP p }]
      ∨ row = [{ column := s2, value := weightOneMinusP p },
          { column := s1, value := weightP p }])
    (hne : s1 ≠ s2) (h1 : s1 ≠ matrix.columnCount) (h2 : s2 ≠ matrix.columnCount) :
    (order.sortStates (row.map MatrixEntry.column) = [s1, s2] →
        (checkLocalMonotonicity affineOps matrix order s0 p unitRegion derivatives).map
          Prod.fst = some Monotonicity.Incr)
      ∧ (order.sortStates (row.map MatrixEntry.column) = [s2, s1] →
        (checkLocalMonotonicity affineOps matrix order s0 p unitRegion derivatives).map
          Prod.fst = some Monotonicity.Decr) := by
  have hnc : ∃ e ∈ row, affineOps.isConstant e.value = false := by
    refine ⟨{ column := s1, value := weightP p }, ?_, ?_⟩
    · rcases hentries with h | h <;> simp [h]
    · simp [affineOps, weightP]
  rw [checkLocalMonotonicity_eq_walk affineOps matrix order s0 p unitRegion derivatives row
    hrow hnc, rowClassifications_sound affineOps p unitRegion row derivatives hsound]
  rcases hentries with h | h <;> subst h <;>
    simp only [List.map_cons, List.map_nil, transitionMon_weightP,
      transitionMon_weightOneMinusP]
  · constructor
    · intro hs
      rw [hs, walkSorted_two matrix.columnCount [s1, s2]
        [Monotonicity.Incr, Monotonicity.Decr] [s1, s2] rfl rfl (by simp [hne])
        (List.Perm.refl _) (by simp [h1, h2]) 0 (by omega) rfl]
      rfl
    · intro hs
      rw [hs, walkSorted_two matrix.columnCount [s1, s2]
        [Monotonicity.Incr, Monotonicity.Decr] [s2, s1] rfl rfl (by simp [hne])
        (List.Perm.swap _ _ _) (by simp [h1, h2]) 1 (by omega) rfl]
      rfl
  · constructor
    · intro hs
      rw [hs, walkSorted_two matrix.columnCount [s2, s1]
        [Monotonicity.Decr, Monotonicity.Incr] [s1, s2] rfl rfl
        (by simp [Ne.symm hne]) (List.Perm.swap _ _ _) (by simp [h1, h2]) 1 (by omega) rfl]
      rfl
    · intro hs
      rw [hs, walkSorted_two matrix.columnCount [s2, s1]
        [Monotonicity.Decr, Monotonicity.Incr] [s2, s1] rfl rfl
        (by simp [Ne.symm hne]) (List.Perm.refl _) (by simp [h1, h2]) 0 (by omega) rfl]
      rfl

/-! ## Theorems: `createAndCheckAssumptions` -/

section Assumptions

variable {σ O R : Type}

theorem AssumptionStatus.eq_unknown_of_ne (s : AssumptionStatus)
    (h1 : s ≠ AssumptionStatus.INVALID) (h2 : s ≠ AssumptionStatus.VALID) :
    s = AssumptionStatus.UNKNOWN := by
  cases s <;> simp_all

theorem AssumptionMap.insert_nil (entry : SharedPtr × AssumptionStatus) :
    AssumptionMap.insert [] entry = [entry] := by
  simp [AssumptionMap.insert]

theorem AssumptionMap.mem_insert (result : AssumptionMap)
    (entry e : SharedPtr × AssumptionStatus) (h : e ∈ AssumptionMap.insert result entry) :
    e ∈ result ∨ e = entry := by
  unfold AssumptionMap.insert at h
  split_ifs at h
  · exact Or.inl h
  · simpa using h

theorem assertEqualNotValid_ok (maker : AssumptionMaker σ O R) (assertions : Bool)
    (var1 var2 : Variable) (order : O) (region : R) (result res : AssumptionMap)
    (st st2 : MakerState σ)
    (h : assertEqualNotValid maker assertions var1 var2 order region result st
      = Except.ok (res, st2)) : res = result := by
  unfold assertEqualNotValid at h
  dsimp only at h
  split_ifs at h <;>
    · simp only [Except.ok.injEq, Prod.mk.injEq] at h
      exact h.1.symm

theorem assertOthersNotValid_ok (maker : AssumptionMaker σ O R) (assertions : Bool)
    (var1 var2 : Variable) (order : O) (region : R) (result res : AssumptionMap)
    (st st2 : MakerState σ)
    (h : assertOthersNotValid maker assertions var1 var2 order region result st
      = Except.ok (res, st2)) : res = result := by
  unfold assertOthersNotValid at h
  dsimp only at h
  split_ifs at h
  · exact assertEqualNotValid_ok maker true var1 var2 order region result res _ st2 h
  · simp only [Except.ok.injEq, Prod.mk.injEq] at h
    exact h.1.symm

theorem thirdCandidate_shape (maker : AssumptionMaker σ O R)
    (var1 var2 : Variable) (order : O) (region : R) (result res : AssumptionMap)
    (st st2 : MakerState σ) (hres : ∀ e ∈ result, e.2 = AssumptionStatus.UNKNOWN)
    (h : thirdCandidate maker var1 var2 order region result st = Except.ok (res, st2)) :
    ValidOrUnknown res := by
  unfold thirdCandidate at h
  dsimp only at h
  split_ifs at h with h1 h2
  · left
    simp only [Except.ok.injEq, Prod.mk.injEq] at h
    exact ⟨_, by rw [← h.1, AssumptionMap.insert_nil], h2⟩
  · right
    simp only [Except.ok.injEq, Prod.mk.injEq] at h
    intro e he
    rw [← h.1] at he
    rcases AssumptionMap.mem_insert _ _ _ he with he | he
    · exact hres e he
    · rw [he]
      exact AssumptionStatus.eq_unknown_of_ne _ h1 h2
  · right
    simp only [Except.ok.injEq, Prod.mk.injEq] at h
    rw [← h.1]
    exact hres

theorem secondCandidate_shape (maker : AssumptionMaker σ O R) (assertions : Bool)
    (var1 var2 : Variable) (order : O) (region : R) (result res : AssumptionMap)
    (st st2 : MakerState σ) (hres : ∀ e ∈ result, e.2 = AssumptionStatus.UNKNOWN)
    (h : secondCandidate maker assertions var1 var2 order region result st
      = Except.ok (res, st2)) :
    ValidOrUnknown res := by
  unfold secondCandidate at h
  dsimp only at h
  split_ifs at h with h1 h2
  · left
    have := assertEqualNotValid_ok maker assertions var1 var2 order region _ res _ st2 h
    exact ⟨_, by rw [this, AssumptionMap.insert_nil], h2⟩
  · apply thirdCandidate_shape maker var1 var2 order region _ res _ st2 _ h
    intro e he
    rcases AssumptionMap.mem_insert _ _ _ he with he | he
    · exact hres e he
    · rw [he]
      exact AssumptionStatus.eq_unknown_of_ne _ h1 h2
  · exact thirdCandidate_shape maker var1 var2 order region _ res _ st2 hres h

/-- A returned map is a single `VALID` entry or holds `UNKNOWN` entries only. -/
theorem createAndCheckAssumptions_shape (maker : AssumptionMaker σ O R) (assertions : Bool)
    (val1 val2 : Nat) (order : O) (region : R) (st st2 : MakerState σ)
    (res : AssumptionMap)
    (h : createAndCheckAssumptions maker assertions val1 val2 order region st
      = Except.ok (res, st2)) :
    ValidOrUnknown res := by
  unfold createAndCheckAssumptions at h
  split at h
  · dsimp only at h
    split_ifs at h with h1 h2
    · left
      have := assertOthersNotValid_ok maker assertions _ _ order region _ res _ st2 h
      exact ⟨_, by rw [this, AssumptionMap.insert_nil], h2⟩
    · apply secondCandidate_shape maker assertions _ _ order region _ res _ st2 _ h
      intro e he
      rcases AssumptionMap.mem_insert _ _ _ he with he | he
      · simp at he
      · rw [he]
        exact AssumptionStatus.eq_unknown_of_ne _ h1 h2
    · exact secondCandidate_shape maker assertions _ _ order region _ res _ st2
        (by simp) h
  · simp at h

/-- C8. No entry of the map returned by `createAndCheckAssumptions` has status
`INVALID`, for every pair of states, order, region and assumption checker. -/
theorem createAndCheckAssumptions_no_invalid (maker : AssumptionMaker σ O R)
    (assertions : Bool) (val1 val2 : Nat) (order : O) (region : R)
    (st st2 : MakerState σ) (res : AssumptionMap)
    (h : createAndCheckAssumptions maker assertions val1 val2 order region st
      = Except.ok (res, st2)) :
    ∀ e ∈ res, e.2 ≠ AssumptionStatus.INVALID := by
  intro e he
  rcases createAndCheckAssumptions_shape maker assertions val1 val2 order region st st2 res h
    with ⟨e1, h1, h2⟩ | h1
  · rw [h1] at he
    simp only [List.mem_singleton] at he
    rw [he, h2]
    simp
  · rw [h1 e he]
    simp

/-- C10. The map returned by `createAndCheckAssumptions` holds at most one entry with
status `VALID`, for every pair of states, order, region and behaviour of the assumption
checker. -/
theorem createAndCheckAssumptions_at_most_one_valid (maker : AssumptionMaker σ O R)
    (assertions : Bool) (val1 val2 : Nat) (order : O) (region : R)
    (st st2 : MakerState σ) (res : AssumptionMap)
    (h : createAndCheckAssumptions maker assertions val1 val2 order region st
      = Except.ok (res, st2)) :
    (res.filter (fun e => decide (e.2 = AssumptionStatus.VALID))).length ≤ 1 := by
  rcases createAndCheckAssumptions_shape maker assertions val1 val2 order region st st2 res h
    with ⟨e1, h1, h2⟩ | h1
  · rw [h1]
    simp [h2]
  · have : res.filter (fun e => decide (e.2 = AssumptionStatus.VALID)) = [] := by
      apply List.filter_eq_nil_iff.mpr
      intro e he
      rw [h1 e he]
      simp
    rw [this]
    simp

/-- C9. If the checker reports none of the three candidates `VALID`, then
`createAndCheckAssumptions` returns, and the returned map holds exactly the candidates
the checker reports `UNKNOWN`, each with status `UNKNOWN` and under a key of its own: it
has as many entries as there are `UNKNOWN` candidates and is empty when all three are
`INVALID`. -/
theorem createAndCheckAssumptions_none_valid (maker : AssumptionMaker σ O R)
    (assertions : Bool) (val1 val2 : Nat) (order : O) (region : R) (st : MakerState σ)
    (h1 : val1 < maker.numberOfStates) (h2 : val2 < maker.numberOfStates)
    (hnone : ∀ a ∈ checkerAnswers maker order region st.checker (candidates val1 val2),
      a.2 ≠ AssumptionStatus.VALID) :
    ∃ res st2,
      createAndCheckAssumptions maker assertions val1 val2 order region st
          = Except.ok (res, st2)
        ∧ res.contents
          = (checkerAnswers maker order region st.checker (candidates val1 val2)).filter
              (fun a => decide (a.2 = AssumptionStatus.UNKNOWN))
        ∧ (res.map (fun e => e.1.address)).Nodup := by
  simp only [candidates, checkerAnswers, List.mem_cons, List.mem_singleton, forall_eq_or_imp,
    forall_eq, List.not_mem_nil, false_implies, implies_true, and_true] at hnone
  obtain ⟨hv1, hv2, hv3⟩ := hnone
  simp only [createAndCheckAssumptions, AssumptionMaker.getVariable, h1, h2, if_true,
    secondCandidate, thirdCandidate, createAndCheckAssumption, candidates, checkerAnswers,
    AssumptionMap.contents]
  generalize maker.validateAssumption st.checker
    { firstOperand := { index := val2 }, secondOperand := { index := val1 },
      relationType := RelationType.Greater } order region = r1 at hv1 hv2 hv3 ⊢
  generalize maker.validateAssumption r1.2
    { firstOperand := { index := val1 }, secondOperand := { index := val2 },
      relationType := RelationType.Greater } order region = r2 at hv2 hv3 ⊢
  generalize maker.validateAssumption r2.2
    { firstOperand := { index := val2 }, secondOperand := { index := val1 },
      relationType := RelationType.Equal } order region = r3 at hv3 ⊢
  obtain ⟨v1, s1⟩ := r1
  obtain ⟨v2, s2⟩ := r2
  obtain ⟨v3, s3⟩ := r3
  have hne : st.nextAddress ≠ st.nextAddress + 1 + 1 := by omega
  cases v1 <;> cases v2 <;> cases v3 <;>
    simp [AssumptionMap.insert, hne] at hv1 hv2 hv3 ⊢

/-- C7. For a deterministic assumption checker that reports `VALID` for at least one of
the three candidates, a map returned by `createAndCheckAssumptions` has exactly one
entry: the first candidate in priority order that the checker reports `VALID`, with
status `VALID`; candidates tried earlier and found `UNKNOWN` are not in the map. -/
theorem createAndCheckAssumptions_first_valid (numberOfStates : Nat)
    (verdict : BinaryRelationExpression → O → R → AssumptionStatus) (assertions : Bool)
    (val1 val2 : Nat) (order : O) (region : R) (st st2 : MakerState Unit)
    (res : AssumptionMap)
    (hvalid : ∃ c ∈ candidates val1 val2, verdict c order region = AssumptionStatus.VALID)
    (hret : createAndCheckAssumptions (deterministicMaker numberOfStates verdict) assertions
      val1 val2 order region st = Except.ok (res, st2)) :
    ∃ ptr, res = [(ptr, AssumptionStatus.VALID)]
      ∧ (candidates val1 val2).find?
          (fun c => decide (verdict c order region = AssumptionStatus.VALID))
        = some ptr.target := by
  by_cases h1 : val1 < numberOfStates
  swap
  · simp [createAndCheckAssumptions, AssumptionMaker.getVariable, deterministicMaker, h1]
      at hret
  by_cases h2 : val2 < numberOfStates
  swap
  · simp [createAndCheckAssumptions, AssumptionMaker.getVariable, deterministicMaker, h2]
      at hret
  simp only [candidates, List.mem_cons, List.mem_singleton, exists_eq_or_imp,
    exists_eq_left, List.not_mem_nil, false_and, exists_false, or_false] at hvalid
  simp only [createAndCheckAssumptions, AssumptionMaker.getVariable, deterministicMaker, h1,
    h2, if_true, secondCandidate, thirdCandidate, assertOthersNotValid, assertEqualNotValid,
    createAndCheckAssumption] at hret
  simp only [candidates, List.find?_cons, List.find?_nil]
  generalize verdict
    { firstOperand := { index := val2 }, secondOperand := { index := val1 },
      relationType := RelationType.Greater } order region = v1 at hvalid hret ⊢
  generalize verdict
    { firstOperand := { index := val1 }, secondOperand := { index := val2 },
      relationType := RelationType.Greater } order region = v2 at hvalid hret ⊢
  generalize verdict
    { firstOperand := { index := val2 }, secondOperand := { index := val1 },
      relationType := RelationType.Equal } order region = v3 at hvalid hret ⊢
  cases assertions <;> cases v1 <;> cases v2 <;> cases v3 <;>
    simp [AssumptionMap.insert] at hvalid hret ⊢ <;>
    (obtain ⟨hr, _⟩ := hret; subst hr; simp)

/-- C11, as amended. `createAndCheckAssumptions(stateA, stateB, order, region)` validates
its candidates in this priority order: first the `Greater` relation whose first operand
is the variable of `stateB` and whose second operand is the variable of `stateA`, then
the `Greater` relation with first operand `stateA` and second operand `stateB`, then the
`Equal` relation with first operand `stateB` and second operand `stateA`; it stops after
the first candidate found `VALID`. With assertions disabled the call returns and these
are all the validations; with assertions enabled a call that returns has made them
first, followed by the validations of its assertion. -/
theorem createAndCheckAssumptions_priority_order (numberOfStates : Nat)
    (verdict : BinaryRelationExpression → O → R → AssumptionStatus) (assertions : Bool)
    (stateA stateB : Nat) (order : O) (region : R)
    (st : MakerState (List BinaryRelationExpression))
    (hA : stateA < numberOfStates) (hB : stateB < numberOfStates) :
    (∀ res st2,
        createAndCheckAssumptions (recordingMaker numberOfStates verdict) assertions stateA
            stateB order region st = Except.ok (res, st2) →
          ∃ rest, (assertions = false → rest = [])
            ∧ st2.checker = st.checker ++
                List.take
                  (candidatesTried
                    (verdict { firstOperand := { index := stateB },
                               secondOperand := { index := stateA },
                               relationType := RelationType.Greater } order region)
                    (verdict { firstOperand := { index := stateA },
                               secondOperand := { index := stateB },
                               relationType := RelationType.Greater } order region))
                  [{ firstOperand := { index := stateB }, secondOperand := { index := stateA },
                     relationType := RelationType.Greater },
                   { firstOperand := { index := stateA }, secondOperand := { index := stateB },
                     relationType := RelationType.Greater },
                   { firstOperand := { index := stateB }, secondOperand := { index := stateA },
                     relationType := RelationType.Equal }] ++ rest)
      ∧ ∃ res st2,
          createAndCheckAssumptions (recordingMaker numberOfStates verdict) false stateA
            stateB order region st = Except.ok (res, st2) := by
  simp only [createAndCheckAssumptions, AssumptionMaker.getVariable, recordingMaker, hA, hB,
    if_true, secondCandidate, thirdCandidate, assertOthersNotValid, assertEqualNotValid,
    createAndCheckAssumption, candidatesTried]
  generalize verdict
    { firstOperand := { index := stateB }, secondOperand := { index := stateA },
      relationType := RelationType.Greater } order region = v1
  generalize verdict
    { firstOperand := { index := stateA }, secondOperand := { index := stateB },
      relationType := RelationType.Greater } order region = v2
  generalize verdict
    { firstOperand := { index := stateB }, secondOperand := { index := stateA },
      relationType := RelationType.Equal } order region = v3
  constructor
  · intro res st2 h
    cases assertions <;> cases v1 <;> cases v2 <;> cases v3 <;>
      simp at h <;>
      (obtain ⟨_, h2⟩ := h; subst h2; simp)
  · cases v1 <;> cases v2 <;> cases v3 <;> exact ⟨_, _, rfl⟩

/-- C12. With assertions enabled and a deterministic assumption checker,
`createAndCheckAssumptions` fails an assertion if and only if the checker reports
`VALID` for two or more of the three candidates; when at most one candidate is `VALID`
it returns a map. -/
theorem createAndCheckAssumptions_assertion_iff (numberOfStates : Nat)
    (verdict : BinaryRelationExpression → O → R → AssumptionStatus)
    (val1 val2 : Nat) (order : O) (region : R) (st : MakerState Unit)
    (h1 : val1 < numberOfStates) (h2 : val2 < numberOfStates) :
    (createAndCheckAssumptions (deterministicMaker numberOfStates verdict) true val1 val2
          order region st = Except.error Failure.assertionFailed
        ↔ 2 ≤ ((candidates val1 val2).filter
            (fun c => decide (verdict c order region = AssumptionStatus.VALID))).length)
      ∧ (((candidates val1 val2).filter
            (fun c => decide (verdict c order region = AssumptionStatus.VALID))).length ≤ 1 →
          ∃ res st2, createAndCheckAssumptions (deterministicMaker numberOfStates verdict)
            true val1 val2 order region st = Except.ok (res, st2)) := by
  simp only [createAndCheckAssumptions, AssumptionMaker.getVariable, deterministicMaker, h1,
    h2, if_true, secondCandidate, thirdCandidate, assertOthersNotValid, assertEqualNotValid,
    createAndCheckAssumption, candidates, List.filter_cons, List.filter_nil]
  generalize verdict
    { firstOperand := { index := val2 }, secondOperand := { index := val1 },
      relationType := RelationType.Greater } order region = v1
  generalize verdict
    { firstOperand := { index := val1 }, secondOperand := { index := val2 },
      relationType := RelationType.Greater } order region = v2
  generalize verdict
    { firstOperand := { index := val2 }, secondOperand := { index := val1 },
      relationType := RelationType.Equal } order region = v3
  cases v1 <;> cases v2 <;> cases v3 <;> simp

end Assumptions

/-! ### Transitions that are all classified `Constant` -/

section AllConstant

variable {V Var Region : Type} [DecidableEq V] [DecidableEq Var]

/-- The walk in general: with `succSize` the number of successors, or `1` for exactly two
successors, it is the list-based walk over the first `succSize` looked-up
classifications. -/
theorem walkSorted_eq_walkL_general (columnCount : Nat) (succs : List Nat)
    (succsMon : List Monotonicity) (succsSorted : List Nat) (ms : List Monotonicity)
    (last : Nat) (hlast : succsSorted[succs.length - 1]? = some last)
    (hne : last ≠ columnCount) (succSize : Nat)
    (hsize : succSize = if succs.length = 2 then 1 else succs.length)
    (hms : ms.length = succSize)
    (hread : ∀ i, i < succSize → transitionMonAt succs succsMon succsSorted i = ms[i]?) :
    walkSorted columnCount succs succsMon succsSorted = some (walkL succSize ms) := by
  obtain ⟨i2, h1, h2, h3⟩ := firstLoop_eq_list succs succsMon succsSorted succSize ms
    hms hread succSize 0 Monotonicity.Constant (by omega)
  simp only [walkSorted, hlast, hne, if_false, ← hsize, h1]
  rw [secondLoop_eq_list succs succsMon succsSorted succSize ms hms hread succSize
    i2 true _ (by omega)]
  simp only [List.drop_zero] at h2
  simp only [walkL, List.drop_zero, h2]

/-- The walk over ranked successors whose transitions are all classified `Constant`
returns `Constant`. -/
theorem walkSorted_all_constant (columnCount : Nat) (succs : List Nat)
    (succsMon : List Monotonicity) (succsSorted : List Nat)
    (hpos : 0 < succs.length) (hlen : succs.length = succsMon.length)
    (hall : ∀ m ∈ succsMon, m = Monotonicity.Constant)
    (hperm : succsSorted.Perm succs)
    (hlast : succsSorted.getLast? ≠ some columnCount) :
    walkSorted columnCount succs succsMon succsSorted = some Monotonicity.Constant := by
  have hslen : succsSorted.length = succs.length := hperm.length_eq
  obtain ⟨hmslen, hread⟩ := transitionMonAt_sorted succs succsMon succsSorted hlen
    (fun s hs => hperm.subset hs)
  have hidx : succs.length - 1 < succsSorted.length := by omega
  have hl : succsSorted[succs.length - 1]? = some succsSorted[succs.length - 1] :=
    List.getElem?_eq_getElem hidx
  have hne : succsSorted[succs.length - 1] ≠ columnCount := by
    intro e
    apply hlast
    rw [List.getLast?_eq_getElem?, hslen, hl, e]
  have hsz : (if succs.length = 2 then 1 else succs.length) ≤ succs.length := by
    split_ifs <;> omega
  rw [walkSorted_eq_walkL_general columnCount succs succsMon succsSorted
    ((succsSorted.filterMap (classificationOf succs succsMon)).take
      (if succs.length = 2 then 1 else succs.length))
    _ hl hne (if succs.length = 2 then 1 else succs.length) rfl
    (by rw [List.length_take, hmslen, hslen]; omega)
    (fun i hi => by
      rw [hread i (by omega), List.getElem?_take_of_lt hi])]
  have hconst : ∀ m ∈ (succsSorted.filterMap (classificationOf succs succsMon)).take
      (if succs.length = 2 then 1 else succs.length), m = Monotonicity.Constant := by
    intro m hm
    obtain ⟨s, _, hs⟩ := List.mem_filterMap.mp (List.mem_of_mem_take hm)
    exact hall m (mem_of_classificationOf _ _ hlen s m hs)
  rw [walkL_eq_oneSwapVerdict _ _ (fun m hm => Or.inr (Or.inr (hconst m hm)))]
  have hfil : ((succsSorted.filterMap (classificationOf succs succsMon)).take
      (if succs.length = 2 then 1 else succs.length)).filter
        (fun m => decide (m ≠ Monotonicity.Constant)) = [] := by
    apply List.filter_eq_nil_iff.mpr
    intro m hm
    simp [hconst m hm]
  rw [hfil]
  rfl

/-- C1, as amended. For every order, region, parameter and state all of whose
transitions are classified `Constant` in the parameter, `checkLocalMonotonicity` returns
`Constant` when every outgoing weight is a constant function (`isConstant`) or the last
state of `order.sortStates(succs)` is not the sentinel, and `Unknown` otherwise. The
order's `sortStates` is taken to return as many states as it is given and, unless the
last of them is the sentinel, a reordering of the successors. -/
theorem checkLocalMonotonicity_all_classified_constant (ops : ValueOps V Var Region)
    (matrix : SparseMatrix V) (order : Order) (state : Nat) (var : Var) (region : Region)
    (derivatives : DerivativeCache V Var) (row : List (MatrixEntry V))
    (hrow : matrix.getRow state = some row)
    (hcls : ∀ m ∈ rowClassifications ops var region row derivatives,
      m = Monotonicity.Constant)
    (hlen : (order.sortStates (row.map MatrixEntry.column)).length = row.length)
    (hperm : (order.sortStates (row.map MatrixEntry.column)).getLast?
        ≠ some matrix.columnCount →
      (order.sortStates (row.map MatrixEntry.column)).Perm (row.map MatrixEntry.column)) :
    (checkLocalMonotonicity ops matrix order state var region derivatives).map Prod.fst
      = some (if (∀ e ∈ row, ops.isConstant e.value = true)
            ∨ (order.sortStates (row.map MatrixEntry.column)).getLast?
              ≠ some matrix.columnCount
          then Monotonicity.Constant else Monotonicity.Unknown) := by
  by_cases hall : ∀ e ∈ row, ops.isConstant e.value = true
  · have hign : (scanRow ops var region row
        { succs := [], succsMonUnsorted := [], ignore := true,
          derivatives := derivatives }).ignore = true := by
      rw [scanRow_ignore]
      simp only [Bool.true_and]
      exact List.all_eq_true.mpr hall
    rw [if_pos (Or.inl hall)]
    simp [checkLocalMonotonicity, hrow, hign]
  · have hnc : ∃ e ∈ row, ops.isConstant e.value = false := by
      push_neg at hall
      obtain ⟨e, he, hec⟩ := hall
      exact ⟨e, he, by simpa using hec⟩
    rw [checkLocalMonotonicity_eq_walk ops matrix order state var region derivatives row
      hrow hnc]
    by_cases hlast : (order.sortStates (row.map MatrixEntry.column)).getLast?
        = some matrix.columnCount
    · rw [walkSorted_unplaced _ _ _ _ (by rw [hlen, List.length_map]) hlast,
        if_neg (fun h => h.elim hall (fun h2 => h2 hlast))]
    · have hpos : 0 < (row.map MatrixEntry.column).length := by
        obtain ⟨e, he, _⟩ := hnc
        rw [List.length_map]
        exact List.length_pos_of_mem he
      rw [walkSorted_all_constant matrix.columnCount _ _ _ hpos
        (by rw [rowClassifications_length, List.length_map]) hcls (hperm hlast) hlast,
        if_pos (Or.inr hlast)]

end AllConstant

/-! ## Theorems: `LocalMonotonicityResult` -/

section LocalResult

variable {MR Var : Type}

theorem Heap.modify_eq (heap : Heap MR) (address : Nat) (method : MR → MR)
    (h : address < heap.length) :
    heap.modify address method = some (heap.set address (method heap[address])) := by
  simp [Heap.modify, List.getElem?_eq_getElem h]

theorem bitSet_eq (bits : List Bool) (index : Nat) (value : Bool) (h : index < bits.length) :
    bitSet bits index value = some (bits.set index value) := by
  simp [bitSet, h]

/-- Lines 31 to 33 of `setMonotonicity` on a well-formed result. -/
theorem ensureStateResult_spec (ops : MonotonicityResultOps MR Var)
    (r : LocalMonotonicityResult) (state : Nat) (heap : Heap MR)
    (hwf : WellFormed r heap) (hs : state < r.stateMonRes.length) :
    ∃ address heap1,
      r.ensureStateResult ops state heap
          = some (address, { r with stateMonRes := r.stateMonRes.set state (some address) },
              heap1)
        ∧ address < heap1.length
        ∧ address ≠ r.globalMonotonicityResult
        ∧ heap1[address]? = some (stateObject ops r heap state)
        ∧ heap.length ≤ heap1.length
        ∧ (∀ b, b < heap.length → heap1[b]? = heap[b]?)
        ∧ (some address ∈ r.stateMonRes ∨ address = heap.length) := by
  obtain ⟨hg, hlen, hptr⟩ := hwf
  have hget : r.stateMonRes[state]? = some r.stateMonRes[state] :=
    List.getElem?_eq_getElem hs
  cases hentry : r.stateMonRes[state] with
  | none =>
    rw [hentry] at hget
    refine ⟨heap.length, heap ++ [ops.fresh], ?_, ?_, ?_, ?_, ?_, ?_, Or.inr rfl⟩
    · simp [LocalMonotonicityResult.ensureStateResult, hget]
    · simp
    · omega
    · simp [stateObject, hget]
    · simp
    · intro b hb
      exact List.getElem?_append_left hb
  | some address =>
    rw [hentry] at hget
    have hmem : some address ∈ r.stateMonRes := List.getElem?_mem hget
    obtain ⟨ha, hne⟩ := hptr address hmem
    have hset : r.stateMonRes.set state (some address) = r.stateMonRes := by
      apply List.ext_getElem?
      intro i
      by_cases hi : state = i
      · subst hi
        rw [List.getElem?_set_self hs, hget]
      · rw [List.getElem?_set_ne hi]
    refine ⟨address, heap, ?_, ha, hne, ?_, le_refl _, fun _ _ => rfl, Or.inl hmem⟩
    · simp [LocalMonotonicityResult.ensureStateResult, hget, hset]
    · simp [stateObject, hget, List.getElem?_eq_getElem ha]

/-- The effect of `setMonotonicity` on a well-formed result: the pointer of the state is
`address`, the object behind it is the earlier object of the state with `(var, mon)`
added, the bit of the state is `monotoneBit`, and of the heap as it was only the objects
at `address` and at the global pointer can have changed. -/
theorem setMonotonicity_spec (ops : MonotonicityResultOps MR Var)
    (r : LocalMonotonicityResult) (state : Nat) (var : Var) (mon : Monotonicity)
    (heap : Heap MR) (hwf : WellFormed r heap) (hs : state < r.stateMonRes.length) :
    ∃ address heap2,
      r.setMonotonicity ops state var mon heap
          = some ({ r with
                    stateMonRes := r.stateMonRes.set state (some address)
                    statesMonotone := r.statesMonotone.set state
                      (monotoneBit ops (stateObject ops r heap state) var mon) },
                  heap2)
        ∧ heap2[address]?
          = some (ops.addMonotonicityResult (stateObject ops r heap state) var mon)
        ∧ address ≠ r.globalMonotonicityResult
        ∧ (some address ∈ r.stateMonRes ∨ address = heap.length)
        ∧ address < heap2.length
        ∧ heap.length ≤ heap2.length
        ∧ (∀ b, b < heap.length → b ≠ address → b ≠ r.globalMonotonicityResult →
            heap2[b]? = heap[b]?) := by
  obtain ⟨address, heap1, hens, ha, hne, hobj, hle, hold, hown⟩ :=
    ensureStateResult_spec ops r state heap hwf hs
  obtain ⟨hg, hlen, hptr⟩ := hwf
  have hg1 : r.globalMonotonicityResult < heap1.length := by omega
  have hsb : state < r.statesMonotone.length := by omega
  have hobj2 : heap1[address] = stateObject ops r heap state := by
    rw [List.getElem?_eq_getElem ha] at hobj
    exact Option.some.inj hobj
  have hg2 : r.globalMonotonicityResult
      < (heap1.set address (ops.addMonotonicityResult heap1[address] var mon)).length := by
    simpa using hg1
  simp only [LocalMonotonicityResult.setMonotonicity, hens]
  rw [Heap.modify_eq heap1 address _ ha]
  simp only []
  rw [Heap.modify_eq _ r.globalMonotonicityResult _ hg2]
  simp only [LocalMonotonicityResult.updateStatesMonotone]
  have hga : r.globalMonotonicityResult ≠ address := fun e => hne e.symm
  have h3a : ((heap1.set address (ops.addMonotonicityResult heap1[address] var mon)).set
      r.globalMonotonicityResult
      (ops.updateMonotonicityResult
        (heap1.set address (ops.addMonotonicityResult heap1[address] var mon))[
          r.globalMonotonicityResult] var mon))[address]?
      = some (ops.addMonotonicityResult (stateObject ops r heap state) var mon) := by
    rw [List.getElem?_set_ne hga, List.getElem?_set_self ha, hobj2]
  have hframe : ∀ b, b < heap.length → b ≠ address → b ≠ r.globalMonotonicityResult →
      ((heap1.set address (ops.addMonotonicityResult heap1[address] var mon)).set
        r.globalMonotonicityResult
        (ops.updateMonotonicityResult
          (heap1.set address (ops.addMonotonicityResult heap1[address] var mon))[
            r.globalMonotonicityResult] var mon))[b]? = heap[b]? := by
    intro b hb hba hbg
    rw [List.getElem?_set_ne (fun e => hbg e.symm), List.getElem?_set_ne (fun e => hba e.symm)]
    exact hold b hb
  by_cases hmon : mon = Monotonicity.Unknown ∨ mon = Monotonicity.Not
  · have hbit : monotoneBit ops (stateObject ops r heap state) var mon = false := by
      simp [monotoneBit, hmon]
    rw [hbit, if_pos hmon, bitSet_eq _ _ _ hsb]
    exact ⟨address, _, rfl, h3a, hne, hown, by simpa using ha, by simpa using hle, hframe⟩
  · have hbit : monotoneBit ops (stateObject ops r heap state) var mon
        = ops.isAllMonotonicity
            (ops.addMonotonicityResult (stateObject ops r heap state) var mon) := by
      simp [monotoneBit, hmon]
    rw [hbit, if_neg hmon, h3a]
    simp only []
    rw [bitSet_eq _ _ _ hsb]
    simp only []
    split_ifs
    · rw [Heap.modify_eq _ r.globalMonotonicityResult _ (by simpa using hg1)]
      refine ⟨address, _, rfl, ?_, hne, hown, by simpa using ha, by simpa using hle, ?_⟩
      · rw [List.getElem?_set_ne hga, h3a]
      · intro b hb hba hbg
        rw [List.getElem?_set_ne (fun e => hbg e.symm)]
        exact hframe b hb hba hbg
    · exact ⟨address, _, rfl, h3a, hne, hown, by simpa using ha, by simpa using hle, hframe⟩

theorem setMonotonicity_some_lt (ops : MonotonicityResultOps MR Var)
    (r r2 : LocalMonotonicityResult) (state : Nat) (var : Var) (mon : Monotonicity)
    (heap heap2 : Heap MR)
    (h : r.setMonotonicity ops state var mon heap = some (r2, heap2)) :
    state < r.stateMonRes.length := by
  by_contra hge
  have hnone : r.stateMonRes[state]? = none := List.getElem?_eq_none (by omega)
  simp [LocalMonotonicityResult.setMonotonicity, LocalMonotonicityResult.ensureStateResult,
    hnone] at h

/-- What one call does to a well-formed result and the heap. -/
theorem call_step [DecidableEq Var] (ops : MonotonicityResultOps MR Var)
    (r r2 : LocalMonotonicityResult) (heap heap2 : Heap MR) (c : Call Var)
    (hwf : WellFormed r heap) (h : r.call ops heap c = some (r2, heap2)) :
    WellFormed r2 heap2
      ∧ heap.length ≤ heap2.length
      ∧ (∀ a, Owns r2 a → Owns r a ∨ heap.length ≤ a)
      ∧ (∀ b, b < heap.length → ¬ Owns r b → heap2[b]? = heap[b]?)
      ∧ r2.done = forcedDone [c] r.done
      ∧ r2.stateMonRes.length = r.stateMonRes.length
      ∧ ∀ s, setsMonotonicityOf s [c] = false →
          r2.stateMonRes[s]? = r.stateMonRes[s]?
            ∧ r2.statesMonotone[s]?
              = (r.statesMonotone[s]?).map (fun b => b || setsConstant s [c]) := by
  cases c with
  | setMonotonicity state var mon =>
    simp only [LocalMonotonicityResult.call] at h
    have hs := setMonotonicity_some_lt ops r r2 state var mon heap heap2 h
    obtain ⟨address, heap3, heq, hobj, hne, hown, ha, hle, hframe⟩ :=
      setMonotonicity_spec ops r state var mon heap hwf hs
    rw [heq] at h
    simp only [Option.some.injEq, Prod.mk.injEq] at h
    obtain ⟨hr, hh⟩ := h
    subst hr
    subst hh
    obtain ⟨hg, hlen, hptr⟩ := hwf
    refine ⟨⟨by simpa using (show r.globalMonotonicityResult < heap3.length by omega),
      by simpa using hlen, ?_⟩, hle, ?_, ?_, rfl, by simp, ?_⟩
    · intro a hmem
      simp only at hmem
      rcases List.mem_or_eq_of_mem_set hmem with hm | hm
      · obtain ⟨h1, h2⟩ := hptr a hm
        exact ⟨by omega, h2⟩
      · cases hm
        exact ⟨ha, hne⟩
    · intro a hown2
      rcases hown2 with hg2 | hmem
      · exact Or.inl (Or.inl hg2)
      · simp only at hmem
        rcases List.mem_or_eq_of_mem_set hmem with hm | hm
        · exact Or.inl (Or.inr hm)
        · cases hm
          rcases hown with h1 | h1
          · exact Or.inl (Or.inr h1)
          · exact Or.inr (by omega)
    · intro b hb hnot
      apply hframe b hb
      · intro e
        subst e
        rcases hown with h1 | h1
        · exact hnot (Or.inr h1)
        · omega
      · intro e
        exact hnot (Or.inl e)
    · intro s hs2
      have hne2 : state ≠ s := by
        simpa [setsMonotonicityOf] using hs2
      simp [List.getElem?_set_ne hne2, setsConstant]
  | setConstant state =>
    simp only [LocalMonotonicityResult.call, LocalMonotonicityResult.setConstant] at h
    by_cases hlt : state < r.statesMonotone.length
    · rw [bitSet_eq _ _ _ hlt] at h
      simp only [Option.some.injEq, Prod.mk.injEq] at h
      obtain ⟨hr, hh⟩ := h
      subst hr
      subst hh
      obtain ⟨hg, hlen, hptr⟩ := hwf
      refine ⟨⟨hg, by simpa using hlen, hptr⟩, le_refl _, fun a ha => Or.inl ha,
        fun _ _ _ => rfl, rfl, rfl, ?_⟩
      intro s _
      refine ⟨rfl, ?_⟩
      by_cases hss : state = s
      · subst hss
        simp [List.getElem?_set_self hlt, List.getElem?_eq_getElem hlt, setsConstant]
      · have : (decide (state = s)) = false := by simpa using hss
        simp [List.getElem?_set_ne hss, setsConstant, this]
    · simp [bitSet, hlt] at h
  | setDone done =>
    simp only [LocalMonotonicityResult.call, Option.some.injEq, Prod.mk.injEq] at h
    obtain ⟨hr, hh⟩ := h
    subst hr
    subst hh
    refine ⟨hwf, le_refl _, fun a ha => Or.inl ha, fun _ _ _ => rfl, rfl, rfl, ?_⟩
    intro s _
    refine ⟨rfl, ?_⟩
    simp [LocalMonotonicityResult.setDone, setsConstant]

theorem forcedDone_cons (c : Call Var) (cs : List (Call Var)) (forced : Bool) :
    forcedDone (c :: cs) forced = forcedDone cs (forcedDone [c] forced) := by
  cases c <;> simp [forcedDone]

theorem setsMonotonicityOf_cons (s : Nat) (c : Call Var) (cs : List (Call Var)) :
    setsMonotonicityOf s (c :: cs)
      = (setsMonotonicityOf s [c] || setsMonotonicityOf s cs) := by
  cases c <;> simp [setsMonotonicityOf]

theorem setsConstant_cons (s : Nat) (c : Call Var) (cs : List (Call Var)) :
    setsConstant s (c :: cs) = (setsConstant s [c] || setsConstant s cs) := by
  cases c <;> simp [setsConstant]

/-- What a sequence of calls does to a well-formed result and the heap. -/
theorem calls_spec [DecidableEq Var] (ops : MonotonicityResultOps MR Var)
    (cs : List (Call Var)) :
    ∀ (r r2 : LocalMonotonicityResult) (heap heap2 : Heap MR), WellFormed r heap →
      LocalMonotonicityResult.calls ops cs r heap = some (r2, heap2) →
      WellFormed r2 heap2
        ∧ heap.length ≤ heap2.length
        ∧ (∀ a, Owns r2 a → Owns r a ∨ heap.length ≤ a)
        ∧ (∀ b, b < heap.length → ¬ Owns r b → heap2[b]? = heap[b]?)
        ∧ r2.done = forcedDone cs r.done
        ∧ r2.stateMonRes.length = r.stateMonRes.length
        ∧ ∀ s, setsMonotonicityOf s cs = false →
            r2.stateMonRes[s]? = r.stateMonRes[s]?
              ∧ r2.statesMonotone[s]?
                = (r.statesMonotone[s]?).map (fun b => b || setsConstant s cs) := by
  induction cs with
  | nil =>
    intro r r2 heap heap2 hwf h
    simp only [LocalMonotonicityResult.calls, Option.some.injEq, Prod.mk.injEq] at h
    obtain ⟨hr, hh⟩ := h
    subst hr
    subst hh
    refine ⟨hwf, le_refl _, fun a ha => Or.inl ha, fun _ _ _ => rfl, rfl, rfl, ?_⟩
    intro s _
    simp [setsConstant]
  | cons c cs ih =>
    intro r r2 heap heap2 hwf h
    simp only [LocalMonotonicityResult.calls] at h
    cases hc : r.call ops heap c with
    | none => simp [hc] at h
    | some p =>
      obtain ⟨r1, heap1⟩ := p
      rw [hc] at h
      simp only at h
      obtain ⟨hwf1, hle1, hown1, hfr1, hd1, hl1, hs1⟩ := call_step ops r r1 heap heap1 c hwf hc
      obtain ⟨hwf2, hle2, hown2, hfr2, hd2, hl2, hs2⟩ := ih r1 r2 heap1 heap2 hwf1 h
      refine ⟨hwf2, by omega, ?_, ?_, ?_, by omega, ?_⟩
      · intro a ha
        rcases hown2 a ha with h3 | h3
        · rcases hown1 a h3 with h4 | h4
          · exact Or.inl h4
          · exact Or.inr h4
        · exact Or.inr (by omega)
      · intro b hb hnot
        have hnot1 : ¬ Owns r1 b := by
          intro ho
          rcases hown1 b ho with h4 | h4
          · exact hnot h4
          · omega
        rw [hfr2 b (by omega) hnot1, hfr1 b hb hnot]
      · rw [hd2, hd1]
        exact (forcedDone_cons c cs r.done).symm
      · intro s hs
        rw [setsMonotonicityOf_cons] at hs
        simp only [Bool.or_eq_false_iff] at hs
        obtain ⟨h5, h6⟩ := hs1 s hs.1
        obtain ⟨h7, h8⟩ := hs2 s hs.2
        refine ⟨by rw [h7, h5], ?_⟩
        rw [h8, h6, setsConstant_cons s c cs]
        cases r.statesMonotone[s]? with
        | none => rfl
        | some b => simp [Bool.or_assoc]

/-! ### `copy` -/

theorem wellFormed_construct (ops : MonotonicityResultOps MR Var) (numberOfStates : Nat)
    (heap : Heap MR) :
    WellFormed (LocalMonotonicityResult.construct ops numberOfStates heap).1
      (LocalMonotonicityResult.construct ops numberOfStates heap).2 := by
  refine ⟨by simp [LocalMonotonicityResult.construct],
    by simp [LocalMonotonicityResult.construct], ?_⟩
  intro a ha
  simp [LocalMonotonicityResult.construct, List.mem_replicate] at ha

/-- The `for` loop of `copy`, started at `state` on the heap `heapX` that extends the heap
`heap0` of the original: every pointer of the original that is not null gets a new
object with the copied value, null pointers and the other members stay as they are. -/
theorem copyStateResults_spec (ops : MonotonicityResultOps MR Var) (heap0 : Heap MR) :
    ∀ (entries : List (Option Nat)) (state : Nat) (copy : LocalMonotonicityResult)
      (heapX : Heap MR),
      (∀ a, some a ∈ entries → a < heap0.length) →
      heap0.length ≤ heapX.length →
      (∀ b, b < heap0.length → heapX[b]? = heap0[b]?) →
      state + entries.length ≤ copy.stateMonRes.length →
      ∃ ptrs heapY,
        copyStateResults ops entries state copy heapX
            = some ({ copy with stateMonRes := ptrs }, heapY)
          ∧ heapX.length ≤ heapY.length
          ∧ (∀ b, b < heapX.length → heapY[b]? = heapX[b]?)
          ∧ ptrs.length = copy.stateMonRes.length
          ∧ (∀ i, i < state → ptrs[i]? = copy.stateMonRes[i]?)
          ∧ (∀ i, state + entries.length ≤ i → ptrs[i]? = copy.stateMonRes[i]?)
          ∧ (∀ j, entries[j]? = some none → ptrs[state + j]? = copy.stateMonRes[state + j]?)
          ∧ (∀ j a, entries[j]? = some (some a) →
              ∃ a2, ptrs[state + j]? = some (some a2) ∧ heapX.length ≤ a2
                ∧ a2 < heapY.length ∧ heapY[a2]? = (heap0[a]?).map ops.copy) := by
  intro entries
  induction entries with
  | nil =>
    intro state copy heapX _ _ _ _
    exact ⟨copy.stateMonRes, heapX, rfl, le_refl _, fun _ _ => rfl, rfl, fun _ _ => rfl,
      fun _ _ => rfl, fun j hj => by simp at hj, fun j a hj => by simp at hj⟩
  | cons entry entries ih =>
    intro state copy heapX hptr hle hagree hlen
    have hlen2 : state + 1 + entries.length ≤ copy.stateMonRes.length := by
      simp only [List.length_cons] at hlen
      omega
    cases entry with
    | none =>
      obtain ⟨ptrs, heapY, heq, h1, h2, h3, h4, h5, h6, h7⟩ :=
        ih (state + 1) copy heapX (fun a ha => hptr a (List.mem_cons_of_mem _ ha)) hle hagree
          hlen2
      refine ⟨ptrs, heapY, by simpa [copyStateResults] using heq, h1, h2, h3,
        fun i hi => h4 i (by omega), fun i hi => h5 i (by simp at hi; omega), ?_, ?_⟩
      · intro j hj
        cases j with
        | zero => exact h4 state (by omega)
        | succ j =>
          have : state + (j + 1) = state + 1 + j := by omega
          rw [this]
          exact h6 j (by simpa using hj)
      · intro j a hj
        cases j with
        | zero => simp at hj
        | succ j =>
          have : state + (j + 1) = state + 1 + j := by omega
          rw [this]
          exact h7 j a (by simpa using hj)
    | some address =>
      have ha0 : address < heap0.length := hptr address (List.mem_cons_self _ _)
      have hread : heapX[address]? = some heap0[address] := by
        rw [hagree address ha0, List.getElem?_eq_getElem ha0]
      have hst : state < copy.stateMonRes.length := by
        simp only [List.length_cons] at hlen
        omega
      obtain ⟨ptrs, heapY, heq, h1, h2, h3, h4, h5, h6, h7⟩ :=
        ih (state + 1)
          { copy with stateMonRes := copy.stateMonRes.set state (some heapX.length) }
          (heapX ++ [ops.copy heap0[address]])
          (fun a ha => hptr a (List.mem_cons_of_mem _ ha))
          (by simp; omega)
          (fun b hb => by
            rw [List.getElem?_append_left (by omega)]
            exact hagree b hb)
          (by simpa using hlen2)
      have hYX : ∀ b, b < heapX.length → heapY[b]? = heapX[b]? := by
        intro b hb
        rw [h2 b (by simp; omega), List.getElem?_append_left hb]
      refine ⟨ptrs, heapY, ?_, by simp at h1; omega, hYX, by simpa using h3, ?_, ?_, ?_, ?_⟩
      · simp only [copyStateResults, hread, LocalMonotonicityResult.setMonotonicityResult, hst,
          if_true]
        exact heq
      · intro i hi
        rw [h4 i (by omega)]
        exact List.getElem?_set_ne (by omega)
      · intro i hi
        simp only [List.length_cons] at hi
        rw [h5 i (by omega)]
        exact List.getElem?_set_ne (by omega)
      · intro j hj
        cases j with
        | zero => simp at hj
        | succ j =>
          have : state + (j + 1) = state + 1 + j := by omega
          rw [this, h6 j (by simpa using hj)]
          exact List.getElem?_set_ne (by omega)
      · intro j a hj
        cases j with
        | zero =>
          simp only [List.getElem?_cons_zero, Option.some.injEq] at hj
          cases hj
          refine ⟨heapX.length, ?_, le_refl _, by simp at h1; omega, ?_⟩
          · rw [Nat.add_zero, h4 state (by omega)]
            exact List.getElem?_set_self hst
          · rw [h2 heapX.length (by simp), List.getElem?_concat_length,
              List.getElem?_eq_getElem ha0]
            rfl
        | succ j =>
          have : state + (j + 1) = state + 1 + j := by omega
          rw [this]
          obtain ⟨a2, h8, h9, h10, h11⟩ := h7 j a (by simpa using hj)
          exact ⟨a2, h8, by simp at h9; omega, h10, h11⟩

/-- The effect of `copy` on a well-formed result: the copy has as many states and the
same bits, the default `done` and index fields, null pointers where the original has
them and, where it has not, pointers to new objects with the copied values; the heap as
it was is unchanged. -/
theorem copy_spec (ops : MonotonicityResultOps MR Var) (r : LocalMonotonicityResult)
    (heap : Heap MR) (hwf : WellFormed r heap) :
    ∃ (c : LocalMonotonicityResult) (heap2 : Heap MR),
      r.copy ops heap = some (c, heap2)
        ∧ c.stateMonRes.length = r.stateMonRes.length
        ∧ c.statesMonotone = r.statesMonotone
        ∧ c.done = defaultDone
        ∧ c.indexMinimize = defaultIndex
        ∧ c.indexMaximize = defaultIndex
        ∧ heap.length ≤ heap2.length
        ∧ (∀ b, b < heap.length → heap2[b]? = heap[b]?)
        ∧ (∀ s : Nat, r.stateMonRes[s]? = some none → c.stateMonRes[s]? = some none)
        ∧ (∀ (s a : Nat), r.stateMonRes[s]? = some (some a) →
            ∃ a2 : Nat, c.stateMonRes[s]? = some (some a2) ∧ heap.length < a2
              ∧ a2 < c.globalMonotonicityResult
              ∧ heap2[a2]? = (heap[a]?).map ops.copy)
        ∧ heap.length < c.globalMonotonicityResult
        ∧ c.globalMonotonicityResult < heap2.length
        ∧ heap2[c.globalMonotonicityResult]?
          = (heap[r.globalMonotonicityResult]?).map ops.copy := by
  obtain ⟨hg, hlen, hptr⟩ := hwf
  obtain ⟨ptrs, heapY, heq, h1, h2, h3, h4, h5, h6, h7⟩ :=
    copyStateResults_spec ops heap r.stateMonRes 0
      (LocalMonotonicityResult.construct ops r.stateMonRes.length heap).1
      (LocalMonotonicityResult.construct ops r.stateMonRes.length heap).2
      (fun a ha => (hptr a ha).1)
      (by simp [LocalMonotonicityResult.construct])
      (fun b hb => by
        simp only [LocalMonotonicityResult.construct]
        exact List.getElem?_append_left hb)
      (by simp [LocalMonotonicityResult.construct])
  simp only [LocalMonotonicityResult.construct, List.length_append, List.length_singleton,
    List.length_replicate] at h1 h2 h3 h6 h7
  have hYheap : ∀ b, b < heap.length → heapY[b]? = heap[b]? := by
    intro b hb
    rw [h2 b (by omega)]
    exact List.getElem?_append_left hb
  have hgY : heapY[r.globalMonotonicityResult]? = some heap[r.globalMonotonicityResult] := by
    rw [hYheap _ hg, List.getElem?_eq_getElem hg]
  refine ⟨(LocalMonotonicityResult.setGlobalMonotonicityResult
      { (LocalMonotonicityResult.construct ops r.stateMonRes.length heap).1 with
        stateMonRes := ptrs } heapY.length).setStatesMonotone r.statesMonotone,
    heapY ++ [ops.copy heap[r.globalMonotonicityResult]],
    ?_, ?_, rfl, rfl, rfl, rfl, ?_, ?_, ?_, ?_, ?_, ?_, ?_⟩
  · simp only [LocalMonotonicityResult.copy, heq, hgY]
  · simpa [LocalMonotonicityResult.setStatesMonotone,
      LocalMonotonicityResult.setGlobalMonotonicityResult] using h3
  · simp only [List.length_append, List.length_singleton]
    omega
  · intro b hb
    rw [List.getElem?_append_left (by omega)]
    exact hYheap b hb
  · intro s hs
    have hsn : s < r.stateMonRes.length := by
      by_contra hge
      rw [List.getElem?_eq_none (by omega)] at hs
      simp at hs
    have := h6 s hs
    simp only [Nat.zero_add] at this
    simp only [LocalMonotonicityResult.setStatesMonotone,
      LocalMonotonicityResult.setGlobalMonotonicityResult]
    rw [this]
    simp [hsn]
  · intro s a hs
    obtain ⟨a2, h8, h9, h10, h11⟩ := h7 s a hs
    simp only [Nat.zero_add] at h8
    refine ⟨a2, ?_, by omega, ?_, ?_⟩
    · simpa [LocalMonotonicityResult.setStatesMonotone,
        LocalMonotonicityResult.setGlobalMonotonicityResult] using h8
    · simpa [LocalMonotonicityResult.setStatesMonotone,
        LocalMonotonicityResult.setGlobalMonotonicityResult] using h10
    · rw [List.getElem?_append_left h10]
      exact h11
  · simp only [LocalMonotonicityResult.setStatesMonotone,
      LocalMonotonicityResult.setGlobalMonotonicityResult]
    omega
  · simp [LocalMonotonicityResult.setStatesMonotone,
      LocalMonotonicityResult.setGlobalMonotonicityResult]
  · simp only [LocalMonotonicityResult.setStatesMonotone,
      LocalMonotonicityResult.setGlobalMonotonicityResult]
    rw [List.getElem?_concat_length, List.getElem?_eq_getElem hg]
    rfl

/-! ### `setMonotonicity`, `getMonotonicity` and `isDone` -/

theorem bitFull_eq_false (bits : List Bool) (s : Nat) (h : bits[s]? = some false) :
    bitFull bits = false := by
  apply Bool.eq_false_iff.mpr
  intro hall
  have := List.all_eq_true.mp hall false (List.getElem?_mem h)
  simp at this

theorem bitFull_iff (bits : List Bool) :
    bitFull bits = true ↔ ∀ s, s < bits.length → bits[s]? = some true := by
  constructor
  · intro hall s hs
    have := List.all_eq_true.mp hall bits[s] (List.getElem_mem hs)
    rw [List.getElem?_eq_getElem hs, this]
  · intro h
    apply List.all_eq_true.mpr
    intro b hb
    obtain ⟨s, hs⟩ := List.mem_iff_getElem?.mp hb
    have hlt : s < bits.length := by
      by_contra hge
      rw [List.getElem?_eq_none (by omega)] at hs
      simp at hs
    rw [h s hlt] at hs
    exact (Option.some.inj hs).symm

/-- C13. For every (well-formed) `LocalMonotonicityResult`, state `s`, parameter `v` and
classification `m`, if no classification was recorded before for `(s, v)`, then after
`setMonotonicity(s, v, m)` the query `getMonotonicity(s, v)` returns `m`. Class
`MonotonicityResult` is the model from the spec. -/
theorem setMonotonicity_then_getMonotonicity [DecidableEq Var]
    (r : LocalMonotonicityResult) (heap : Heap (MonotonicityResult Var)) (s : Nat) (v : Var)
    (m : Monotonicity) (hwf : WellFormed r heap) (hnew : NotRecorded r heap s v) :
    ∃ r2 heap2,
      r.setMonotonicity (specMonotonicityResultOps Var) s v m heap = some (r2, heap2)
        ∧ r2.getMonotonicity (specMonotonicityResultOps Var) s v heap2 = some m := by
  have hs : s < r.stateMonRes.length := by
    by_contra hge
    have hnone : r.stateMonRes[s]? = none := List.getElem?_eq_none (by omega)
    rcases hnew with h | ⟨a, o, h, _, _⟩ <;> simp [hnone] at h
  obtain ⟨address, heap2, heq, hobj, _, _, _, _, _⟩ :=
    setMonotonicity_spec (specMonotonicityResultOps Var) r s v m heap hwf hs
  have hlook : (stateObject (specMonotonicityResultOps Var) r heap s).monotonicityResult.lookup
      v = none := by
    rcases hnew with h | ⟨a, o, h1, h2, h3⟩
    · simp [stateObject, h, specMonotonicityResultOps]
    · simp [stateObject, h1, h2, h3]
  refine ⟨_, heap2, heq, ?_⟩
  simp only [LocalMonotonicityResult.getMonotonicity, List.getElem?_set_self hs, hobj]
  generalize stateObject (specMonotonicityResultOps Var) r heap s = object at hlook
  simp [specMonotonicityResultOps, MonotonicityResult.record, hlook, lookup_assocSet_self]

/-- C14. For a state for which `setMonotonicity` was never called, `getMonotonicity`
returns `Constant` if the state was flagged by `setConstant` and `Unknown` otherwise,
for every parameter; in particular a newly constructed `LocalMonotonicityResult` returns
`Unknown` for every state and parameter. The result is one reached from the constructor
by calls of `setMonotonicity`, `setConstant` and `setDone`. -/
theorem getMonotonicity_never_set [DecidableEq Var] (ops : MonotonicityResultOps MR Var)
    (numberOfStates : Nat) (heap0 : Heap MR) (cs : List (Call Var))
    (r : LocalMonotonicityResult) (heap : Heap MR) (s : Nat) (v : Var)
    (hs : s < numberOfStates) (hnever : setsMonotonicityOf s cs = false)
    (hrun : LocalMonotonicityResult.calls ops cs
        (LocalMonotonicityResult.construct ops numberOfStates heap0).1
        (LocalMonotonicityResult.construct ops numberOfStates heap0).2 = some (r, heap)) :
    r.getMonotonicity ops s v heap
        = some (if setsConstant s cs then Monotonicity.Constant else Monotonicity.Unknown)
      ∧ (LocalMonotonicityResult.construct ops numberOfStates heap0).1.getMonotonicity ops s v
          (LocalMonotonicityResult.construct ops numberOfStates heap0).2
        = some Monotonicity.Unknown := by
  obtain ⟨_, _, _, _, _, _, hstate⟩ := calls_spec ops cs _ r _ heap
    (wellFormed_construct ops numberOfStates heap0) hrun
  obtain ⟨h1, h2⟩ := hstate s hnever
  simp only [LocalMonotonicityResult.construct, List.getElem?_replicate, hs, if_true,
    Option.map_some', Bool.false_or] at h1 h2
  constructor
  · simp only [LocalMonotonicityResult.getMonotonicity, h1, h2]
    cases setsConstant s cs <;> simp
  · simp [LocalMonotonicityResult.getMonotonicity, LocalMonotonicityResult.construct,
      List.getElem?_replicate, hs]

/-- C15. After `setMonotonicity(s, v, Unknown)` or `setMonotonicity(s, v, Not)` the bit of
`s` in `statesMonotone` is cleared, whatever it was before; and unless `done` was
forced, `isDone()` is false afterwards. -/
theorem setMonotonicity_unknown_or_not (ops : MonotonicityResultOps MR Var)
    (r : LocalMonotonicityResult) (heap : Heap MR) (s : Nat) (v : Var) (mon : Monotonicity)
    (hwf : WellFormed r heap) (hs : s < r.stateMonRes.length)
    (hmon : mon = Monotonicity.Unknown ∨ mon = Monotonicity.Not) :
    ∃ r2 heap2,
      r.setMonotonicity ops s v mon heap = some (r2, heap2)
        ∧ r2.statesMonotone[s]? = some false
        ∧ (r.done = false → r2.isDone = false) := by
  obtain ⟨address, heap2, heq, _, _, _, _, _, _⟩ :=
    setMonotonicity_spec ops r s v mon heap hwf hs
  have hsb : s < r.statesMonotone.length := by
    rw [hwf.2.1]
    exact hs
  have hbit : monotoneBit ops (stateObject ops r heap s) v mon = false := by
    simp [monotoneBit, hmon]
  rw [hbit] at heq
  refine ⟨_, heap2, heq, List.getElem?_set_self hsb, ?_⟩
  intro hdone
  simp only [LocalMonotonicityResult.isDone, hdone, Bool.false_or]
  exact bitFull_eq_false _ s (List.getElem?_set_self hsb)

/-- C16. For a classification `m` in `{Incr, Decr, Constant}`, after
`setMonotonicity(s, v, m)` the bit of `s` in `statesMonotone` is what
`isAllMonotonicity()` reports for the per-state result of `s` as it is after `(v, m)`
was added to it. -/
theorem setMonotonicity_recomputes_flag (ops : MonotonicityResultOps MR Var)
    (r : LocalMonotonicityResult) (heap : Heap MR) (s : Nat) (v : Var) (mon : Monotonicity)
    (hwf : WellFormed r heap) (hs : s < r.stateMonRes.length)
    (hmon : mon = Monotonicity.Incr ∨ mon = Monotonicity.Decr
      ∨ mon = Monotonicity.Constant) :
    ∃ (r2 : LocalMonotonicityResult) (heap2 : Heap MR) (address : Nat) (object : MR),
      r.setMonotonicity ops s v mon heap = some (r2, heap2)
        ∧ r2.stateMonRes[s]? = some (some address)
        ∧ heap2[address]? = some object
        ∧ object = ops.addMonotonicityResult (stateObject ops r heap s) v mon
        ∧ r2.statesMonotone[s]? = some (ops.isAllMonotonicity object) := by
  obtain ⟨address, heap2, heq, hobj, _, _, _, _, _⟩ :=
    setMonotonicity_spec ops r s v mon heap hwf hs
  have hsb : s < r.statesMonotone.length := by
    rw [hwf.2.1]
    exact hs
  have hbit : monotoneBit ops (stateObject ops r heap s) v mon
      = ops.isAllMonotonicity (ops.addMonotonicityResult (stateObject ops r heap s) v mon) := by
    rcases hmon with h | h | h <;> simp [monotoneBit, h]
  rw [hbit] at heq
  exact ⟨_, heap2, address, _, heq, List.getElem?_set_self hs, hobj, rfl,
    List.getElem?_set_self hsb⟩

/-- C17. In every state of a `LocalMonotonicityResult` reached from its constructor by
calls of `setMonotonicity`, `setConstant` and `setDone`, `isDone()` is true if and only
if the last `setDone` call, if any, had the argument `true`, or the bit of every state
is set; in particular a result over zero states is done. -/
theorem isDone_iff_forced_or_all_constant [DecidableEq Var]
    (ops : MonotonicityResultOps MR Var) (numberOfStates : Nat) (heap0 : Heap MR)
    (cs : List (Call Var)) (r : LocalMonotonicityResult) (heap : Heap MR)
    (hrun : LocalMonotonicityResult.calls ops cs
        (LocalMonotonicityResult.construct ops numberOfStates heap0).1
        (LocalMonotonicityResult.construct ops numberOfStates heap0).2 = some (r, heap)) :
    (r.isDone = true ↔
        (forcedDone cs defaultDone = true
          ∨ ∀ s, s < numberOfStates → r.statesMonotone[s]? = some true))
      ∧ (numberOfStates = 0 → r.isDone = true) := by
  obtain ⟨hwf, _, _, _, hdone, hlen, _⟩ := calls_spec ops cs _ r _ heap
    (wellFormed_construct ops numberOfStates heap0) hrun
  have hn : r.statesMonotone.length = numberOfStates := by
    rw [hwf.2.1, hlen]
    simp [LocalMonotonicityResult.construct]
  have hiff : r.isDone = true ↔
      (forcedDone cs defaultDone = true
        ∨ ∀ s, s < numberOfStates → r.statesMonotone[s]? = some true) := by
    simp only [LocalMonotonicityResult.isDone, Bool.or_eq_true, bitFull_iff, hn, hdone]
    rfl
  refine ⟨hiff, ?_⟩
  intro h0
  apply hiff.mpr
  right
  intro s hs
  omega

/-! ### Independence of a copy -/

/-- The observations of a result that go through its pointers depend on the heap only
at these pointers. -/
theorem observations_congr (ops : MonotonicityResultOps MR Var)
    (r : LocalMonotonicityResult) (heapA heapB : Heap MR)
    (h : ∀ a, Owns r a → heapA[a]? = heapB[a]?) :
    (∀ s v, r.getMonotonicity ops s v heapA = r.getMonotonicity ops s v heapB)
      ∧ r.getGlobalMonotonicityResult heapA = r.getGlobalMonotonicityResult heapB := by
  constructor
  · intro s v
    simp only [LocalMonotonicityResult.getMonotonicity]
    cases hentry : r.stateMonRes[s]? with
    | none => rfl
    | some entry =>
      cases entry with
      | none => rfl
      | some a =>
        simp only []
        rw [h a (Or.inr (List.getElem?_mem hentry))]
  · exact h _ (Or.inl rfl)

/-- The pointers of a copy point to objects made by `copy`, behind the heap as it was. -/
theorem copy_owns {f : MR → MR} (r c : LocalMonotonicityResult) (heap heap1 : Heap MR)
    (hlen : c.stateMonRes.length = r.stateMonRes.length)
    (hnull : ∀ s : Nat, r.stateMonRes[s]? = some none → c.stateMonRes[s]? = some none)
    (hptr : ∀ (s a : Nat), r.stateMonRes[s]? = some (some a) →
      ∃ a2 : Nat, c.stateMonRes[s]? = some (some a2) ∧ heap.length < a2
        ∧ a2 < c.globalMonotonicityResult ∧ heap1[a2]? = (heap[a]?).map f)
    (hg1 : heap.length < c.globalMonotonicityResult) :
    ∀ a, Owns c a → heap.length < a ∧ a ≤ c.globalMonotonicityResult
      ∧ (some a ∈ c.stateMonRes → a ≠ c.globalMonotonicityResult) := by
  have hmem : ∀ a, some a ∈ c.stateMonRes → heap.length < a ∧ a < c.globalMonotonicityResult := by
    intro a ha
    obtain ⟨s, hs⟩ := List.mem_iff_getElem?.mp ha
    have hlt : s < r.stateMonRes.length := by
      by_contra hge
      rw [List.getElem?_eq_none (by omega)] at hs
      simp at hs
    cases hentry : r.stateMonRes[s] with
    | none =>
      have := hnull s (by rw [List.getElem?_eq_getElem hlt, hentry])
      rw [this] at hs
      simp at hs
    | some a0 =>
      obtain ⟨a2, h1, h2, h3, _⟩ := hptr s a0 (by rw [List.getElem?_eq_getElem hlt, hentry])
      rw [h1] at hs
      simp only [Option.some.injEq] at hs
      subst hs
      exact ⟨h2, h3⟩
  intro a ha
  rcases ha with hg | hm
  · subst hg
    exact ⟨hg1, le_refl _, fun hm => absurd (hmem _ hm).2 (by omega)⟩
  · obtain ⟨h1, h2⟩ := hmem a hm
    exact ⟨h1, by omega, fun _ => by omega⟩

/-- C18. For every (well-formed) `LocalMonotonicityResult` `r` and `c = r.copy()`, a
sequence of `setMonotonicity`, `setConstant` and `setDone` calls applied to `c` leaves
what `r` reports through its pointers unchanged (`getMonotonicity` for every state and
parameter, the global result), and such a sequence applied to `r` leaves what `c`
reports through its pointers unchanged. The members that an object holds by value (the
bits of `statesMonotone`, `done`) are part of the record of that object, which a call on
the other object neither takes nor returns. -/
theorem copy_independent [DecidableEq Var] (ops : MonotonicityResultOps MR Var)
    (r : LocalMonotonicityResult) (heap : Heap MR) (hwf : WellFormed r heap) :
    ∃ (c : LocalMonotonicityResult) (heap1 : Heap MR),
      r.copy ops heap = some (c, heap1)
        ∧ (∀ (cs : List (Call Var)) (c2 : LocalMonotonicityResult) (heap2 : Heap MR),
            LocalMonotonicityResult.calls ops cs c heap1 = some (c2, heap2) →
              (∀ s v, r.getMonotonicity ops s v heap2 = r.getMonotonicity ops s v heap1)
                ∧ r.getGlobalMonotonicityResult heap2
                  = r.getGlobalMonotonicityResult heap1)
        ∧ (∀ (cs : List (Call Var)) (r2 : LocalMonotonicityResult) (heap2 : Heap MR),
            LocalMonotonicityResult.calls ops cs r heap1 = some (r2, heap2) →
              (∀ s v, c.getMonotonicity ops s v heap2 = c.getMonotonicity ops s v heap1)
                ∧ c.getGlobalMonotonicityResult heap2
                  = c.getGlobalMonotonicityResult heap1) := by
  obtain ⟨c, heap1, hcopy, hlen, hbits, _, _, _, hle, hagree, hnull, hptr, hg1, hg2, _⟩ :=
    copy_spec ops r heap hwf
  have hown := copy_owns r c heap heap1 hlen hnull hptr hg1
  have hrown : ∀ a, Owns r a → a < heap.length := by
    intro a ha
    rcases ha with h | h
    · rw [h]
      exact hwf.1
    · exact (hwf.2.2 a h).1
  have hwfc : WellFormed c heap1 := by
    refine ⟨hg2, by rw [hbits, hlen, hwf.2.1], ?_⟩
    intro a ha
    obtain ⟨_, h2, h3⟩ := hown a (Or.inr ha)
    exact ⟨by omega, h3 ha⟩
  have hwfr : WellFormed r heap1 := by
    refine ⟨by have := hwf.1; omega, hwf.2.1, ?_⟩
    intro a ha
    obtain ⟨h1, h2⟩ := hwf.2.2 a ha
    exact ⟨by omega, h2⟩
  refine ⟨c, heap1, hcopy, ?_, ?_⟩
  · intro cs c2 heap2 hrun
    obtain ⟨_, _, _, hframe, _⟩ := calls_spec ops cs c c2 heap1 heap2 hwfc hrun
    apply observations_congr
    intro a ha
    have halt := hrown a ha
    apply hframe a (by omega)
    intro hc
    have := (hown a hc).1
    omega
  · intro cs r2 heap2 hrun
    obtain ⟨_, _, _, hframe, _⟩ := calls_spec ops cs r r2 heap1 heap2 hwfr hrun
    apply observations_congr
    intro a ha
    obtain ⟨h1, h2, _⟩ := hown a ha
    apply hframe a (by omega)
    intro hr
    have := hrown a hr
    omega

/-- C19. For every (well-formed) `LocalMonotonicityResult` `r`, the result `c = r.copy()`
has as many states as `r`, the same bit in `statesMonotone` for every state, and
`getMonotonicity(s, v)` on `c` equals `getMonotonicity(s, v)` on `r` for every state and
parameter, given that a copy of a `MonotonicityResult` reports the classifications of
its original. -/
theorem copy_same_observations (ops : MonotonicityResultOps MR Var)
    (r : LocalMonotonicityResult) (heap : Heap MR) (hwf : WellFormed r heap)
    (hcopyMR : ∀ object v, ops.getMonotonicity (ops.copy object) v
      = ops.getMonotonicity object v) :
    ∃ (c : LocalMonotonicityResult) (heap1 : Heap MR),
      r.copy ops heap = some (c, heap1)
        ∧ c.stateMonRes.length = r.stateMonRes.length
        ∧ c.statesMonotone = r.statesMonotone
        ∧ ∀ s v, c.getMonotonicity ops s v heap1 = r.getMonotonicity ops s v heap := by
  obtain ⟨c, heap1, hcopy, hlen, hbits, _, _, _, hle, hagree, hnull, hptr, hg1, hg2, _⟩ :=
    copy_spec ops r heap hwf
  refine ⟨c, heap1, hcopy, hlen, hbits, ?_⟩
  intro s v
  simp only [LocalMonotonicityResult.getMonotonicity]
  cases hentry : r.stateMonRes[s]? with
  | none =>
    have hge : r.stateMonRes.length ≤ s := by
      by_contra hlt
      rw [List.getElem?_eq_getElem (by omega)] at hentry
      simp at hentry
    rw [List.getElem?_eq_none (by omega)]
  | some entry =>
    cases entry with
    | none => rw [hnull s hentry, hbits]
    | some a =>
      obtain ⟨a2, h1, _, _, h4⟩ := hptr s a hentry
      have ha : a < heap.length := (hwf.2.2 a (List.getElem?_mem hentry)).1
      rw [h1]
      simp only []
      rw [h4, List.getElem?_eq_getElem ha]
      simp [hcopyMR]

end LocalResult

/-! ## Theorems: the index fields -/

section IndexFields

/-- C21. With assertions enabled, `setIndexMinimize(i)` returns if and only if
`indexMinimize` is `-1`; when it returns, `getIndexMinimize()` is `i` afterwards and no
other member has changed; when `indexMinimize` is another value the call fails at the
`assert`, which stands before the assignment, so that the field is what it was. -/
theorem setIndexMinimize_iff_not_fixed (r : LocalMonotonicityResult) (i : Int) :
    ((∃ r2, r.setIndexMinimize true i = some r2) ↔ r.indexMinimize = -1)
      ∧ (∀ r2, r.setIndexMinimize true i = some r2 →
          r2.getIndexMinimize = i ∧ r2 = { r with indexMinimize := i }
            ∧ r.membersAfterSetIndexMinimize true i = r2)
      ∧ (r.indexMinimize ≠ -1 →
          r.setIndexMinimize true i = none
            ∧ (r.membersAfterSetIndexMinimize true i).getIndexMinimize = r.getIndexMinimize
            ∧ r.membersAfterSetIndexMinimize true i = r) := by
  by_cases h : r.indexMinimize = -1
  · refine ⟨?_, ?_, ?_⟩
    · simp [LocalMonotonicityResult.setIndexMinimize, h]
    · intro r2 h2
      simp only [LocalMonotonicityResult.setIndexMinimize, h, ne_eq, not_true_eq_false,
        and_false, if_false, Option.some.injEq] at h2
      subst h2
      simp [LocalMonotonicityResult.getIndexMinimize,
        LocalMonotonicityResult.membersAfterSetIndexMinimize, h]
    · intro hne
      exact absurd h hne
  · refine ⟨?_, ?_, ?_⟩
    · simp [LocalMonotonicityResult.setIndexMinimize, h]
    · intro r2 h2
      simp [LocalMonotonicityResult.setIndexMinimize, h] at h2
    · intro _
      simp [LocalMonotonicityResult.setIndexMinimize,
        LocalMonotonicityResult.membersAfterSetIndexMinimize, h]

/-- C22. Method `setIndexMaximize` has no `assert`: on a result whose `indexMaximize` was
fixed to `3` by an earlier call, `setIndexMaximize(4)` returns and the field is `4`
afterwards, whereas the same two calls of `setIndexMinimize` fail at the `assert` of the
second call. -/
theorem setIndexMaximize_overwrites :
    maximizeFixedResult.getIndexMaximize = 3
      ∧ (maximizeFixedResult.setIndexMaximize 4).getIndexMaximize = 4
      ∧ (newResult.1.setIndexMinimize true 3).bind (fun r => r.setIndexMinimize true 4)
          = none := by
  decide

end IndexFields

/-! ## Theorems: the fast path, the sign pair and the memo table -/

section FastPath

variable {V Var Region : Type} [DecidableEq V] [DecidableEq Var]

/-- Scanning a row of constant weights leaves the memo table as it was. -/
theorem scanRow_constant_derivatives (ops : ValueOps V Var Region) (var : Var)
    (region : Region) (row : List (MatrixEntry V)) (acc : RowScan V Var)
    (hconst : ∀ e ∈ row, ops.isConstant e.value = true) :
    (scanRow ops var region row acc).derivatives = acc.derivatives := by
  induction row generalizing acc with
  | nil => simp [scanRow]
  | cons e rest ih =>
    have he : ops.isConstant e.value = true := hconst e (List.mem_cons_self _ _)
    simp only [scanRow]
    rw [ih _ (fun e2 h2 => hconst e2 (List.mem_cons_of_mem _ h2))]
    simp [checkTransitionMonRes, getDerivative, he]

/-- C27. If the state has no outgoing entry, or every outgoing weight of the state is a
constant function (`isConstant`), then `checkLocalMonotonicity` returns `Constant` for
every order, parameter and region, and leaves the memo table as it was; the result does
not depend on the order. -/
theorem checkLocalMonotonicity_constant_fast_path (ops : ValueOps V Var Region)
    (matrix : SparseMatrix V) (state : Nat) (var : Var) (region : Region)
    (derivatives : DerivativeCache V Var) (row : List (MatrixEntry V))
    (hrow : matrix.getRow state = some row)
    (hconst : row = [] ∨ ∀ e ∈ row, ops.isConstant e.value = true) :
    ∀ order : Order,
      checkLocalMonotonicity ops matrix order state var region derivatives
        = some (Monotonicity.Constant, derivatives) := by
  intro order
  have hall : ∀ e ∈ row, ops.isConstant e.value = true := by
    rcases hconst with h | h
    · subst h
      intro e he
      simp at he
    · exact h
  have hign : (scanRow ops var region row
      { succs := [], succsMonUnsorted := [], ignore := true,
        derivatives := derivatives }).ignore = true := by
    rw [scanRow_ignore]
    simp only [Bool.true_and]
    exact List.all_eq_true.mpr hall
  simp [checkLocalMonotonicity, hrow, hign, scanRow_constant_derivatives ops var region row _ hall]

/-- C28. The classification `checkTransitionMonRes` returns is read off the sign pair
that `checkDerivative` reports for the derivative: `(true, false)` gives `Incr`,
`(false, true)` gives `Decr`, `(true, true)` gives `Constant` and `(false, false)` gives
`Not`; it is never `Unknown`; and a constant weight, whose derivative is taken to be
zero, is classified `Constant`. That `checkDerivative`, whose code is not part of the
sources, finds the zero function both non-negative and non-positive is a hypothesis. -/
theorem checkTransitionMonRes_sign_pair (ops : ValueOps V Var Region) (function : V)
    (param : Var) (region : Region) (derivatives : DerivativeCache V Var)
    (hzero : ops.checkDerivative ops.zero region = (true, true)) :
    (∀ res, ops.checkDerivative (getDerivative ops function param derivatives).1 region = res →
        (checkTransitionMonRes ops function param region derivatives).1
          = match res with
            | (true, false) => Monotonicity.Incr
            | (false, true) => Monotonicity.Decr
            | (true, true) => Monotonicity.Constant
            | (false, false) => Monotonicity.Not)
      ∧ (checkTransitionMonRes ops function param region derivatives).1
          ≠ Monotonicity.Unknown
      ∧ (ops.isConstant function = true →
          (checkTransitionMonRes ops function param region derivatives).1
            = Monotonicity.Constant) := by
  refine ⟨?_, ?_, ?_⟩
  · intro res hres
    simp only [checkTransitionMonRes, hres]
    obtain ⟨a, b⟩ := res
    cases a <;> cases b <;> simp [classifySigns]
  · simp only [checkTransitionMonRes]
    exact classifySigns_ne_unknown _
  · intro hc
    simp [checkTransitionMonRes, getDerivative, hc, hzero, classifySigns]

/-- A sequence of `getDerivative` calls keeps a sound memo table sound. -/
theorem getDerivativeCalls_sound (ops : ValueOps V Var Region) (calls : List (V × Var))
    (cache : DerivativeCache V Var) (h : CacheSound ops cache) :
    CacheSound ops (getDerivativeCalls ops calls cache) := by
  induction calls generalizing cache with
  | nil => exact h
  | cons c rest ih =>
    obtain ⟨function, var⟩ := c
    exact ih _ (getDerivative_sound ops function var cache h).2

/-- C29. After every sequence of earlier `getDerivative` calls on a new checker,
`getDerivative(function, var)` returns zero when `function` is constant and
`function.derivative(var)` otherwise; and every entry of the memo table, before and
after the call, is the derivative it is filed under. -/
theorem getDerivative_memo_transparent (ops : ValueOps V Var Region)
    (calls : List (V × Var)) (function : V) (var : Var) :
    (getDerivative ops function var
        (getDerivativeCalls ops calls (newDerivatives V Var))).1
        = (if ops.isConstant function then ops.zero else ops.derivative function var)
      ∧ CacheSound ops (getDerivativeCalls ops calls (newDerivatives V Var))
      ∧ CacheSound ops (getDerivative ops function var
          (getDerivativeCalls ops calls (newDerivatives V Var))).2 := by
  have h0 : CacheSound ops (getDerivativeCalls ops calls (newDerivatives V Var)) :=
    getDerivativeCalls_sound ops calls _ (cacheSound_nil ops)
  exact ⟨(getDerivative_sound ops function var _ h0).1, h0,
    (getDerivative_sound ops function var _ h0).2⟩

end FastPath

/-! ## Theorems: a state flagged constant -/

section FlaggedConstant

variable {MR Var : Type}

/-- C30, as the code has it. For a state whose pointer `stateMonRes[state]` is null (no
classification was ever recorded for it), `getMonotonicity` returns `Constant` for every
parameter once `setConstant(state)` has flagged it. Once a classification has been
recorded for a parameter of the state the flag is not consulted: after
`setMonotonicity(s, p, m)` followed by `setConstant(s)`, `getMonotonicity(s, q)` is what
the per-state object of `s`, with `(p, m)` added, answers for `q`. -/
theorem getMonotonicity_flagged_constant (ops : MonotonicityResultOps MR Var)
    (r : LocalMonotonicityResult) (heap : Heap MR) (s : Nat) (p q : Var) (m : Monotonicity)
    (hwf : WellFormed r heap) (hs : s < r.stateMonRes.length) :
    (r.stateMonRes[s]? = some none →
        ∃ r2, r.setConstant s = some r2
          ∧ r2.getMonotonicity ops s q heap = some Monotonicity.Constant)
      ∧ ∃ (r1 : LocalMonotonicityResult) (heap1 : Heap MR) (r2 : LocalMonotonicityResult),
          r.setMonotonicity ops s p m heap = some (r1, heap1)
            ∧ r1.setConstant s = some r2
            ∧ r2.statesMonotone[s]? = some true
            ∧ r2.getMonotonicity ops s q heap1
                = some (ops.getMonotonicity
                    (ops.addMonotonicityResult (stateObject ops r heap s) p m) q) := by
  have hsb : s < r.statesMonotone.length := by
    rw [hwf.2.1]
    exact hs
  constructor
  · intro hnull
    refine ⟨{ r with statesMonotone := r.statesMonotone.set s true }, ?_, ?_⟩
    · simp [LocalMonotonicityResult.setConstant, bitSet, hsb]
    · simp [LocalMonotonicityResult.getMonotonicity, hnull, List.getElem?_set_self hsb]
  · obtain ⟨address, heap2, heq, hobj, _, _, _, _, _⟩ :=
      setMonotonicity_spec ops r s p m heap hwf hs
    refine ⟨_, heap2,
      { r with
        stateMonRes := r.stateMonRes.set s (some address)
        statesMonotone := (r.statesMonotone.set s
          (monotoneBit ops (stateObject ops r heap s) p m)).set s true },
      heq, ?_, ?_, ?_⟩
    · simp [LocalMonotonicityResult.setConstant, bitSet, hsb]
    · simp [List.getElem?_set_self, hsb]
    · simp [LocalMonotonicityResult.getMonotonicity, List.getElem?_set_self hs, hobj]

end FlaggedConstant

/-! ## Theorems: `joinDuplicateTransitions` -/

section JoinDuplicates

variable {V : Type} [AddCommMonoid V]

theorem firstColumns_nodup (seen l : List Nat) (h : seen.Nodup) :
    (firstColumns seen l).Nodup := by
  induction l generalizing seen with
  | nil => exact h
  | cons c rest ih =>
    by_cases hc : c ∈ seen
    · simp only [firstColumns, hc, if_true]
      exact ih seen h
    · simp only [firstColumns, hc, if_false]
      apply ih
      rw [List.nodup_append]
      refine ⟨h, List.nodup_singleton c, ?_⟩
      intro a ha hb
      simp only [List.mem_singleton] at hb
      subst hb
      exact hc ha

theorem mem_firstColumns (seen l : List Nat) (c : Nat) :
    c ∈ firstColumns seen l ↔ c ∈ seen ∨ c ∈ l := by
  induction l generalizing seen with
  | nil => simp [firstColumns]
  | cons d rest ih =>
    by_cases hd : d ∈ seen
    · simp only [firstColumns, hd, if_true, ih, List.mem_cons]
      constructor
      · rintro (h | h)
        · exact Or.inl h
        · exact Or.inr (Or.inr h)
      · rintro (h | h | h)
        · exact Or.inl h
        · subst h
          exact Or.inl hd
        · exact Or.inr h
    · simp only [firstColumns, hd, if_false, ih, List.mem_cons, List.mem_append,
        List.mem_singleton]
      tauto

theorem columnSum_append_singleton (processed : List (MatrixEntry V)) (e : MatrixEntry V)
    (c : Nat) :
    columnSum (processed ++ [e]) c
      = if e.column = c then columnSum processed c + e.value else columnSum processed c := by
  by_cases h : e.column = c
  · simp [columnSum, List.filter_append, h]
  · simp [columnSum, List.filter_append, h]

theorem columnSum_cons (e : MatrixEntry V) (entries : List (MatrixEntry V)) (c : Nat) :
    columnSum (e :: entries) c
      = (if e.column = c then e.value else 0) + columnSum entries c := by
  by_cases h : e.column = c
  · simp [columnSum, List.filter_cons, h]
  · simp [columnSum, List.filter_cons, h]

/-- The invariant of the first loop of `joinDuplicateTransitions`: the map holds, for
every column of `keyOrder`, the entry with that column and the sum of the values seen for
it, and nothing for any other column, for which no value was seen. -/
theorem joinLoop_spec (rest processed : List (MatrixEntry V)) (acc : JoinState V)
    (hin : ∀ c ∈ acc.keyOrder,
      acc.existingEntries.lookup c = some { column := c, value := columnSum processed c })
    (hout : ∀ c, c ∉ acc.keyOrder →
      acc.existingEntries.lookup c = none ∧ columnSum processed c = 0) :
    (∀ c ∈ (joinLoop rest acc).keyOrder,
        (joinLoop rest acc).existingEntries.lookup c
          = some { column := c, value := columnSum (processed ++ rest) c })
      ∧ (joinLoop rest acc).keyOrder
          = firstColumns acc.keyOrder (rest.map MatrixEntry.column) := by
  induction rest generalizing processed acc with
  | nil => simpa [joinLoop, firstColumns] using hin
  | cons entry rest ih =>
    have happ : processed ++ entry :: rest = (processed ++ [entry]) ++ rest := by simp
    rw [happ]
    cases hl : acc.existingEntries.lookup entry.column with
    | some existing =>
      have hmem : entry.column ∈ acc.keyOrder := by
        by_contra hno
        rw [(hout _ hno).1] at hl
        exact Option.noConfusion hl
      have hex : existing
          = { column := entry.column, value := columnSum processed entry.column } := by
        rw [hin _ hmem] at hl
        exact (Option.some.inj hl).symm
      simp only [joinLoop, hl, List.map_cons, firstColumns, hmem, if_true]
      apply ih
      · intro c hc
        by_cases hce : c = entry.column
        · subst hce
          simp [lookup_assocSet_self, columnSum_append_singleton, hex]
        · have hec : ¬ entry.column = c := fun h => hce h.symm
          rw [lookup_assocSet_ne _ _ _ _ hce, hin c hc, columnSum_append_singleton,
            if_neg hec]
      · intro c hc
        have hce : c ≠ entry.column := fun h => hc (h ▸ hmem)
        have hec : ¬ entry.column = c := fun h => hce h.symm
        rw [lookup_assocSet_ne _ _ _ _ hce, columnSum_append_singleton, if_neg hec]
        exact hout c hc
    | none =>
      have hmem : entry.column ∉ acc.keyOrder := by
        intro hyes
        rw [hin _ hyes] at hl
        exact Option.noConfusion hl
      simp only [joinLoop, hl, List.map_cons, firstColumns, hmem, if_false]
      apply ih
      · intro c hc
        by_cases hce : c = entry.column
        · subst hce
          simp [lookup_assocSet_self, columnSum_append_singleton, (hout _ hmem).2]
        · have hc2 : c ∈ acc.keyOrder := by
            simpa [hce] using hc
          have hec : ¬ entry.column = c := fun h => hce h.symm
          rw [lookup_assocSet_ne _ _ _ _ hce, hin c hc2, columnSum_append_singleton,
            if_neg hec]
      · intro c hc
        have hce : c ≠ entry.column := by
          intro h
          exact hc (by simp [h])
        have hc2 : c ∉ acc.keyOrder := by
          intro h
          exact hc (by simp [h])
        have hec : ¬ entry.column = c := fun h => hce h.symm
        rw [lookup_assocSet_ne _ _ _ _ hce, columnSum_append_singleton, if_neg hec]
        exact hout c hc2

theorem collectEntries_eq {W : Type} (existingEntries : List (Nat × MatrixEntry W))
    (f : Nat → MatrixEntry W) (keys : List Nat)
    (h : ∀ c ∈ keys, existingEntries.lookup c = some (f c)) :
    collectEntries existingEntries keys = some (keys.map f) := by
  induction keys with
  | nil => rfl
  | cons key rest ih =>
    simp [collectEntries, h key (List.mem_cons_self _ _),
      ih (fun c hc => h c (List.mem_cons_of_mem _ hc))]

/-- What `joinDuplicateTransitions` returns: for every column of the input, in the order
of first occurrence, one entry with the sum of the values of that column. -/
theorem joinDuplicateTransitions_eq (entries : List (MatrixEntry V)) :
    joinDuplicateTransitions entries
      = some ((firstColumns [] (entries.map MatrixEntry.column)).map
          (fun c => { column := c, value := columnSum entries c })) := by
  obtain ⟨h1, h2⟩ := joinLoop_spec entries [] { keyOrder := [], existingEntries := [] }
    (by intro c hc; simp at hc) (by intro c _; simp [columnSum])
  simp only [joinDuplicateTransitions]
  rw [List.nil_append] at h1
  rw [collectEntries_eq _ (fun c => { column := c, value := columnSum entries c }) _ h1, h2]

theorem sum_map_ite_eq (ks : List Nat) (k : Nat) (v : V) (hn : ks.Nodup) :
    (ks.map (fun c => if k = c then v else 0)).sum = if k ∈ ks then v else 0 := by
  induction ks with
  | nil => simp
  | cons a rest ih =>
    have hn2 := List.nodup_cons.mp hn
    by_cases hka : k = a
    · subst hka
      simp [ih hn2.2, hn2.1]
    · have hak : ¬ a = k := fun h => hka h.symm
      simp [ih hn2.2, hka, hak]

/-- Summing the column sums over a duplicate-free list of columns that covers the
entries gives the sum of all values. -/
theorem sum_map_columnSum (ks : List Nat) (entries : List (MatrixEntry V)) (hn : ks.Nodup)
    (hcover : ∀ e ∈ entries, e.column ∈ ks) :
    (ks.map (columnSum entries)).sum = (entries.map MatrixEntry.value).sum := by
  induction entries with
  | nil =>
    have hfun : columnSum ([] : List (MatrixEntry V)) = fun _ => 0 := by
      funext c
      simp [columnSum]
    rw [hfun]
    simp
  | cons e rest ih =>
    have hfun : columnSum (e :: rest)
        = fun c => (if e.column = c then e.value else 0) + columnSum rest c := by
      funext c
      exact columnSum_cons e rest c
    rw [hfun, List.sum_map_add, sum_map_ite_eq ks e.column e.value hn,
      ih (fun x hx => hcover x (List.mem_cons_of_mem _ hx))]
    simp [hcover e (List.mem_cons_self _ _)]

/-- C23. For every list of matrix entries `joinDuplicateTransitions` returns a list in
which every column of the input occurs exactly once and no other column occurs, the
value of an entry is the sum of the values of all input entries with its column, and the
sum of all values is the sum of all values of the input. Addition of values is
associative and commutative with a zero, as it is for rational functions. -/
theorem joinDuplicateTransitions_sums (entries : List (MatrixEntry V)) :
    ∃ joined : List (MatrixEntry V),
      joinDuplicateTransitions entries = some joined
        ∧ (joined.map MatrixEntry.column).Nodup
        ∧ (∀ c, c ∈ joined.map MatrixEntry.column ↔ c ∈ entries.map MatrixEntry.column)
        ∧ (∀ e ∈ joined, e.value
            = ((entries.filter (fun x => decide (x.column = e.column))).map
                MatrixEntry.value).sum)
        ∧ (joined.map MatrixEntry.value).sum = (entries.map MatrixEntry.value).sum := by
  have hid : (MatrixEntry.column ∘ fun c => ({ column := c, value := columnSum entries c }
      : MatrixEntry V)) = id := rfl
  refine ⟨_, joinDuplicateTransitions_eq entries, ?_, ?_, ?_, ?_⟩
  · rw [List.map_map, hid, List.map_id]
    exact firstColumns_nodup [] _ List.nodup_nil
  · intro c
    rw [List.map_map, hid, List.map_id, mem_firstColumns]
    simp
  · intro e he
    obtain ⟨c, _, hc⟩ := List.mem_map.mp he
    subst hc
    rfl
  · simp only [List.map_map]
    have hval : (MatrixEntry.value ∘ fun c => ({ column := c, value := columnSum entries c }
        : MatrixEntry V)) = columnSum entries := rfl
    rw [hval]
    apply sum_map_columnSum _ _ (firstColumns_nodup [] _ List.nodup_nil)
    intro e he
    rw [mem_firstColumns]
    exact Or.inr (List.mem_map_of_mem _ he)

end JoinDuplicates

/-! ## Theorems: `jipConvert` -/

/-- C24. A call of `jipConvert` on a state with a constant self-loop: in the chain
`selfLoopMatrix` every row sums to one; `jipConvert(0, matrix, alreadyVisited, …)` with
an empty map `alreadyVisited` returns `true` and leaves the row `[(1, 1/2)]` for state
`0`, which sums to `1/2`. -/
theorem jipConvert_self_loop_loses_mass :
    rowSums selfLoopMatrix = [1, 1]
      ∧ returnedAndMatrix
          (jipConvert constantOps none 3 0 { matrix := selfLoopMatrix, alreadyVisited := [] })
        = some (true, [ [{ column := 1, value := 1 / 2 }], [{ column := 1, value := 1 }] ])
      ∧ (returnedAndMatrix
          (jipConvert constantOps none 3 0
            { matrix := selfLoopMatrix, alreadyVisited := [] })).map
          (fun p => rowSums p.2)
        = some [1 / 2, 1] := by
  decide!

/-! ## Theorems: `containsOnlyTrivialObjectives` -/

section TrivialObjectives

variable {F C : Type}

/-- C32. Method `containsOnlyTrivialObjectives()` is true if and only if every objective
is a reward operator formula whose subformula is a total reward formula, a long-run
average reward formula, or a cumulative reward formula that is not multi-dimensional and
whose bound is a time bound or a step bound; it is true for an empty list of
objectives. -/
theorem containsOnlyTrivialObjectives_iff (ops : FormulaOps F C)
    (objectives : List (Objective F)) :
    (containsOnlyTrivialObjectives ops objectives = true
        ↔ ∀ obj ∈ objectives, TrivialObjective ops obj)
      ∧ containsOnlyTrivialObjectives ops [] = true := by
  refine ⟨?_, rfl⟩
  induction objectives with
  | nil => simp [containsOnlyTrivialObjectives]
  | cons obj rest ih =>
    rw [List.forall_mem_cons, ← ih]
    simp only [containsOnlyTrivialObjectives, TrivialObjective]
    cases ops.isRewardOperatorFormula obj.formula <;>
    cases ops.isTotalRewardFormula (ops.getSubformula obj.formula) <;>
    cases ops.isLongRunAverageRewardFormula (ops.getSubformula obj.formula) <;>
    cases ops.isCumulativeRewardFormula (ops.getSubformula obj.formula) <;>
    cases ops.isMultiDimensional
      (ops.asCumulativeRewardFormula (ops.getSubformula obj.formula)) <;>
    cases ops.isTimeBound
      (ops.asCumulativeRewardFormula (ops.getSubformula obj.formula)) <;>
    cases ops.isStepBound
      (ops.asCumulativeRewardFormula (ops.getSubformula obj.formula)) <;>
    simp

end TrivialObjectives

/-! ## Theorems: the order of the joined entries -/

section JoinOrder

variable {V : Type}

theorem firstColumns_append_singleton (seen l : List Nat) (c : Nat) :
    firstColumns seen (l ++ [c])
      = if c ∈ firstColumns seen l then firstColumns seen l
        else firstColumns seen l ++ [c] := by
  induction l generalizing seen with
  | nil =>
    by_cases hc : c ∈ seen
    · simp [firstColumns, hc]
    · simp [firstColumns, hc]
  | cons d rest ih =>
    by_cases hd : d ∈ seen
    · simp only [List.cons_append, firstColumns, hd, if_true]
      exact ih seen
    · simp only [List.cons_append, firstColumns, hd, if_false]
      exact ih (seen ++ [d])

theorem firstColumns_of_nodup (seen l : List Nat) (h : (seen ++ l).Nodup) :
    firstColumns seen l = seen ++ l := by
  induction l generalizing seen with
  | nil => simp [firstColumns]
  | cons d rest ih =>
    have hd : d ∉ seen := by
      intro hmem
      have := (List.nodup_append.mp h).2.2
      exact this hmem (List.mem_cons_self _ _)
    have h2 : (seen ++ [d] ++ rest).Nodup := by simpa using h
    simp only [firstColumns, hd, if_false]
    rw [ih _ h2]
    simp

/-- The columns kept by `firstColumns` after `seen` stand in the order of the list. -/
theorem firstColumns_sublist (seen l : List Nat) :
    ∃ t : List Nat, firstColumns seen l = seen ++ t ∧ t.Sublist l := by
  induction l generalizing seen with
  | nil => exact ⟨[], by simp [firstColumns], List.Sublist.refl _⟩
  | cons d rest ih =>
    by_cases hd : d ∈ seen
    · obtain ⟨t, h1, h2⟩ := ih seen
      exact ⟨t, by simp [firstColumns, hd, h1], h2.cons d⟩
    · obtain ⟨t, h1, h2⟩ := ih (seen ++ [d])
      exact ⟨d :: t, by simp [firstColumns, hd, h1], h2.cons₂ d⟩

theorem columnSum_of_nodup [AddCommMonoid V] (entries : List (MatrixEntry V))
    (h : (entries.map MatrixEntry.column).Nodup) (e : MatrixEntry V) (he : e ∈ entries) :
    columnSum entries e.column = e.value := by
  induction entries with
  | nil => simp at he
  | cons x rest ih =>
    rw [List.map_cons, List.nodup_cons] at h
    rw [columnSum_cons]
    rcases List.mem_cons.mp he with hx | hx
    · subst hx
      have hzero : columnSum rest e.column = 0 := by
        simp only [columnSum]
        rw [List.filter_eq_nil_iff.mpr]
        · simp
        · intro y hy
          simp only [decide_eq_true_eq]
          intro hyc
          exact h.1 (hyc ▸ List.mem_map_of_mem _ hy)
      simp [hzero]
    · have hne : ¬ x.column = e.column := by
        intro hxe
        exact h.1 (hxe ▸ List.mem_map_of_mem _ hx)
      rw [if_neg hne, zero_add]
      exact ih h.2 hx

/-- An input without a repeated column is returned as it is. -/
theorem joinDuplicateTransitions_of_nodup [AddCommMonoid V] (entries : List (MatrixEntry V))
    (h : (entries.map MatrixEntry.column).Nodup) :
    joinDuplicateTransitions entries = some entries := by
  rw [joinDuplicateTransitions_eq, firstColumns_of_nodup [] _ (by simpa using h)]
  simp only [List.nil_append, List.map_map, Option.some.injEq]
  conv_rhs => rw [← List.map_id entries]
  apply List.map_congr_left
  intro e he
  simp [columnSum_of_nodup entries h e he]

/-- The columns of the entries that `joinDuplicateTransitions` returns. -/
theorem joinDuplicateTransitions_columns [AddCommMonoid V] (entries : List (MatrixEntry V)) :
    (joinDuplicateTransitions entries).map (List.map MatrixEntry.column)
      = some (firstColumns [] (entries.map MatrixEntry.column)) := by
  have hid : (MatrixEntry.column ∘ fun c => ({ column := c, value := columnSum entries c }
      : MatrixEntry V)) = id := rfl
  rw [joinDuplicateTransitions_eq, Option.map_some', List.map_map, hid, List.map_id]

/-- C38. The entries that `joinDuplicateTransitions` returns stand in the order in which
their columns first occur in the input: the columns returned for an input with one more
entry at its end are those returned for the input, followed by the column of the new
entry when it did not occur before. For an input in which no column occurs twice the
output is the input, and the output of a call is returned unchanged by a second call. -/
theorem joinDuplicateTransitions_first_occurrence [AddCommMonoid V]
    (entries : List (MatrixEntry V)) (e : MatrixEntry V) :
    ∃ joined extended : List (MatrixEntry V),
      joinDuplicateTransitions entries = some joined
        ∧ joinDuplicateTransitions (entries ++ [e]) = some extended
        ∧ extended.map MatrixEntry.column
            = joined.map MatrixEntry.column
              ++ (if e.column ∈ entries.map MatrixEntry.column then [] else [e.column])
        ∧ joinDuplicateTransitions ([] : List (MatrixEntry V)) = some []
        ∧ ((entries.map MatrixEntry.column).Nodup → joined = entries)
        ∧ joinDuplicateTransitions joined = some joined := by
  have h1 := joinDuplicateTransitions_columns entries
  have h2 := joinDuplicateTransitions_columns (entries ++ [e])
  cases hj : joinDuplicateTransitions entries with
  | none => simp [hj] at h1
  | some joined =>
    cases hx : joinDuplicateTransitions (entries ++ [e]) with
    | none => simp [hx] at h2
    | some extended =>
      rw [hj, Option.map_some', Option.some.injEq] at h1
      rw [hx, Option.map_some', Option.some.injEq] at h2
      refine ⟨joined, extended, rfl, rfl, ?_, rfl, ?_, ?_⟩
      · rw [h2, h1, List.map_append, List.map_cons, List.map_nil,
          firstColumns_append_singleton]
        by_cases hc : e.column ∈ entries.map MatrixEntry.column
        · have hc2 : e.column ∈ firstColumns [] (entries.map MatrixEntry.column) :=
            (mem_firstColumns _ _ _).mpr (Or.inr hc)
          rw [if_pos hc2, if_pos hc, List.append_nil]
        · have hc2 : e.column ∉ firstColumns [] (entries.map MatrixEntry.column) := by
            intro hmem
            rcases (mem_firstColumns _ _ _).mp hmem with h | h
            · simp at h
            · exact hc h
          rw [if_neg hc2, if_neg hc]
      · intro hn
        rw [joinDuplicateTransitions_of_nodup entries hn] at hj
        exact (Option.some.inj hj).symm
      · apply joinDuplicateTransitions_of_nodup
        rw [h1]
        exact firstColumns_nodup [] _ List.nodup_nil

end JoinOrder

/-! ## Theorems: `jipConvert`, its result and the row it leaves -/

section JipResult

variable {V : Type}

/-- The keys of the map of `joinDuplicateTransitions` and the columns of the entries
stored under them, without any assumption on the addition of values. -/
theorem joinLoop_keys [Add V] (rest : List (MatrixEntry V)) (acc : JoinState V)
    (hin : ∀ c ∈ acc.keyOrder, ∃ e, acc.existingEntries.lookup c = some e ∧ e.column = c)
    (hout : ∀ c, c ∉ acc.keyOrder → acc.existingEntries.lookup c = none) :
    (∀ c ∈ (joinLoop rest acc).keyOrder,
        ∃ e, (joinLoop rest acc).existingEntries.lookup c = some e ∧ e.column = c)
      ∧ (joinLoop rest acc).keyOrder
          = firstColumns acc.keyOrder (rest.map MatrixEntry.column) := by
  induction rest generalizing acc with
  | nil => exact ⟨hin, rfl⟩
  | cons entry rest ih =>
    cases hl : acc.existingEntries.lookup entry.column with
    | some existing =>
      have hmem : entry.column ∈ acc.keyOrder := by
        by_contra hno
        rw [hout _ hno] at hl
        exact Option.noConfusion hl
      have hex : existing.column = entry.column := by
        obtain ⟨e, h1, h2⟩ := hin _ hmem
        rw [h1] at hl
        cases hl
        exact h2
      simp only [joinLoop, hl, List.map_cons, firstColumns, hmem, if_true]
      apply ih
      · intro c hc
        by_cases hce : c = entry.column
        · subst hce
          exact ⟨_, lookup_assocSet_self _ _ _, hex⟩
        · rw [lookup_assocSet_ne _ _ _ _ hce]
          exact hin c hc
      · intro c hc
        have hce : c ≠ entry.column := fun h => hc (h ▸ hmem)
        rw [lookup_assocSet_ne _ _ _ _ hce]
        exact hout c hc
    | none =>
      have hmem : entry.column ∉ acc.keyOrder := by
        intro hyes
        obtain ⟨e, h1, _⟩ := hin _ hyes
        rw [h1] at hl
        exact Option.noConfusion hl
      simp only [joinLoop, hl, List.map_cons, firstColumns, hmem, if_false]
      apply ih
      · intro c hc
        by_cases hce : c = entry.column
        · subst hce
          exact ⟨_, lookup_assocSet_self _ _ _, rfl⟩
        · have hc2 : c ∈ acc.keyOrder := by
            simpa [hce] using hc
          rw [lookup_assocSet_ne _ _ _ _ hce]
          exact hin c hc2
      · intro c hc
        have hce : c ≠ entry.column := by
          intro h
          exact hc (by simp [h])
        have hc2 : c ∉ acc.keyOrder := by
          intro h
          exact hc (by simp [h])
        rw [lookup_assocSet_ne _ _ _ _ hce]
        exact hout c hc2

theorem collectEntries_columns (existingEntries : List (Nat × MatrixEntry V))
    (keys : List Nat)
    (h : ∀ c ∈ keys, ∃ e, existingEntries.lookup c = some e ∧ e.column = c) :
    ∃ newEntries, collectEntries existingEntries keys = some newEntries
      ∧ newEntries.map MatrixEntry.column = keys := by
  induction keys with
  | nil => exact ⟨[], rfl, rfl⟩
  | cons key rest ih =>
    obtain ⟨e, he, hc⟩ := h key (List.mem_cons_self _ _)
    obtain ⟨out, hout, hcols⟩ := ih (fun c hc => h c (List.mem_cons_of_mem _ hc))
    exact ⟨e :: out, by simp [collectEntries, he, hout], by simp [hc, hcols]⟩

/-- Function `joinDuplicateTransitions` returns, and the columns of its result are the
columns of the input in the order of first occurrence. -/
theorem joinDuplicateTransitions_some [Add V] (entries : List (MatrixEntry V)) :
    ∃ joined, joinDuplicateTransitions entries = some joined
      ∧ joined.map MatrixEntry.column = firstColumns [] (entries.map MatrixEntry.column) := by
  obtain ⟨h1, h2⟩ := joinLoop_keys entries { keyOrder := [], existingEntries := [] }
    (by intro c hc; simp at hc) (by intro c _; rfl)
  obtain ⟨out, hout, hcols⟩ := collectEntries_columns _ _ h1
  exact ⟨out, hout, by rw [hcols, h2]⟩

theorem mem_insertByColumn (e x : MatrixEntry V) (l : List (MatrixEntry V)) :
    x ∈ insertByColumn e l ↔ x = e ∨ x ∈ l := by
  induction l with
  | nil => simp [insertByColumn]
  | cons first rest ih =>
    by_cases h : first.column < e.column
    · simp [insertByColumn, h]
    · simp only [insertByColumn, h, if_false, List.mem_cons, ih]
      tauto

theorem mem_sortByColumn (x : MatrixEntry V) (l : List (MatrixEntry V)) :
    x ∈ sortByColumn l ↔ x ∈ l := by
  induction l with
  | nil => simp [sortByColumn]
  | cons e rest ih => simp [sortByColumn, mem_insertByColumn, ih]

theorem insertByColumn_pairwise (e : MatrixEntry V) (l : List (MatrixEntry V))
    (h : l.Pairwise (fun a b => b.column ≤ a.column)) :
    (insertByColumn e l).Pairwise (fun a b => b.column ≤ a.column) := by
  induction l with
  | nil => simp [insertByColumn]
  | cons first rest ih =>
    rw [List.pairwise_cons] at h
    by_cases hlt : first.column < e.column
    · simp only [insertByColumn, hlt, if_true]
      refine List.pairwise_cons.mpr ⟨?_, List.pairwise_cons.mpr h⟩
      intro x hx
      rcases List.mem_cons.mp hx with hx | hx
      · subst hx
        omega
      · have := h.1 x hx
        omega
    · simp only [insertByColumn, hlt, if_false]
      refine List.pairwise_cons.mpr ⟨?_, ih h.2⟩
      intro x hx
      rcases (mem_insertByColumn e x rest).mp hx with hx | hx
      · subst hx
        omega
      · exact h.1 x hx

/-- The row that `sortByColumn` returns is sorted by descending column. -/
theorem sortByColumn_pairwise (l : List (MatrixEntry V)) :
    (sortByColumn l).Pairwise (fun a b => b.column ≤ a.column) := by
  induction l with
  | nil => simp [sortByColumn]
  | cons e rest ih => exact insertByColumn_pairwise e _ ih

/-- The first occurrences of the columns of a list sorted by descending column are
strictly descending. -/
theorem firstColumns_strict (l : List Nat) (h : l.Pairwise (fun a b => b ≤ a)) :
    (firstColumns [] l).Pairwise (fun a b => b < a) := by
  obtain ⟨t, h1, h2⟩ := firstColumns_sublist [] l
  have hn : (firstColumns [] l).Nodup := firstColumns_nodup [] l List.nodup_nil
  rw [h1, List.nil_append] at hn ⊢
  have hp : t.Pairwise (fun a b => b ≤ a) := h.sublist h2
  exact (hp.and hn).imp (fun hab => by omega)

/-- The value returned by the loop of `jipConvert` when it returns: whether every
non-zero entry of the row is constant. -/
theorem jipLoop_result [Mul V] (ops : RationalFunctionOps V)
    (stateRewardVector : Option (List V))
    (call : Nat → JipState V → Except JipFailure (Bool × JipState V)) (state : Nat)
    (row : List (MatrixEntry V)) (firstIteration : Bool) (st : JipState V) (b : Bool)
    (st2 : JipState V)
    (h : jipLoop ops stateRewardVector call state row firstIteration st = Except.ok (b, st2)) :
    b = row.all (fun e => ops.isZero e.value || ops.isConstant e.value) := by
  induction row generalizing firstIteration st with
  | nil =>
    simp only [jipLoop, Except.ok.injEq, Prod.mk.injEq] at h
    simp [← h.1]
  | cons entry rest ih =>
    simp only [jipLoop] at h
    by_cases hz : ops.isZero entry.value = true
    · simp only [hz, if_true] at h
      simp [hz, ih _ _ h]
    · by_cases hc : ops.isConstant entry.value = true
      · simp only [hz, hc, Bool.not_true, Bool.false_eq_true, if_false] at h
        cases hct : constantTransitionOf ops stateRewardVector call entry.column st with
        | error e => simp [hct] at h
        | ok p =>
          obtain ⟨constantTransition, st1⟩ := p
          simp only [hct] at h
          cases ha : appendSuccessors state entry constantTransition firstIteration
              st1.matrix with
          | error e => simp [ha] at h
          | ok matrix =>
            simp only [ha] at h
            simp [hc, ih _ _ h]
      · simp only [hz, hc, Bool.not_false, if_true, Bool.false_eq_true, if_false,
          Except.ok.injEq, Prod.mk.injEq] at h
        simp [hz, hc, ← h.1]

/-- A call of `jipConvert` that returns `true` leaves in the row of `state` what
`joinDuplicateTransitions` makes of the sorted row; one that returns `false` returns
from inside the loop. -/
theorem jipConvert_ok [Add V] [Mul V] (ops : RationalFunctionOps V)
    (stateRewardVector : Option (List V)) (fuel state : Nat) (st : JipState V) (b : Bool)
    (st2 : JipState V)
    (h : jipConvert ops stateRewardVector fuel state st = Except.ok (b, st2)) :
    ∃ fuel1 copiedRow st1,
      fuel = fuel1 + 1 ∧ st.matrix[state]? = some copiedRow
        ∧ jipLoop ops stateRewardVector (jipConvert ops stateRewardVector fuel1) state
            copiedRow true st = Except.ok (b, st1)
        ∧ (b = false → st2 = st1)
        ∧ (b = true → ∃ row joined, st1.matrix[state]? = some row
            ∧ joinDuplicateTransitions (sortByColumn row) = some joined
            ∧ st2 = { st1 with matrix := st1.matrix.set state joined }) := by
  cases fuel with
  | zero => simp [jipConvert] at h
  | succ fuel1 =>
    simp only [jipConvert] at h
    cases hrow : st.matrix[state]? with
    | none => simp [hrow] at h
    | some copiedRow =>
      simp only [hrow] at h
      cases hl : jipLoop ops stateRewardVector (jipConvert ops stateRewardVector fuel1) state
          copiedRow true st with
      | error e => simp [hl] at h
      | ok p =>
        obtain ⟨b1, st1⟩ := p
        cases b1 with
        | false =>
          simp only [hl, Except.ok.injEq, Prod.mk.injEq] at h
          obtain ⟨hb, hst⟩ := h
          subst hb
          exact ⟨fuel1, copiedRow, st1, rfl, rfl, hl, fun _ => hst.symm,
            fun hf => Bool.noConfusion hf⟩
        | true =>
          simp only [hl] at h
          cases hr : st1.matrix[state]? with
          | none => simp [hr] at h
          | some row =>
            simp only [hr] at h
            cases hj : joinDuplicateTransitions (sortByColumn row) with
            | none => simp [hj] at h
            | some joined =>
              simp only [hj, Except.ok.injEq, Prod.mk.injEq] at h
              obtain ⟨hb, hst⟩ := h
              subst hb
              exact ⟨fuel1, copiedRow, st1, rfl, rfl, hl, fun hf => Bool.noConfusion hf,
                fun _ => ⟨row, joined, hr, hj, hst.symm⟩⟩

theorem returnedAndMatrix_eq_some (result : Except JipFailure (Bool × JipState V))
    (b : Bool) (matrix : FlexibleSparseMatrix V)
    (h : returnedAndMatrix result = some (b, matrix)) :
    ∃ st2, result = Except.ok (b, st2) ∧ st2.matrix = matrix := by
  cases result with
  | error e => simp [returnedAndMatrix] at h
  | ok p =>
    obtain ⟨b1, st2⟩ := p
    simp only [returnedAndMatrix, Option.some.injEq, Prod.mk.injEq] at h
    exact ⟨st2, by rw [h.1], h.2⟩

/-- C35. Whenever `jipConvert(state, matrix, …)` returns `true`, the row of `state` in
the resulting matrix has strictly decreasing column indices: it is sorted by descending
column and no column occurs twice. -/
theorem jipConvert_true_strictly_descending [Add V] [Mul V] (ops : RationalFunctionOps V)
    (stateRewardVector : Option (List V)) (fuel state : Nat) (st : JipState V)
    (matrix2 : FlexibleSparseMatrix V)
    (hreturn : returnedAndMatrix (jipConvert ops stateRewardVector fuel state st)
      = some (true, matrix2)) :
    ∃ row, matrix2[state]? = some row
      ∧ (row.map MatrixEntry.column).Pairwise (fun a b => b < a) := by
  obtain ⟨st2, h, hm⟩ := returnedAndMatrix_eq_some _ _ _ hreturn
  subst hm
  obtain ⟨_, _, st1, _, _, _, _, htrue⟩ := jipConvert_ok ops stateRewardVector fuel state st
    true st2 h
  obtain ⟨row, joined, hrow, hj, hst⟩ := htrue rfl
  obtain ⟨joined2, hj2, hcols⟩ := joinDuplicateTransitions_some (sortByColumn row)
  rw [hj] at hj2
  cases hj2
  have hlt : state < st1.matrix.length := by
    by_contra hge
    rw [List.getElem?_eq_none (by omega)] at hrow
    exact Option.noConfusion hrow
  refine ⟨joined, ?_, ?_⟩
  · rw [hst]
    exact List.getElem?_set_self hlt
  · rw [hcols]
    apply firstColumns_strict
    rw [List.pairwise_map]
    exact sortByColumn_pairwise row

end JipResult

/-! ## Theorems: a call of `jipConvert` that returns `false` -/

section JipFalse

variable {V : Type}

/-- The loop of `jipConvert` passes over zero entries without any effect. -/
theorem jipLoop_zeros [Mul V] (ops : RationalFunctionOps V)
    (stateRewardVector : Option (List V))
    (call : Nat → JipState V → Except JipFailure (Bool × JipState V)) (state : Nat)
    (zeros rest : List (MatrixEntry V)) (firstIteration : Bool) (st : JipState V)
    (hzeros : ∀ x ∈ zeros, ops.isZero x.value = true) :
    jipLoop ops stateRewardVector call state (zeros ++ rest) firstIteration st
      = jipLoop ops stateRewardVector call state rest firstIteration st := by
  induction zeros with
  | nil => rfl
  | cons x more ih =>
    simp only [List.cons_append, jipLoop, hzeros x (List.mem_cons_self _ _), if_true]
    exact ih (fun y hy => hzeros y (List.mem_cons_of_mem _ hy))

/-- C34, as the code has it. When the first non-zero entry of the row of `state` is
parametric, `jipConvert(state, matrix, alreadyVisited, …)` returns `false` and leaves the
matrix, and with it the row of `state`, and the map `alreadyVisited` as they were. -/
theorem jipConvert_false_untouched [Add V] [Mul V] (ops : RationalFunctionOps V)
    (stateRewardVector : Option (List V)) (fuel state : Nat) (st : JipState V)
    (zeros : List (MatrixEntry V)) (entry : MatrixEntry V) (rest : List (MatrixEntry V))
    (hrow : st.matrix[state]? = some (zeros ++ entry :: rest))
    (hzeros : ∀ x ∈ zeros, ops.isZero x.value = true)
    (hnonzero : ops.isZero entry.value = false)
    (hparametric : ops.isConstant entry.value = false) :
    jipConvert ops stateRewardVector (fuel + 1) state st = Except.ok (false, st) := by
  simp only [jipConvert, hrow]
  rw [jipLoop_zeros ops stateRewardVector _ state zeros (entry :: rest) true st hzeros]
  simp [jipLoop, hnonzero, hparametric]

end JipFalse

/-! ## Theorems: what `jipConvert` keeps -/

section JipKeeps

variable {V : Type}

theorem columnsInRange_set (matrix : FlexibleSparseMatrix V) (state : Nat)
    (newRow : List (MatrixEntry V)) (h : ColumnsInRange matrix)
    (hnew : ∀ e ∈ newRow, e.column < matrix.length) :
    ColumnsInRange (matrix.set state newRow) := by
  intro row hrow e he
  rw [List.length_set]
  rcases List.mem_or_eq_of_mem_set hrow with hmem | heq
  · exact h row hmem e he
  · subst heq
    exact hnew e he

theorem appendSuccessors_keeps [Mul V] (state : Nat) (entry : MatrixEntry V)
    (constantTransition firstIteration : Bool) (matrix matrix2 : FlexibleSparseMatrix V)
    (h : appendSuccessors state entry constantTransition firstIteration matrix
      = Except.ok matrix2) :
    matrix2.length = matrix.length
      ∧ (ColumnsInRange matrix → entry.column < matrix.length → ColumnsInRange matrix2) := by
  simp only [appendSuccessors] at h
  cases hrow : matrix[state]? with
  | none => simp [hrow] at h
  | some row =>
    simp only [hrow] at h
    have hcleared : ColumnsInRange matrix →
        ∀ e ∈ (if firstIteration = true then [] else row), e.column < matrix.length := by
      intro hr e he
      cases firstIteration with
      | true => simp at he
      | false => exact hr row (List.getElem?_mem hrow) e (by simpa using he)
    generalize (if firstIteration = true then [] else row) = cleared at h hcleared
    by_cases hct : constantTransition = true
    · simp only [hct, if_true] at h
      by_cases hself : entry.column = state
      · simp only [hself, if_true] at h
        by_cases hempty : cleared.isEmpty = true
        · simp only [hempty, if_true, Except.ok.injEq] at h
          subst h
          exact ⟨List.length_set _ _ _, fun hr _ => columnsInRange_set _ _ _ hr (hcleared hr)⟩
        · simp [hempty] at h
      · simp only [hself, if_false] at h
        cases hsucc : matrix[entry.column]? with
        | none => simp [hsucc] at h
        | some successors =>
          simp only [hsucc, Except.ok.injEq] at h
          subst h
          refine ⟨List.length_set _ _ _, fun hr _ => columnsInRange_set _ _ _ hr ?_⟩
          intro e he
          rcases List.mem_append.mp he with he | he
          · exact hcleared hr e he
          · obtain ⟨successor, hs, rfl⟩ := List.mem_map.mp he
            exact hr successors (List.getElem?_mem hsucc) successor hs
    · simp only [hct, Bool.false_eq_true, if_false, Except.ok.injEq] at h
      subst h
      refine ⟨List.length_set _ _ _, fun hr hentry => columnsInRange_set _ _ _ hr ?_⟩
      intro e he
      rcases List.mem_append.mp he with he | he
      · exact hcleared hr e he
      · rw [List.mem_singleton] at he
        subst he
        exact hentry

theorem keeps_refl (st : JipState V) : st.Keeps st :=
  ⟨rfl, fun h => h, fun _ _ h => h⟩

theorem keeps_trans (st st1 st2 : JipState V) (h1 : st.Keeps st1) (h2 : st1.Keeps st2) :
    st.Keeps st2 :=
  ⟨h2.1.trans h1.1, fun h => h2.2.1 (h1.2.1 h), fun k v h => h2.2.2 k v (h1.2.2 k v h)⟩

/-- The value of `constantTransition` for a state that is in `alreadyVisited`, or that
carries a reward, does not depend on the recursive call; and what the computation keeps
when it returns. -/
theorem constantTransitionOf_keeps (ops : RationalFunctionOps V)
    (stateRewardVector : Option (List V))
    (call : Nat → JipState V → Except JipFailure (Bool × JipState V))
    (hcall : ∀ s st r, call s st = Except.ok r → st.Keeps r.2) (nextState : Nat)
    (st : JipState V) (constantTransition : Bool) (st1 : JipState V)
    (h : constantTransitionOf ops stateRewardVector call nextState st
      = Except.ok (constantTransition, st1)) :
    st.Keeps st1
      ∧ (st.alreadyVisited.lookup nextState = some false → constantTransition = false) := by
  simp only [constantTransitionOf] at h
  split at h
  · exact Except.noConfusion h
  · simp only [Except.ok.injEq, Prod.mk.injEq] at h
    obtain ⟨h1, h2⟩ := h
    subst h2
    exact ⟨keeps_refl st, fun _ => h1.symm⟩
  · cases hl : st.alreadyVisited.lookup nextState with
    | some visited =>
      simp only [hl, Except.ok.injEq, Prod.mk.injEq] at h
      obtain ⟨h1, h2⟩ := h
      subst h2
      refine ⟨keeps_refl st, fun hv => ?_⟩
      cases hv
      exact h1.symm
    | none =>
      simp only [hl] at h
      cases hc : call nextState
          { st with alreadyVisited := assocSet nextState false st.alreadyVisited } with
      | error e => simp [hc] at h
      | ok p =>
        obtain ⟨result, st2⟩ := p
        simp only [hc, Except.ok.injEq, Prod.mk.injEq] at h
        obtain ⟨h1, h2⟩ := h
        subst h2
        obtain ⟨k1, k2, k3⟩ := hcall _ _ _ hc
        refine ⟨⟨k1, k2, ?_⟩, fun hv => Option.noConfusion hv⟩
        intro k v hk
        have hne : k ≠ nextState := by
          intro heq
          subst heq
          rw [hl] at hk
          exact Option.noConfusion hk
        simp only []
        rw [lookup_assocSet_ne _ _ _ _ hne]
        apply k3
        simp only []
        rw [lookup_assocSet_ne _ _ _ _ hne]
        exact hk

theorem jipLoop_keeps [Mul V] (ops : RationalFunctionOps V)
    (stateRewardVector : Option (List V))
    (call : Nat → JipState V → Except JipFailure (Bool × JipState V))
    (hcall : ∀ s st r, call s st = Except.ok r → st.Keeps r.2) (state : Nat)
    (row : List (MatrixEntry V)) (firstIteration : Bool) (st : JipState V) (b : Bool)
    (st2 : JipState V)
    (h : jipLoop ops stateRewardVector call state row firstIteration st = Except.ok (b, st2)) :
    st2.matrix.length = st.matrix.length
      ∧ (ColumnsInRange st.matrix → (∀ e ∈ row, e.column < st.matrix.length) →
          ColumnsInRange st2.matrix)
      ∧ ∀ k v, st.alreadyVisited.lookup k = some v →
          st2.alreadyVisited.lookup k = some v := by
  induction row generalizing firstIteration st with
  | nil =>
    simp only [jipLoop, Except.ok.injEq, Prod.mk.injEq] at h
    obtain ⟨_, h2⟩ := h
    subst h2
    exact ⟨rfl, fun hr _ => hr, fun _ _ hk => hk⟩
  | cons entry rest ih =>
    simp only [jipLoop] at h
    by_cases hz : ops.isZero entry.value = true
    · simp only [hz, if_true] at h
      obtain ⟨i1, i2, i3⟩ := ih _ _ h
      exact ⟨i1, fun hr hrow => i2 hr (fun e he => hrow e (List.mem_cons_of_mem _ he)), i3⟩
    · by_cases hc : ops.isConstant entry.value = true
      · simp only [hz, hc, Bool.not_true, Bool.false_eq_true, if_false] at h
        cases hct : constantTransitionOf ops stateRewardVector call entry.column st with
        | error e => simp [hct] at h
        | ok p =>
          obtain ⟨constantTransition, st1⟩ := p
          simp only [hct] at h
          obtain ⟨⟨k1, k2, k3⟩, _⟩ := constantTransitionOf_keeps ops stateRewardVector call
            hcall entry.column st constantTransition st1 hct
          cases ha : appendSuccessors state entry constantTransition firstIteration
              st1.matrix with
          | error e => simp [ha] at h
          | ok matrix =>
            simp only [ha] at h
            obtain ⟨a1, a2⟩ := appendSuccessors_keeps state entry constantTransition
              firstIteration st1.matrix matrix ha
            obtain ⟨i1, i2, i3⟩ := ih _ _ h
            simp only [] at i1 i2 i3
            refine ⟨by rw [i1, a1, k1], ?_, fun k v hk => i3 k v (k3 k v hk)⟩
            intro hr hrow
            apply i2
            · apply a2 (k2 hr)
              rw [k1]
              exact hrow entry (List.mem_cons_self _ _)
            · intro e he
              rw [a1, k1]
              exact hrow e (List.mem_cons_of_mem _ he)
      · simp only [hz, hc, Bool.not_false, if_true, Bool.false_eq_true, if_false,
          Except.ok.injEq, Prod.mk.injEq] at h
        obtain ⟨_, h2⟩ := h
        subst h2
        exact ⟨rfl, fun hr _ => hr, fun _ _ hk => hk⟩

/-- A call of `jipConvert` that returns keeps the number of rows, that the columns are
states, and the entries that `alreadyVisited` had. -/
theorem jipConvert_keeps [Add V] [Mul V] (ops : RationalFunctionOps V)
    (stateRewardVector : Option (List V)) (fuel : Nat) :
    ∀ (state : Nat) (st : JipState V) (r : Bool × JipState V),
      jipConvert ops stateRewardVector fuel state st = Except.ok r → st.Keeps r.2 := by
  induction fuel with
  | zero =>
    intro state st r h
    simp [jipConvert] at h
  | succ fuel ih =>
    intro state st r h
    obtain ⟨b, st2⟩ := r
    obtain ⟨fuel1, copiedRow, st1, hfuel, hrow, hloop, hfalse, htrue⟩ :=
      jipConvert_ok ops stateRewardVector (fuel + 1) state st b st2 h
    have hf : fuel1 = fuel := by omega
    subst hf
    obtain ⟨l1, l2, l3⟩ := jipLoop_keeps ops stateRewardVector _ ih state copiedRow true st
      b st1 hloop
    have hrange : ColumnsInRange st.matrix → ColumnsInRange st1.matrix := fun hr =>
      l2 hr (fun e he => hr copiedRow (List.getElem?_mem hrow) e he)
    cases b with
    | false =>
      rw [hfalse rfl]
      exact ⟨l1, hrange, l3⟩
    | true =>
      obtain ⟨row, joined, hr1, hj, hst⟩ := htrue rfl
      rw [hst]
      refine ⟨by simp [l1], ?_, l3⟩
      intro hr
      apply columnsInRange_set _ _ _ (hrange hr)
      intro e he
      obtain ⟨joined2, hj2, hcols⟩ := joinDuplicateTransitions_some (sortByColumn row)
      rw [hj] at hj2
      cases hj2
      have hmem : e.column ∈ firstColumns [] ((sortByColumn row).map MatrixEntry.column) := by
        rw [← hcols]
        exact List.mem_map_of_mem _ he
      rcases (mem_firstColumns _ _ _).mp hmem with hm | hm
      · simp at hm
      · obtain ⟨x, hx, hxc⟩ := List.mem_map.mp hm
        rw [← hxc]
        exact hrange hr row (List.getElem?_mem hr1) x ((mem_sortByColumn x row).mp hx)

end JipKeeps

/-! ## Theorems: `jipConvert` terminates and returns -/

section JipRuns

variable {V : Type}

theorem countP_succ_le (l : List Nat) (p q : Nat → Bool) (hpq : ∀ x ∈ l, p x = true → q x = true)
    (k : Nat) (hk : k ∈ l) (hq : q k = true) (hp : p k = false) :
    l.countP p + 1 ≤ l.countP q := by
  induction l with
  | nil => simp at hk
  | cons a rest ih =>
    have hmono : rest.countP p ≤ rest.countP q :=
      List.countP_mono_left (fun x hx => hpq x (List.mem_cons_of_mem _ hx))
    rw [List.countP_cons, List.countP_cons]
    rcases List.mem_cons.mp hk with hka | hkr
    · subst hka
      simp only [hp, hq, Bool.false_eq_true, if_false, if_true]
      omega
    · have := ih (fun x hx => hpq x (List.mem_cons_of_mem _ hx)) hkr
      by_cases hpa : p a = true
      · simp only [hpa, hpq a (List.mem_cons_self _ _) hpa, if_true]
        omega
      · simp only [hpa, Bool.false_eq_true, if_false]
        split <;> omega

theorem unvisitedCount_mono (st st2 : JipState V)
    (hlen : st2.matrix.length = st.matrix.length)
    (hvisited : ∀ k v, st.alreadyVisited.lookup k = some v →
      st2.alreadyVisited.lookup k = some v) :
    unvisitedCount st2 ≤ unvisitedCount st := by
  simp only [unvisitedCount, hlen]
  apply List.countP_mono_left
  intro x _ hx
  cases h : st.alreadyVisited.lookup x with
  | none => rfl
  | some v =>
    rw [hvisited x v h] at hx
    exact Bool.noConfusion hx

theorem unvisitedCount_insert (st : JipState V) (k : Nat) (v : Bool)
    (hk : st.alreadyVisited.lookup k = none) (hlt : k < st.matrix.length) :
    unvisitedCount { st with alreadyVisited := assocSet k v st.alreadyVisited } + 1
      ≤ unvisitedCount st := by
  simp only [unvisitedCount]
  apply countP_succ_le _ _ _ _ k (List.mem_range.mpr hlt)
  · simp [hk]
  · simp [lookup_assocSet_self]
  · intro x _ hx
    by_cases hxk : x = k
    · subst hxk
      simp [hk]
    · rw [lookup_assocSet_ne _ _ _ _ hxk] at hx
      exact hx

/-- A failure of `appendSuccessors` for a state and a column in range is the append to the
row that is iterated over. -/
theorem appendSuccessors_error [Mul V] (state : Nat) (entry : MatrixEntry V)
    (constantTransition firstIteration : Bool) (matrix : FlexibleSparseMatrix V)
    (e : JipFailure)
    (h : appendSuccessors state entry constantTransition firstIteration matrix
      = Except.error e) :
    e ≠ JipFailure.outOfFuel
      ∧ (state < matrix.length → entry.column < matrix.length →
          constantTransition = true ∧ entry.column = state) := by
  simp only [appendSuccessors] at h
  cases hrow : matrix[state]? with
  | none =>
    simp only [hrow, Except.error.injEq] at h
    subst h
    refine ⟨by decide, fun hs _ => ?_⟩
    rw [List.getElem?_eq_getElem hs] at hrow
    exact Option.noConfusion hrow
  | some row =>
    simp only [hrow] at h
    generalize (if firstIteration = true then [] else row) = cleared at h
    by_cases hct : constantTransition = true
    · simp only [hct, if_true] at h
      by_cases hself : entry.column = state
      · simp only [hself, if_true] at h
        by_cases hempty : cleared.isEmpty = true
        · simp [hempty] at h
        · simp only [hempty, Bool.false_eq_true, if_false, Except.error.injEq] at h
          subst h
          exact ⟨by decide, fun _ _ => ⟨hct, hself⟩⟩
      · simp only [hself, if_false] at h
        cases hsucc : matrix[entry.column]? with
        | none =>
          simp only [hsucc, Except.error.injEq] at h
          subst h
          refine ⟨by decide, fun _ hc => ?_⟩
          rw [List.getElem?_eq_getElem hc] at hsucc
          exact Option.noConfusion hsucc
        | some successors => simp [hsucc] at h
    · simp [hct] at h

/-- A failure in the computation of `constantTransition` for a column in range is no lack
of fuel, and does not occur when the state reward vector covers the states. -/
theorem constantTransitionOf_error (ops : RationalFunctionOps V)
    (stateRewardVector : Option (List V)) (fuel : Nat)
    (call : Nat → JipState V → Except JipFailure (Bool × JipState V))
    (hruns : ∀ s st, ColumnsInRange st.matrix → unvisitedCount st + 1 ≤ fuel →
      ∀ e, call s st = Except.error e →
        e ≠ JipFailure.outOfFuel
          ∧ ¬ (RewardsCover stateRewardVector st.matrix.length
            ∧ ∃ row, st.matrix[s]? = some row ∧ SelfSafe ops row s st))
    (nextState : Nat) (st : JipState V) (hr : ColumnsInRange st.matrix)
    (hnext : nextState < st.matrix.length) (hfuel : unvisitedCount st ≤ fuel)
    (e : JipFailure)
    (h : constantTransitionOf ops stateRewardVector call nextState st = Except.error e) :
    e ≠ JipFailure.outOfFuel ∧ ¬ RewardsCover stateRewardVector st.matrix.length := by
  simp only [constantTransitionOf] at h
  cases hrw : stateRewardVector with
  | none =>
    simp only [hrw] at h
    cases hl : st.alreadyVisited.lookup nextState with
    | some visited => simp [hl] at h
    | none =>
      simp only [hl] at h
      cases hc : call nextState
          { st with alreadyVisited := assocSet nextState false st.alreadyVisited } with
      | ok p => simp [hc] at h
      | error e2 =>
        simp only [hc, Except.error.injEq] at h
        subst h
        have hcount := unvisitedCount_insert st nextState false hl hnext
        obtain ⟨h1, h2⟩ := hruns nextState
          { st with alreadyVisited := assocSet nextState false st.alreadyVisited } hr
          (Nat.le_trans hcount hfuel) e2 hc
        refine ⟨h1, fun hcover => h2 ⟨hrw ▸ hcover, ?_⟩⟩
        simp only []
        rw [List.getElem?_eq_getElem hnext]
        exact ⟨_, rfl, Or.inl (lookup_assocSet_self _ _ _)⟩
  | some rewards =>
    simp only [hrw] at h
    cases hreward : rewards[nextState]? with
    | none =>
      simp only [hreward, Except.error.injEq] at h
      subst h
      refine ⟨by decide, fun hcover => ?_⟩
      have hlen := hcover rewards rfl
      rw [List.getElem?_eq_getElem (by omega)] at hreward
      exact Option.noConfusion hreward
    | some reward =>
      simp only [hreward] at h
      cases hzero : ops.isZero reward with
      | false => simp [hzero] at h
      | true =>
        simp only [hzero, Bool.not_true] at h
        cases hl : st.alreadyVisited.lookup nextState with
        | some visited => simp [hl] at h
        | none =>
          simp only [hl] at h
          cases hc : call nextState
              { st with alreadyVisited := assocSet nextState false st.alreadyVisited } with
          | ok p => simp [hc] at h
          | error e2 =>
            simp only [hc, Except.error.injEq] at h
            subst h
            have hcount := unvisitedCount_insert st nextState false hl hnext
            obtain ⟨h1, h2⟩ := hruns nextState
              { st with alreadyVisited := assocSet nextState false st.alreadyVisited } hr
              (Nat.le_trans hcount hfuel) e2 hc
            refine ⟨h1, fun hcover => h2 ⟨hrw ▸ hcover, ?_⟩⟩
            simp only []
            rw [List.getElem?_eq_getElem hnext]
            exact ⟨_, rfl, Or.inl (lookup_assocSet_self _ _ _)⟩

/-- A failure of the loop of `jipConvert` is no lack of fuel, when the recursive calls have
fuel for the states not yet visited; and the loop does not fail when the state reward
vector covers the states, the state is a row and its row is safe to rebuild. -/
theorem jipLoop_runs [Mul V] (ops : RationalFunctionOps V)
    (stateRewardVector : Option (List V)) (fuel : Nat)
    (call : Nat → JipState V → Except JipFailure (Bool × JipState V))
    (hkeeps : ∀ s st r, call s st = Except.ok r → st.Keeps r.2)
    (hruns : ∀ s st, ColumnsInRange st.matrix → unvisitedCount st + 1 ≤ fuel →
      ∀ e, call s st = Except.error e →
        e ≠ JipFailure.outOfFuel
          ∧ ¬ (RewardsCover stateRewardVector st.matrix.length
            ∧ ∃ row, st.matrix[s]? = some row ∧ SelfSafe ops row s st))
    (state : Nat) (row : List (MatrixEntry V)) (firstIteration : Bool) (st : JipState V)
    (hr : ColumnsInRange st.matrix) (hrow : ∀ x ∈ row, x.column < st.matrix.length)
    (hfuel : unvisitedCount st ≤ fuel) (e : JipFailure)
    (h : jipLoop ops stateRewardVector call state row firstIteration st = Except.error e) :
    e ≠ JipFailure.outOfFuel
      ∧ ¬ (RewardsCover stateRewardVector st.matrix.length ∧ state < st.matrix.length
        ∧ SelfSafe ops row state st) := by
  induction row generalizing firstIteration st with
  | nil => simp [jipLoop] at h
  | cons entry rest ih =>
    have hrest : ∀ st2 : JipState V, st2.matrix.length = st.matrix.length →
        ∀ x ∈ rest, x.column < st2.matrix.length := by
      intro st2 hlen x hx
      rw [hlen]
      exact hrow x (List.mem_cons_of_mem _ hx)
    have hsafe : ∀ st2 : JipState V,
        (∀ k v, st.alreadyVisited.lookup k = some v →
          st2.alreadyVisited.lookup k = some v) →
        SelfSafe ops (entry :: rest) state st → SelfSafe ops rest state st2 := by
      intro st2 hvis hs
      rcases hs with hs | hs
      · exact Or.inl (hvis _ _ hs)
      · exact Or.inr (fun x hx => hs x (List.mem_cons_of_mem _ hx))
    simp only [jipLoop] at h
    by_cases hz : ops.isZero entry.value = true
    · simp only [hz, if_true] at h
      obtain ⟨i1, i2⟩ := ih _ _ hr (hrest st rfl) hfuel h
      exact ⟨i1, fun hgood => i2 ⟨hgood.1, hgood.2.1, hsafe st (fun _ _ hk => hk) hgood.2.2⟩⟩
    · by_cases hc : ops.isConstant entry.value = true
      · simp only [hz, hc, Bool.not_true, Bool.false_eq_true, if_false] at h
        have hentry : entry.column < st.matrix.length := hrow entry (List.mem_cons_self _ _)
        cases hct : constantTransitionOf ops stateRewardVector call entry.column st with
        | error e2 =>
          simp only [hct, Except.error.injEq] at h
          subst h
          obtain ⟨c1, c2⟩ := constantTransitionOf_error ops stateRewardVector fuel call hruns
            entry.column st hr hentry hfuel e2 hct
          exact ⟨c1, fun hgood => c2 hgood.1⟩
        | ok p =>
          obtain ⟨constantTransition, st1⟩ := p
          simp only [hct] at h
          obtain ⟨⟨k1, k2, k3⟩, kfalse⟩ := constantTransitionOf_keeps ops stateRewardVector
            call hkeeps entry.column st constantTransition st1 hct
          cases ha : appendSuccessors state entry constantTransition firstIteration
              st1.matrix with
          | error e2 =>
            simp only [ha, Except.error.injEq] at h
            subst h
            obtain ⟨a1, a2⟩ := appendSuccessors_error state entry constantTransition
              firstIteration st1.matrix e2 ha
            refine ⟨a1, fun hgood => ?_⟩
            obtain ⟨htrue, hself⟩ := a2 (by rw [k1]; exact hgood.2.1) (by rw [k1]; exact hentry)
            rcases hgood.2.2 with hs | hs
            · rw [← hself] at hs
              rw [kfalse hs] at htrue
              exact Bool.noConfusion htrue
            · rcases hs entry (List.mem_cons_self _ _) hself with hs | hs
              · exact hz hs
              · rw [hc] at hs
                exact Bool.noConfusion hs
          | ok matrix =>
            simp only [ha] at h
            obtain ⟨a1, a2⟩ := appendSuccessors_keeps state entry constantTransition
              firstIteration st1.matrix matrix ha
            have hlen : ({ st1 with matrix := matrix } : JipState V).matrix.length
                = st.matrix.length := by
              simp only []
              rw [a1, k1]
            have hcount : unvisitedCount ({ st1 with matrix := matrix } : JipState V)
                ≤ fuel :=
              Nat.le_trans (unvisitedCount_mono st _ hlen k3) hfuel
            obtain ⟨i1, i2⟩ := ih false { st1 with matrix := matrix }
              (a2 (k2 hr) (by rw [k1]; exact hentry)) (hrest _ hlen) hcount h
            refine ⟨i1, fun hgood => i2 ⟨?_, ?_, hsafe _ k3 hgood.2.2⟩⟩
            · rw [hlen]
              exact hgood.1
            · rw [hlen]
              exact hgood.2.1
      · simp [hz, hc] at h

/-- A failure of `jipConvert` is no lack of fuel when the columns of the matrix are states
and the fuel exceeds the number of states not yet visited; and `jipConvert` does not fail
when, besides, the state reward vector covers the states, the state is a row and its
row is safe to rebuild. -/
theorem jipConvert_runs [Add V] [Mul V] (ops : RationalFunctionOps V)
    (stateRewardVector : Option (List V)) (fuel : Nat) :
    ∀ (state : Nat) (st : JipState V), ColumnsInRange st.matrix →
      unvisitedCount st + 1 ≤ fuel →
      ∀ e, jipConvert ops stateRewardVector fuel state st = Except.error e →
        e ≠ JipFailure.outOfFuel
          ∧ ¬ (RewardsCover stateRewardVector st.matrix.length
            ∧ ∃ row, st.matrix[state]? = some row ∧ SelfSafe ops row state st) := by
  induction fuel with
  | zero =>
    intro state st _ hfuel
    omega
  | succ fuel ih =>
    intro state st hr hfuel e h
    simp only [jipConvert] at h
    cases hrow : st.matrix[state]? with
    | none =>
      simp only [hrow, Except.error.injEq] at h
      subst h
      refine ⟨by decide, fun hgood => ?_⟩
      obtain ⟨row, hsome, _⟩ := hgood.2
      exact Option.noConfusion hsome
    | some copiedRow =>
      simp only [hrow] at h
      have hstate : state < st.matrix.length := by
        by_contra hge
        rw [List.getElem?_eq_none (by omega)] at hrow
        exact Option.noConfusion hrow
      have hcols : ∀ x ∈ copiedRow, x.column < st.matrix.length :=
        fun x hx => hr copiedRow (List.getElem?_mem hrow) x hx
      cases hl : jipLoop ops stateRewardVector (jipConvert ops stateRewardVector fuel) state
          copiedRow true st with
      | error e2 =>
        simp only [hl, Except.error.injEq] at h
        subst h
        obtain ⟨l1, l2⟩ := jipLoop_runs ops stateRewardVector fuel _
          (jipConvert_keeps ops stateRewardVector fuel) ih state copiedRow true st hr hcols
          (by omega) e2 hl
        refine ⟨l1, fun hgood => l2 ⟨hgood.1, hstate, ?_⟩⟩
        obtain ⟨row, hsome, hs⟩ := hgood.2
        cases hsome
        exact hs
      | ok p =>
        obtain ⟨b, st1⟩ := p
        obtain ⟨k1, _, _⟩ := jipLoop_keeps ops stateRewardVector _
          (jipConvert_keeps ops stateRewardVector fuel) state copiedRow true st b st1 hl
        cases b with
        | false => simp [hl] at h
        | true =>
          simp only [hl] at h
          rw [List.getElem?_eq_getElem (by rw [k1]; exact hstate)] at h
          simp only [] at h
          obtain ⟨joined, hj, _⟩ := joinDuplicateTransitions_some
            (sortByColumn st1.matrix[state])
          simp [hj] at h

end JipRuns

/-! ## Theorems: the result and the termination of `jipConvert` -/

section JipClaims

variable {V : Type}

/-- C33. A call `jipConvert(state, matrix, alreadyVisited, …)` returns, and it returns
`true` if and only if every non-zero entry of the row of `state`, as it is when the call
starts, is constant, and `false` if and only if that row holds a non-zero entry that is
not constant. The call is one that is defined: the columns of the matrix are states, the
state reward vector has a reward for every state, and the row of `state` has no non-zero
constant entry to `state` itself unless `state` is in `alreadyVisited` with `false`.
Whenever a call returns at all, the value returned is the one stated. -/
theorem jipConvert_returns_iff_constant [Add V] [Mul V] (ops : RationalFunctionOps V)
    (stateRewardVector : Option (List V)) (fuel state : Nat) (st : JipState V)
    (row : List (MatrixEntry V)) (hr : ColumnsInRange st.matrix)
    (hrow : st.matrix[state]? = some row)
    (hrewards : RewardsCover stateRewardVector st.matrix.length)
    (hsafe : SelfSafe ops row state st) (hfuel : unvisitedCount st + 1 ≤ fuel) :
    (∃ (b : Bool) (st2 : JipState V),
        jipConvert ops stateRewardVector fuel state st = Except.ok (b, st2)
          ∧ (b = true ↔ ∀ e ∈ row, ops.isZero e.value = false → ops.isConstant e.value = true)
          ∧ (b = false ↔ ∃ e ∈ row, ops.isZero e.value = false
              ∧ ops.isConstant e.value = false))
      ∧ ∀ (fuel2 : Nat) (b : Bool) (st2 : JipState V),
          jipConvert ops stateRewardVector fuel2 state st = Except.ok (b, st2) →
            b = row.all (fun e => ops.isZero e.value || ops.isConstant e.value) := by
  have hvalue : ∀ (fuel2 : Nat) (b : Bool) (st2 : JipState V),
      jipConvert ops stateRewardVector fuel2 state st = Except.ok (b, st2) →
        b = row.all (fun e => ops.isZero e.value || ops.isConstant e.value) := by
    intro fuel2 b st2 h
    obtain ⟨_, copiedRow, st1, _, hcopied, hloop, _, _⟩ :=
      jipConvert_ok ops stateRewardVector fuel2 state st b st2 h
    rw [hrow] at hcopied
    cases hcopied
    exact jipLoop_result ops stateRewardVector _ state row true st b st1 hloop
  refine ⟨?_, hvalue⟩
  cases hres : jipConvert ops stateRewardVector fuel state st with
  | error e =>
    exact absurd ⟨hrewards, row, hrow, hsafe⟩
      (jipConvert_runs ops stateRewardVector fuel state st hr hfuel e hres).2
  | ok p =>
    obtain ⟨b, st2⟩ := p
    have hb := hvalue fuel b st2 hres
    refine ⟨b, st2, rfl, ?_, ?_⟩
    · rw [hb, List.all_eq_true]
      constructor
      · intro h e he hz
        simpa [hz] using h e he
      · intro h e he
        cases hz : ops.isZero e.value with
        | true => rfl
        | false => simpa using h e he hz
    · rw [hb, List.all_eq_false]
      constructor
      · rintro ⟨e, he, h⟩
        refine ⟨e, he, ?_⟩
        simpa using h
      · rintro ⟨e, he, h1, h2⟩
        exact ⟨e, he, by simp [h1, h2]⟩

end JipClaims

/-! ## Theorems: the lookups of `checkLocalMonotonicity` are in bounds -/

section InBounds

variable {V Var Region : Type} [DecidableEq V] [DecidableEq Var]

/-- C40. Let `order.sortStates(succs)` return a list of the length of the successor list
which, when its last element is not the sentinel, is a reordering of the successors. Then
every lookup of `checkLocalMonotonicity` is in bounds, so that the call returns a
classification; for a state with an empty row it returns before any element is read;
and when the walking loops are entered, each sorted element they read is found in the
successor list at an index that is a valid index of the list of classifications. -/
theorem checkLocalMonotonicity_in_bounds (ops : ValueOps V Var Region)
    (matrix : SparseMatrix V) (order : Order) (state : Nat) (var : Var) (region : Region)
    (derivatives : DerivativeCache V Var) (row : List (MatrixEntry V))
    (hrow : matrix.getRow state = some row)
    (hlen : (order.sortStates (row.map MatrixEntry.column)).length = row.length)
    (hperm : (order.sortStates (row.map MatrixEntry.column)).getLast?
        ≠ some matrix.columnCount →
      (order.sortStates (row.map MatrixEntry.column)).Perm (row.map MatrixEntry.column)) :
    (∃ result, checkLocalMonotonicity ops matrix order state var region derivatives
        = some result)
      ∧ (row = [] → checkLocalMonotonicity ops matrix order state var region derivatives
          = some (Monotonicity.Constant, derivatives))
      ∧ ((order.sortStates (row.map MatrixEntry.column)).getLast?
            ≠ some matrix.columnCount →
          ∀ index, index < row.length →
            ∃ s, (order.sortStates (row.map MatrixEntry.column))[index]? = some s
              ∧ s ∈ row.map MatrixEntry.column
              ∧ (row.map MatrixEntry.column).indexOf s
                  < (rowClassifications ops var region row derivatives).length
              ∧ (transitionMonAt (row.map MatrixEntry.column)
                  (rowClassifications ops var region row derivatives)
                  (order.sortStates (row.map MatrixEntry.column)) index).isSome = true) := by
  have hsome : ∀ x : Option (Monotonicity × DerivativeCache V Var),
      (∃ m, x.map Prod.fst = some m) → ∃ result, x = some result := by
    intro x hx
    cases x with
    | none => simp at hx
    | some result => exact ⟨result, rfl⟩
  refine ⟨?_, ?_, ?_⟩
  · apply hsome
    by_cases hall : ∀ e ∈ row, ops.isConstant e.value = true
    · exact ⟨_, checkLocalMonotonicity_constant_weights ops matrix order state var region
        derivatives row hrow hall⟩
    · have hnc : ∃ e ∈ row, ops.isConstant e.value = false := by
        push_neg at hall
        obtain ⟨e, he, hec⟩ := hall
        exact ⟨e, he, by simpa using hec⟩
      rw [checkLocalMonotonicity_eq_walk ops matrix order state var region derivatives row
        hrow hnc]
      by_cases hlast : (order.sortStates (row.map MatrixEntry.column)).getLast?
          = some matrix.columnCount
      · exact ⟨_, walkSorted_unplaced _ _ _ _ (by rw [hlen, List.length_map]) hlast⟩
      · have hpos : 0 < (row.map MatrixEntry.column).length := by
          obtain ⟨e, he, _⟩ := hnc
          rw [List.length_map]
          exact List.length_pos_of_mem he
        have hslen : (order.sortStates (row.map MatrixEntry.column)).length
            = (row.map MatrixEntry.column).length := by rw [hlen, List.length_map]
        have hclen : (row.map MatrixEntry.column).length
            = (rowClassifications ops var region row derivatives).length := by
          rw [rowClassifications_length, List.length_map]
        obtain ⟨hmslen, hread⟩ := transitionMonAt_sorted (row.map MatrixEntry.column)
          (rowClassifications ops var region row derivatives)
          (order.sortStates (row.map MatrixEntry.column)) hclen
          (fun s hs => (hperm hlast).subset hs)
        have hidx : (row.map MatrixEntry.column).length - 1
            < (order.sortStates (row.map MatrixEntry.column)).length := by omega
        have hl := List.getElem?_eq_getElem hidx
        have hne : (order.sortStates (row.map MatrixEntry.column))[
            (row.map MatrixEntry.column).length - 1] ≠ matrix.columnCount := by
          intro e
          apply hlast
          rw [List.getLast?_eq_getElem?, hslen, hl, e]
        exact ⟨_, walkSorted_eq_walkL_general matrix.columnCount _ _ _
          (((order.sortStates (row.map MatrixEntry.column)).filterMap
            (classificationOf (row.map MatrixEntry.column)
              (rowClassifications ops var region row derivatives))).take
            (if (row.map MatrixEntry.column).length = 2 then 1
             else (row.map MatrixEntry.column).length))
          _ hl hne _ rfl
          (by rw [List.length_take, hmslen, hslen]; split_ifs <;> omega)
          (fun i hi => by
            rw [hread i (by rw [hslen]; split_ifs at hi <;> omega),
              List.getElem?_take_of_lt hi])⟩
  · intro hempty
    subst hempty
    simp [checkLocalMonotonicity, hrow, scanRow]
  · intro hlast index hindex
    have hi : index < (order.sortStates (row.map MatrixEntry.column)).length := by
      rw [hlen]
      exact hindex
    have hmem : (order.sortStates (row.map MatrixEntry.column))[index]
        ∈ row.map MatrixEntry.column :=
      (hperm hlast).subset (List.getElem_mem hi)
    have hlt : (row.map MatrixEntry.column).indexOf
        (order.sortStates (row.map MatrixEntry.column))[index]
        < (rowClassifications ops var region row derivatives).length := by
      rw [rowClassifications_length, ← List.length_map row MatrixEntry.column]
      exact List.indexOf_lt_length.mpr hmem
    refine ⟨_, List.getElem?_eq_getElem hi, hmem, hlt, ?_⟩
    simp [transitionMonAt, List.getElem?_eq_getElem hi, List.getElem?_eq_getElem hlt]

end InBounds

/-! ## Theorems: what `setMonotonicity` leaves as it is -/

section Frame

variable {MR Var : Type}

/-- The pointer of the state after `setMonotonicity`: the pointer it had, or the address
of the new object when it was null. -/
theorem setMonotonicity_pointer (ops : MonotonicityResultOps MR Var)
    (r : LocalMonotonicityResult) (state : Nat) (var : Var) (mon : Monotonicity)
    (heap : Heap MR) (r2 : LocalMonotonicityResult) (heap2 : Heap MR)
    (h : r.setMonotonicity ops state var mon heap = some (r2, heap2)) :
    r2.stateMonRes
      = match r.stateMonRes[state]? with
        | some (some _) => r.stateMonRes
        | _ => r.stateMonRes.set state (some heap.length) := by
  have hupdate : ∀ (r1 : LocalMonotonicityResult) (address : Nat) (heap3 : Heap MR),
      r1.updateStatesMonotone ops state address mon heap3 = some (r2, heap2) →
        r2.stateMonRes = r1.stateMonRes := by
    intro r1 address heap3 hu
    simp only [LocalMonotonicityResult.updateStatesMonotone] at hu
    split at hu
    · split at hu
      · exact Option.noConfusion hu
      · cases hu
        rfl
    · split at hu
      · exact Option.noConfusion hu
      · split at hu
        · exact Option.noConfusion hu
        · split at hu
          · split at hu
            · exact Option.noConfusion hu
            · cases hu
              rfl
          · cases hu
            rfl
  cases hentry : r.stateMonRes[state]? with
  | none =>
    simp [LocalMonotonicityResult.setMonotonicity,
      LocalMonotonicityResult.ensureStateResult, hentry] at h
  | some pointer =>
    cases pointer with
    | none =>
      simp only [LocalMonotonicityResult.setMonotonicity,
        LocalMonotonicityResult.ensureStateResult, hentry] at h
      split at h
      · exact Option.noConfusion h
      · split at h
        · exact Option.noConfusion h
        · rw [hupdate _ _ _ h]
    | some address =>
      simp only [LocalMonotonicityResult.setMonotonicity,
        LocalMonotonicityResult.ensureStateResult, hentry] at h
      split at h
      · exact Option.noConfusion h
      · split at h
        · exact Option.noConfusion h
        · rw [hupdate _ _ _ h]

theorem distinctPointers_construct (ops : MonotonicityResultOps MR Var)
    (numberOfStates : Nat) (heap : Heap MR) :
    DistinctPointers (LocalMonotonicityResult.construct ops numberOfStates heap).1 := by
  intro i j address _ hi
  simp only [LocalMonotonicityResult.construct, List.getElem?_replicate] at hi
  split at hi <;> simp at hi

/-- Method `setMonotonicity` keeps the per-state results of different states apart. -/
theorem distinctPointers_setMonotonicity (ops : MonotonicityResultOps MR Var)
    (r : LocalMonotonicityResult) (state : Nat) (var : Var) (mon : Monotonicity)
    (heap : Heap MR) (r2 : LocalMonotonicityResult) (heap2 : Heap MR)
    (hwf : WellFormed r heap) (hd : DistinctPointers r)
    (h : r.setMonotonicity ops state var mon heap = some (r2, heap2)) :
    DistinctPointers r2 := by
  have hptr := setMonotonicity_pointer ops r state var mon heap r2 heap2 h
  have hfresh : ∀ k : Nat, r.stateMonRes[k]? ≠ some (some heap.length) := by
    intro k hk
    have := (hwf.2.2 heap.length (List.getElem?_mem hk)).1
    omega
  split at hptr
  · unfold DistinctPointers
    rw [hptr]
    exact hd
  · unfold DistinctPointers
    rw [hptr]
    intro i j address hij hi hj
    by_cases his : state = i
    · subst his
      have hjs : state ≠ j := hij
      rw [List.getElem?_set_ne hjs] at hj
      by_cases hlt : state < r.stateMonRes.length
      · rw [List.getElem?_set_self hlt] at hi
        cases hi
        exact hfresh j hj
      · rw [List.getElem?_eq_none (by simp; omega)] at hi
        exact Option.noConfusion hi
    · rw [List.getElem?_set_ne his] at hi
      by_cases hjs : state = j
      · subst hjs
        by_cases hlt : state < r.stateMonRes.length
        · rw [List.getElem?_set_self hlt] at hj
          cases hj
          exact hfresh i hi
        · rw [List.getElem?_eq_none (by simp; omega)] at hj
          exact Option.noConfusion hj
      · rw [List.getElem?_set_ne hjs] at hj
        exact hd i j address hij hi hj

/-- C39. For every `LocalMonotonicityResult` in which no two states share a per-state
result, and states `s ≠ t`, the call `setMonotonicity(s, v, m)` changes neither the bit
of `t` in `statesMonotone` nor `getMonotonicity(t, w)` for any parameter `w`, and it
changes neither the member `done` nor `indexMinimize` and `indexMaximize`. -/
theorem setMonotonicity_frame (ops : MonotonicityResultOps MR Var)
    (r : LocalMonotonicityResult) (heap : Heap MR) (s t : Nat) (v w : Var)
    (m : Monotonicity) (hwf : WellFormed r heap) (hd : DistinctPointers r)
    (hs : s < r.stateMonRes.length) (hst : s ≠ t) :
    ∃ (r2 : LocalMonotonicityResult) (heap2 : Heap MR),
      r.setMonotonicity ops s v m heap = some (r2, heap2)
        ∧ r2.statesMonotone[t]? = r.statesMonotone[t]?
        ∧ r2.getMonotonicity ops t w heap2 = r.getMonotonicity ops t w heap
        ∧ r2.done = r.done
        ∧ r2.indexMinimize = r.indexMinimize
        ∧ r2.indexMaximize = r.indexMaximize := by
  obtain ⟨address, heap2, heq, _, _, _, _, _, hframe⟩ :=
    setMonotonicity_spec ops r s v m heap hwf hs
  have hptr := setMonotonicity_pointer ops r s v m heap _ heap2 heq
  simp only [] at hptr
  refine ⟨_, heap2, heq, List.getElem?_set_ne hst, ?_, rfl, rfl, rfl⟩
  simp only [LocalMonotonicityResult.getMonotonicity, List.getElem?_set_ne hst]
  cases hentry : r.stateMonRes[t]? with
  | none => rfl
  | some pointer =>
    cases pointer with
    | none => rfl
    | some b =>
      simp only []
      obtain ⟨hb, hbg⟩ := hwf.2.2 b (List.getElem?_mem hentry)
      have hba : b ≠ address := by
        intro hba
        subst hba
        have hnew : (r.stateMonRes.set s (some b))[s]? = some (some b) :=
          List.getElem?_set_self hs
        rw [hptr] at hnew
        split at hnew
        · exact hd t s b (fun e => hst e.symm) hentry hnew
        · rw [List.getElem?_set_self hs] at hnew
          cases hnew
          omega
      rw [hframe b hb hba hbg]

end Frame

/-! ## Theorems: sets and maps of tree states -/

section TreeSets

theorem mem_setInsert (x y : Nat) (l : List Nat) : y ∈ setInsert x l ↔ y = x ∨ y ∈ l := by
  unfold setInsert
  split_ifs with h
  · constructor
    · exact Or.inr
    · rintro (h1 | h1)
      · exact h1 ▸ h
      · exact h1
  · exact List.mem_orderedInsert _

theorem setInsert_nodup (x : Nat) (l : List Nat) (h : l.Nodup) : (setInsert x l).Nodup := by
  unfold setInsert
  split_ifs with hx
  · exact h
  · exact (List.perm_orderedInsert _ x l).nodup_iff.mpr (List.nodup_cons.mpr ⟨hx, h⟩)

theorem setInsert_ne_nil (x : Nat) (l : List Nat) : setInsert x l ≠ [] := by
  intro h
  have : x ∈ setInsert x l := (mem_setInsert x x l).mpr (Or.inl rfl)
  rw [h] at this
  simp at this

theorem mem_insertAll (states target : List Nat) (y : Nat) :
    y ∈ insertAll states target ↔ y ∈ states ∨ y ∈ target := by
  induction states generalizing target with
  | nil => simp [insertAll]
  | cons a rest ih =>
    simp only [insertAll, ih, mem_setInsert, List.mem_cons]
    tauto

theorem insertAll_nodup (states target : List Nat) (h : target.Nodup) :
    (insertAll states target).Nodup := by
  induction states generalizing target with
  | nil => exact h
  | cons a rest ih => exact ih _ (setInsert_nodup a target h)

/-- A duplicate-free list that lies within another is no longer than it. -/
theorem length_le_of_nodup_subset (l1 l2 : List Nat) (h : l1.Nodup)
    (hsub : ∀ x ∈ l1, x ∈ l2) : l1.length ≤ l2.length :=
  (List.subperm_of_subset h hsub).length_le

/-- Adding a new element to a set makes it larger. -/
theorem length_lt_insertAll (states target : List Nat) (h : target.Nodup) (x : Nat)
    (hx : x ∈ states) (hnew : x ∉ target) :
    target.length < (insertAll states target).length := by
  have h1 : (x :: target).length ≤ (insertAll states target).length := by
    apply length_le_of_nodup_subset _ _ (List.nodup_cons.mpr ⟨hnew, h⟩)
    intro y hy
    rcases List.mem_cons.mp hy with hy | hy
    · exact (mem_insertAll _ _ _).mpr (Or.inl (hy ▸ hx))
    · exact (mem_insertAll _ _ _).mpr (Or.inr hy)
  simpa using h1

theorem get_assocSet_self (m : TreeMap) (state : Nat) (set : List Nat) :
    TreeMap.get (assocSet state set m) state = set := by
  simp [TreeMap.get, lookup_assocSet_self]

theorem get_assocSet_ne (m : TreeMap) (state other : Nat) (set : List Nat)
    (h : other ≠ state) : TreeMap.get (assocSet state set m) other = m.get other := by
  simp [TreeMap.get, lookup_assocSet_ne _ _ _ _ h]

theorem get_touch (m : TreeMap) (state other : Nat) :
    (m.touch state).get other = m.get other := by
  unfold TreeMap.touch
  cases h : m.lookup state with
  | some set => rfl
  | none =>
    simp only []
    by_cases ho : other = state
    · subst ho
      rw [get_assocSet_self]
      simp [TreeMap.get, h]
    · exact get_assocSet_ne m state other [] ho

end TreeSets

/-! ## Theorems: one step of `updateTreeStates` -/

section TreeStep

variable {V : Type}

/-- What the body of the loop over the entries does, in terms of the sets the map
denotes: either no set and not the new working set changes, and for a constant entry the
tree states of `row` are among those of the column; or the entry is constant, the tree
states of `row`, one of which is new, are added to those of the column, and the column
is put into the new working set. -/
theorem processEntry_cases (ops : RationalFunctionOps V) (row : Nat) (entry : MatrixEntry V)
    (acc : TreeScan) :
    ((processEntry ops row entry acc).newWorkingSet = acc.newWorkingSet
        ∧ (∀ state : Nat, (processEntry ops row entry acc).states.get state
            = acc.states.get state)
        ∧ (ops.isConstant entry.value = true →
            ∀ x ∈ acc.states.get row, x ∈ acc.states.get entry.column))
      ∨ (ops.isConstant entry.value = true
        ∧ (processEntry ops row entry acc).newWorkingSet
            = setInsert entry.column acc.newWorkingSet
        ∧ (∀ state : Nat, state ≠ entry.column →
            (processEntry ops row entry acc).states.get state = acc.states.get state)
        ∧ (processEntry ops row entry acc).states.get entry.column
            = insertAll (acc.states.get row) (acc.states.get entry.column)
        ∧ ∃ x ∈ acc.states.get row, x ∉ acc.states.get entry.column) := by
  have hget2 : ∀ (b : Bool) (state : Nat),
      (if b = true then acc.states.touch row
        else (acc.states.touch row).touch entry.column).get state
        = acc.states.get state := by
    intro b state
    split_ifs
    · exact get_touch _ _ _
    · rw [get_touch, get_touch]
  by_cases hc : ops.isConstant entry.value = true
  · have hform : processEntry ops row entry acc
        = if ((acc.states.touch row).get row).all
              (fun state => decide (state ∈
                (if ((acc.states.touch row).get row).isEmpty = true then acc.states.touch row
                  else (acc.states.touch row).touch entry.column).get entry.column)) = true
          then { acc with
                 states := if ((acc.states.touch row).get row).isEmpty = true
                   then acc.states.touch row
                   else (acc.states.touch row).touch entry.column }
          else { states := assocSet entry.column
                   (insertAll ((acc.states.touch row).get row)
                     ((if ((acc.states.touch row).get row).isEmpty = true
                       then acc.states.touch row
                       else (acc.states.touch row).touch entry.column).get entry.column))
                   (if ((acc.states.touch row).get row).isEmpty = true
                     then acc.states.touch row
                     else (acc.states.touch row).touch entry.column)
                 newWorkingSet := setInsert entry.column acc.newWorkingSet } := by
      unfold processEntry
      rw [if_pos hc]
    rw [hform, hget2 _ entry.column, get_touch]
    by_cases hsub : (acc.states.get row).all
        (fun state => decide (state ∈ acc.states.get entry.column)) = true
    · left
      rw [if_pos hsub]
      refine ⟨rfl, hget2 _, fun _ x hx => ?_⟩
      simpa using List.all_eq_true.mp hsub x hx
    · right
      rw [if_neg hsub]
      refine ⟨hc, rfl, ?_, ?_, ?_⟩
      · intro state hne
        simp only []
        rw [get_assocSet_ne _ _ _ _ hne]
        exact hget2 _ state
      · simp only []
        rw [get_assocSet_self]
      · have hex := List.all_eq_false.mp (Bool.eq_false_iff.mpr hsub)
        obtain ⟨x, hx, hn⟩ := hex
        exact ⟨x, hx, by simpa using hn⟩
  · have hform : processEntry ops row entry acc = acc := by
      unfold processEntry
      rw [if_neg hc]
    rw [hform]
    left
    exact ⟨rfl, fun _ => rfl, fun h => absurd h hc⟩

end TreeStep

/-! ## Theorems: the loops of `updateTreeStates` -/

section TreeLoops

variable {V : Type}

theorem advances_refl (columns elements : List Nat) (acc : TreeScan) :
    acc.Advances columns elements acc :=
  ⟨fun _ _ h => h, fun _ h => h, fun _ h => Or.inl h, fun _ _ h hn => absurd h hn,
    fun h => ⟨h, le_refl _, Or.inl rfl⟩⟩

theorem advances_trans (columns elements : List Nat) (acc acc1 acc2 : TreeScan)
    (h1 : acc.Advances columns elements acc1) (h2 : acc1.Advances columns elements acc2) :
    acc.Advances columns elements acc2 := by
  obtain ⟨a1, a2, a3, a4, a5⟩ := h1
  obtain ⟨b1, b2, b3, b4, b5⟩ := h2
  refine ⟨fun s x h => b1 s x (a1 s x h), fun y h => b2 y (a2 y h), ?_, ?_, ?_⟩
  · intro y hy
    rcases b3 y hy with h | h
    · exact a3 y h
    · exact Or.inr h
  · intro s x hx hn
    by_cases hmid : x ∈ acc1.states.get s
    · exact b2 s (a4 s x hmid hn)
    · exact b4 s x hx hmid
  · intro hw
    obtain ⟨w1, p1, n1⟩ := a5 hw
    obtain ⟨w2, p2, n2⟩ := b5 w1
    refine ⟨w2, le_trans p1 p2, ?_⟩
    rcases n2 with n2 | n2
    · rcases n1 with n1 | n1
      · exact Or.inl (n2.trans n1)
      · exact Or.inr ⟨lt_of_lt_of_le n1.1 p2, n2 ▸ n1.2⟩
    · exact Or.inr ⟨lt_of_le_of_lt p1 n2.1, n2.2⟩

theorem treePotential_le (columns : List Nat) (m m2 : TreeMap)
    (h : ∀ state : Nat, (m.get state).length ≤ (m2.get state).length) :
    treePotential columns m ≤ treePotential columns m2 :=
  List.sum_le_sum (fun state _ => h state)

theorem treePotential_lt (columns : List Nat) (m m2 : TreeMap)
    (h : ∀ state : Nat, (m.get state).length ≤ (m2.get state).length) (state : Nat)
    (hstate : state ∈ columns) (hlt : (m.get state).length < (m2.get state).length) :
    treePotential columns m < treePotential columns m2 :=
  List.sum_lt_sum _ _ (fun s _ => h s) ⟨state, hstate, hlt⟩

theorem treePotential_bound (columns elements : List Nat) (m : TreeMap)
    (h : m.Within elements) :
    treePotential columns m ≤ columns.length * elements.length := by
  have hle := List.sum_le_card_nsmul (columns.map (fun state => (m.get state).length))
    elements.length (by
      intro n hn
      obtain ⟨state, _, rfl⟩ := List.mem_map.mp hn
      exact length_le_of_nodup_subset _ _ (h state).1 (h state).2)
  simpa [treePotential] using hle

/-- The body of the loop over the entries advances the scan, and puts the tree states
that `row` has before it among those of the column of a constant entry. -/
theorem processEntry_advances (ops : RationalFunctionOps V) (columns elements : List Nat)
    (row : Nat) (entry : MatrixEntry V) (acc : TreeScan) (hcol : entry.column ∈ columns) :
    acc.Advances columns elements (processEntry ops row entry acc)
      ∧ (ops.isConstant entry.value = true →
          ∀ x ∈ acc.states.get row,
            x ∈ (processEntry ops row entry acc).states.get entry.column) := by
  rcases processEntry_cases ops row entry acc with ⟨hn, hget, hsub⟩ | ⟨hc, hn, hne, hcolumn, x0, hx0, hx0n⟩
  · refine ⟨⟨?_, ?_, ?_, ?_, ?_⟩, ?_⟩
    · intro s x hx
      rw [hget]
      exact hx
    · intro y hy
      rw [hn]
      exact hy
    · intro y hy
      rw [hn] at hy
      exact Or.inl hy
    · intro s x hx hnot
      rw [hget] at hx
      exact absurd hx hnot
    · intro hw
      refine ⟨fun s => by rw [hget]; exact hw s, ?_, Or.inl hn⟩
      exact treePotential_le _ _ _ (fun s => by rw [hget])
    · intro hc x hx
      rw [hget]
      exact hsub hc x hx
  · have hmono : ∀ (s x : Nat), x ∈ acc.states.get s →
        x ∈ (processEntry ops row entry acc).states.get s := by
      intro s x hx
      by_cases hs : s = entry.column
      · subst hs
        rw [hcolumn]
        exact (mem_insertAll _ _ _).mpr (Or.inr hx)
      · rw [hne s hs]
        exact hx
    refine ⟨⟨hmono, ?_, ?_, ?_, ?_⟩, ?_⟩
    · intro y hy
      rw [hn]
      exact (mem_setInsert _ _ _).mpr (Or.inr hy)
    · intro y hy
      rw [hn] at hy
      rcases (mem_setInsert _ _ _).mp hy with h | h
      · exact Or.inr (h ▸ hcol)
      · exact Or.inl h
    · intro s x hx hnot
      by_cases hs : s = entry.column
      · rw [hn, hs]
        exact (mem_setInsert _ _ _).mpr (Or.inl rfl)
      · rw [hne s hs] at hx
        exact absurd hx hnot
    · intro hw
      have hw2 : (processEntry ops row entry acc).states.Within elements := by
        intro s
        by_cases hs : s = entry.column
        · subst hs
          rw [hcolumn]
          refine ⟨insertAll_nodup _ _ (hw _).1, fun x hx => ?_⟩
          rcases (mem_insertAll _ _ _).mp hx with h | h
          · exact (hw row).2 x h
          · exact (hw _).2 x h
        · rw [hne s hs]
          exact hw s
      have hlen : ∀ s : Nat, (acc.states.get s).length
          ≤ ((processEntry ops row entry acc).states.get s).length := fun s =>
        length_le_of_nodup_subset _ _ (hw s).1 (hmono s)
      refine ⟨hw2, treePotential_le _ _ _ hlen, Or.inr ⟨?_, ?_⟩⟩
      · apply treePotential_lt _ _ _ hlen entry.column hcol
        rw [hcolumn]
        exact length_lt_insertAll _ _ (hw _).1 x0 hx0 hx0n
      · rw [hn]
        exact setInsert_ne_nil _ _
    · intro _ x hx
      rw [hcolumn]
      exact (mem_insertAll _ _ _).mpr (Or.inl hx)

/-- The loop over the entries of a row advances the scan, and afterwards the tree states
of `row` are among those of the column of every constant entry, unless `row` is in the
new working set. -/
theorem processEntries_advances (ops : RationalFunctionOps V) (columns elements : List Nat)
    (row : Nat) (entries : List (MatrixEntry V)) (acc : TreeScan)
    (hcols : ∀ e ∈ entries, e.column ∈ columns) :
    acc.Advances columns elements (processEntries ops row entries acc)
      ∧ ∀ e ∈ entries, ops.isConstant e.value = true →
          (∀ x ∈ (processEntries ops row entries acc).states.get row,
              x ∈ (processEntries ops row entries acc).states.get e.column)
            ∨ row ∈ (processEntries ops row entries acc).newWorkingSet := by
  induction entries generalizing acc with
  | nil => exact ⟨advances_refl _ _ _, fun e he => absurd he (List.not_mem_nil e)⟩
  | cons entry rest ih =>
    obtain ⟨s1, s2⟩ := processEntry_advances ops columns elements row entry acc
      (hcols entry (List.mem_cons_self _ _))
    obtain ⟨i1, i2⟩ := ih (processEntry ops row entry acc)
      (fun e he => hcols e (List.mem_cons_of_mem _ he))
    have hall := advances_trans _ _ _ _ _ s1 i1
    refine ⟨hall, ?_⟩
    intro e he hc
    rcases List.mem_cons.mp he with he | he
    · subst he
      by_cases hchanged : ∃ x ∈ (processEntries ops row (e :: rest) acc).states.get row,
          x ∉ acc.states.get row
      · obtain ⟨x, hx, hn⟩ := hchanged
        exact Or.inr (hall.2.2.2.1 row x hx hn)
      · left
        intro x hx
        have hold : x ∈ acc.states.get row := by
          by_contra hn
          exact hchanged ⟨x, hx, hn⟩
        exact i1.1 _ x (s2 hc x hold)
    · exact i2 e he hc

theorem processRow_advances (ops : RationalFunctionOps V)
    (stateRewardVector : Option (List V)) (backwardsTransitions : SparseMatrix V)
    (elements : List Nat) (row : Nat) (acc acc1 : TreeScan)
    (h : processRow ops stateRewardVector backwardsTransitions row acc = Except.ok acc1) :
    acc.Advances (matrixColumns backwardsTransitions) elements acc1
      ∧ ∀ pred, BackwardStep ops stateRewardVector backwardsTransitions row pred →
          (∀ x ∈ acc1.states.get row, x ∈ acc1.states.get pred)
            ∨ row ∈ acc1.newWorkingSet := by
  simp only [processRow] at h
  cases hrew : hasReward ops stateRewardVector row with
  | error e => simp [hrew] at h
  | ok rewarded =>
    cases rewarded with
    | true =>
      simp only [hrew, Except.ok.injEq] at h
      subst h
      refine ⟨advances_refl _ _ _, ?_⟩
      intro pred hstep
      have hfalse := hstep.1
      rw [hrew] at hfalse
      simp at hfalse
    | false =>
      simp only [hrew] at h
      cases hrow : backwardsTransitions.getRow row with
      | none => simp [hrow] at h
      | some entries =>
        simp only [hrow, Except.ok.injEq] at h
        subst h
        have hcols : ∀ e ∈ entries, e.column ∈ matrixColumns backwardsTransitions := by
          intro e he
          apply List.mem_map_of_mem
          exact List.mem_flatten.mpr ⟨entries, List.getElem?_mem hrow, he⟩
        obtain ⟨p1, p2⟩ := processEntries_advances ops
          (matrixColumns backwardsTransitions) elements row entries acc hcols
        refine ⟨p1, ?_⟩
        intro pred hstep
        obtain ⟨_, entries2, entry, hrow2, hmem, hcol, hc⟩ := hstep
        rw [hrow] at hrow2
        cases hrow2
        rw [← hcol]
        exact p2 entry hmem hc

end TreeLoops

/-! ## Theorems: the search of `updateTreeStates` -/

section TreeSearch

variable {V : Type}

/-- The invariant of the search carried over a part of the scan that advances it. -/
theorem closedExcept_of_advances (ops : RationalFunctionOps V)
    (stateRewardVector : Option (List V)) (backwardsTransitions : SparseMatrix V)
    (columns elements : List Nat) (acc acc1 : TreeScan)
    (hadv : acc.Advances columns elements acc1) (pending pending1 : List Nat)
    (hclosed : ClosedExcept ops stateRewardVector backwardsTransitions pending acc.states)
    (hpend : ∀ row pred, BackwardStep ops stateRewardVector backwardsTransitions row pred →
      row ∈ pending →
        (∀ x ∈ acc1.states.get row, x ∈ acc1.states.get pred) ∨ row ∈ pending1)
    (hnew : ∀ y ∈ acc1.newWorkingSet, y ∈ pending1) :
    ClosedExcept ops stateRewardVector backwardsTransitions pending1 acc1.states := by
  intro row pred hstep
  rcases hclosed row pred hstep with hsub | hmem
  · by_cases hchanged : ∃ x ∈ acc1.states.get row, x ∉ acc.states.get row
    · obtain ⟨x, hx, hn⟩ := hchanged
      exact Or.inr (hnew row (hadv.2.2.2.1 row x hx hn))
    · left
      intro x hx
      have hold : x ∈ acc.states.get row := by
        by_contra hn
        exact hchanged ⟨x, hx, hn⟩
      exact hadv.1 pred x (hsub x hold)
  · exact hpend row pred hstep hmem

theorem processWorkingSet_spec (ops : RationalFunctionOps V)
    (stateRewardVector : Option (List V)) (backwardsTransitions : SparseMatrix V)
    (elements : List Nat) (workingSet : List Nat) (acc acc2 : TreeScan)
    (h : processWorkingSet ops stateRewardVector backwardsTransitions workingSet acc
      = Except.ok acc2) :
    acc.Advances (matrixColumns backwardsTransitions) elements acc2
      ∧ (ClosedExcept ops stateRewardVector backwardsTransitions
            (workingSet ++ acc.newWorkingSet) acc.states →
          ClosedExcept ops stateRewardVector backwardsTransitions acc2.newWorkingSet
            acc2.states) := by
  induction workingSet generalizing acc with
  | nil =>
    simp only [processWorkingSet, Except.ok.injEq] at h
    subst h
    exact ⟨advances_refl _ _ _, fun hc => by simpa using hc⟩
  | cons row rest ih =>
    simp only [processWorkingSet] at h
    cases hrow : processRow ops stateRewardVector backwardsTransitions row acc with
    | error e => simp [hrow] at h
    | ok acc1 =>
      simp only [hrow] at h
      obtain ⟨r1, r2⟩ := processRow_advances ops stateRewardVector backwardsTransitions
        elements row acc acc1 hrow
      obtain ⟨i1, i2⟩ := ih acc1 h
      refine ⟨advances_trans _ _ _ _ _ r1 i1, fun hclosed => i2 ?_⟩
      apply closedExcept_of_advances ops stateRewardVector backwardsTransitions _ elements
        acc acc1 r1 _ _ hclosed
      · intro row2 pred hstep hmem
        rcases List.mem_append.mp hmem with hm | hm
        · rcases List.mem_cons.mp hm with hm | hm
          · subst hm
            rcases r2 pred hstep with hs | hs
            · exact Or.inl hs
            · exact Or.inr (List.mem_append.mpr (Or.inr hs))
          · exact Or.inr (List.mem_append.mpr (Or.inl hm))
        · exact Or.inr (List.mem_append.mpr (Or.inr (r1.2.1 row2 hm)))
      · intro y hy
        exact List.mem_append.mpr (Or.inr hy)

theorem hasReward_ok (ops : RationalFunctionOps V) (stateRewardVector : Option (List V))
    (n row : Nat) (hrewards : RewardsCover stateRewardVector n) (hrow : row < n) :
    ∃ b, hasReward ops stateRewardVector row = Except.ok b := by
  unfold hasReward
  cases hrw : stateRewardVector with
  | none => exact ⟨false, rfl⟩
  | some rewards =>
    have hlen := hrewards rewards hrw
    simp only []
    rw [List.getElem?_eq_getElem (by omega)]
    exact ⟨_, rfl⟩

/-- A failure of the loop over the working set is no lack of fuel, and does not occur
when the states of the working set are rows and have rewards. -/
theorem processWorkingSet_error (ops : RationalFunctionOps V)
    (stateRewardVector : Option (List V)) (backwardsTransitions : SparseMatrix V)
    (workingSet : List Nat) (acc : TreeScan) (e : JipFailure)
    (h : processWorkingSet ops stateRewardVector backwardsTransitions workingSet acc
      = Except.error e) :
    e ≠ JipFailure.outOfFuel
      ∧ ¬ (RewardsCover stateRewardVector backwardsTransitions.rows.length
        ∧ ∀ row ∈ workingSet, row < backwardsTransitions.rows.length) := by
  induction workingSet generalizing acc with
  | nil => simp [processWorkingSet] at h
  | cons row rest ih =>
    simp only [processWorkingSet] at h
    cases hrow : processRow ops stateRewardVector backwardsTransitions row acc with
    | ok acc1 =>
      simp only [hrow] at h
      obtain ⟨i1, i2⟩ := ih acc1 h
      exact ⟨i1, fun hgood => i2 ⟨hgood.1, fun r hr => hgood.2 r (List.mem_cons_of_mem _ hr)⟩⟩
    | error e2 =>
      simp only [hrow, Except.error.injEq] at h
      subst h
      simp only [processRow] at hrow
      cases hrew : hasReward ops stateRewardVector row with
      | error e3 =>
        simp only [hrew, Except.error.injEq] at hrow
        subst hrow
        constructor
        · unfold hasReward at hrew
          split at hrew
          · exact Except.noConfusion hrew
          · split at hrew
            · cases hrew
              decide
            · exact Except.noConfusion hrew
        · intro hgood
          obtain ⟨b, hb⟩ := hasReward_ok ops stateRewardVector _ row hgood.1
            (hgood.2 row (List.mem_cons_self _ _))
          rw [hb] at hrew
          exact Except.noConfusion hrew
      | ok rewarded =>
        cases rewarded with
        | true => simp [hrew] at hrow
        | false =>
          simp only [hrew] at hrow
          cases hget : backwardsTransitions.getRow row with
          | some entries => simp [hget] at hrow
          | none =>
            simp only [hget, Except.error.injEq] at hrow
            subst hrow
            refine ⟨by decide, fun hgood => ?_⟩
            have hlt := hgood.2 row (List.mem_cons_self _ _)
            simp only [SparseMatrix.getRow] at hget
            rw [List.getElem?_eq_getElem hlt] at hget
            exact Option.noConfusion hget

theorem isEmpty_eq_false_of_ne_nil (l : List Nat) (h : l ≠ []) : l.isEmpty = false := by
  cases l with
  | nil => exact absurd rfl h
  | cons a rest => rfl

/-- What the `while` loop of a parameter that returns has done: the sets have only
grown, duplicate-free sets of `elements` are so still, and the search is complete when
every step it had not to make was complete before. -/
theorem treeStatesLoop_spec (ops : RationalFunctionOps V)
    (stateRewardVector : Option (List V)) (backwardsTransitions : SparseMatrix V)
    (elements : List Nat) (fuel : Nat) :
    ∀ (workingSet : List Nat) (m m2 : TreeMap),
      treeStatesLoop ops stateRewardVector backwardsTransitions fuel workingSet m
          = Except.ok m2 →
        (∀ (state x : Nat), x ∈ m.get state → x ∈ m2.get state)
          ∧ (m.Within elements → m2.Within elements)
          ∧ (ClosedExcept ops stateRewardVector backwardsTransitions workingSet m →
              ClosedExcept ops stateRewardVector backwardsTransitions [] m2) := by
  induction fuel with
  | zero =>
    intro workingSet m m2 h
    simp only [treeStatesLoop] at h
    cases workingSet with
    | nil =>
      simp only [List.isEmpty_nil, if_true, Except.ok.injEq] at h
      subst h
      exact ⟨fun _ _ hx => hx, fun hw => hw, fun hc => hc⟩
    | cons a rest => simp at h
  | succ fuel ih =>
    intro workingSet m m2 h
    simp only [treeStatesLoop] at h
    cases workingSet with
    | nil =>
      simp only [List.isEmpty_nil, if_true, Except.ok.injEq] at h
      subst h
      exact ⟨fun _ _ hx => hx, fun hw => hw, fun hc => hc⟩
    | cons a rest =>
      simp only [List.isEmpty_cons, Bool.false_eq_true, if_false] at h
      cases hpass : processWorkingSet ops stateRewardVector backwardsTransitions (a :: rest)
          { states := m, newWorkingSet := [] } with
      | error e => simp [hpass] at h
      | ok acc =>
        simp only [hpass] at h
        obtain ⟨p1, p2⟩ := processWorkingSet_spec ops stateRewardVector
          backwardsTransitions elements (a :: rest) _ acc hpass
        obtain ⟨i1, i2, i3⟩ := ih acc.newWorkingSet acc.states m2 h
        refine ⟨fun s x hx => i1 s x (p1.1 s x hx), fun hw => i2 (p1.2.2.2.2 hw).1, ?_⟩
        intro hclosed
        exact i3 (p2 (by simpa using hclosed))

/-- A failure of the `while` loop of a parameter is no lack of fuel when the fuel exceeds
what the sets can still grow by; and the loop does not fail when, besides, the states of
the working set and the columns of the matrix are rows and have rewards. -/
theorem treeStatesLoop_runs (ops : RationalFunctionOps V)
    (stateRewardVector : Option (List V)) (backwardsTransitions : SparseMatrix V)
    (elements : List Nat) (fuel : Nat) :
    ∀ (workingSet : List Nat) (m : TreeMap), m.Within elements →
      (matrixColumns backwardsTransitions).length * elements.length + 1
          ≤ fuel + treePotential (matrixColumns backwardsTransitions) m →
      ∀ e, treeStatesLoop ops stateRewardVector backwardsTransitions fuel workingSet m
          = Except.error e →
        e ≠ JipFailure.outOfFuel
          ∧ ¬ (RewardsCover stateRewardVector backwardsTransitions.rows.length
            ∧ (∀ row ∈ workingSet, row < backwardsTransitions.rows.length)
            ∧ ∀ c ∈ matrixColumns backwardsTransitions,
                c < backwardsTransitions.rows.length) := by
  induction fuel with
  | zero =>
    intro workingSet m hw hfuel
    have := treePotential_bound (matrixColumns backwardsTransitions) elements m hw
    omega
  | succ fuel ih =>
    intro workingSet m hw hfuel e h
    simp only [treeStatesLoop] at h
    cases workingSet with
    | nil => simp at h
    | cons a rest =>
      simp only [List.isEmpty_cons, Bool.false_eq_true, if_false] at h
      cases hpass : processWorkingSet ops stateRewardVector backwardsTransitions (a :: rest)
          { states := m, newWorkingSet := [] } with
      | error e2 =>
        simp only [hpass, Except.error.injEq] at h
        subst h
        obtain ⟨e1, e2⟩ := processWorkingSet_error ops stateRewardVector
          backwardsTransitions (a :: rest) _ _ hpass
        exact ⟨e1, fun hgood => e2 ⟨hgood.1, hgood.2.1⟩⟩
      | ok acc =>
        simp only [hpass] at h
        obtain ⟨p1, _⟩ := processWorkingSet_spec ops stateRewardVector
          backwardsTransitions elements (a :: rest) _ acc hpass
        obtain ⟨w1, pot, hnew⟩ := p1.2.2.2.2 hw
        simp only [] at pot hnew
        rcases hnew with hnil | ⟨hlt, _⟩
        · rw [hnil] at h
          cases fuel with
          | zero => simp [treeStatesLoop] at h
          | succ f => simp [treeStatesLoop] at h
        · obtain ⟨i1, i2⟩ := ih acc.newWorkingSet acc.states w1 (by omega) e h
          refine ⟨i1, fun hgood => i2 ⟨hgood.1, ?_, hgood.2.2⟩⟩
          intro row hrow
          rcases p1.2.2.1 row hrow with hr | hr
          · simp at hr
          · exact hgood.2.2 row hr

end TreeSearch

/-! ## Theorems: the loop over the parameters of `updateTreeStates` -/

section TreeParameters

variable {V Var : Type} [DecidableEq Var]

theorem absentParameterLoop_error (ops : RationalFunctionOps V)
    (stateRewardVector : Option (List V)) (backwardsTransitions : SparseMatrix V)
    (workingSet : List Nat) (e : JipFailure)
    (h : absentParameterLoop ops stateRewardVector backwardsTransitions workingSet
      = Except.error e) : e ≠ JipFailure.outOfFuel := by
  induction workingSet with
  | nil => simp [absentParameterLoop] at h
  | cons row rest ih =>
    simp only [absentParameterLoop] at h
    cases hrew : hasReward ops stateRewardVector row with
    | error e3 =>
      simp only [hrew, Except.error.injEq] at h
      subst h
      unfold hasReward at hrew
      split at hrew
      · exact Except.noConfusion hrew
      · split at hrew
        · cases hrew
          decide
        · exact Except.noConfusion hrew
    | ok rewarded =>
      cases rewarded with
      | true =>
        simp only [hrew] at h
        exact ih h
      | false =>
        simp only [hrew] at h
        cases hget : backwardsTransitions.getRow row with
        | none =>
          simp only [hget, Except.error.injEq] at h
          subst h
          decide
        | some entries =>
          simp only [hget] at h
          split at h
          · cases h
            decide
          · exact ih h

/-- The sets of every parameter have only grown when the loop over the parameters
returns, and duplicate-free sets of `elements` are so still. -/
theorem updateParameters_grows (ops : RationalFunctionOps V)
    (stateRewardVector : Option (List V)) (backwardsTransitions : SparseMatrix V)
    (workingSets : List (Var × List Nat)) (fuel : Nat) (elements : List Nat)
    (parameters : List Var) :
    ∀ (treeStates result : List (Var × TreeMap)),
      updateParameters ops stateRewardVector backwardsTransitions workingSets fuel
          parameters treeStates = Except.ok result →
        (∀ (p : Var) (m : TreeMap), treeStates.lookup p = some m →
          ∃ m2, result.lookup p = some m2
            ∧ (∀ (state x : Nat), x ∈ m.get state → x ∈ m2.get state)
            ∧ (m.Within elements → m2.Within elements))
          ∧ (∀ (p : Var), treeStates.lookup p = none → result.lookup p = none) := by
  induction parameters with
  | nil =>
    intro treeStates result h
    simp only [updateParameters, Except.ok.injEq] at h
    subst h
    exact ⟨fun p m hm => ⟨m, hm, fun _ _ hx => hx, fun hw => hw⟩, fun p hp => hp⟩
  | cons parameter rest ih =>
    intro treeStates result h
    simp only [updateParameters] at h
    cases hws : workingSets.lookup parameter with
    | none => simp [hws] at h
    | some workingSet =>
      simp only [hws] at h
      cases hts : treeStates.lookup parameter with
      | none =>
        simp only [hts] at h
        cases hab : absentParameterLoop ops stateRewardVector backwardsTransitions
            workingSet with
        | error e => simp [hab] at h
        | ok u =>
          simp only [hab] at h
          exact ih treeStates result h
      | some states =>
        simp only [hts] at h
        cases hloop : treeStatesLoop ops stateRewardVector backwardsTransitions fuel
            workingSet states with
        | error e => simp [hloop] at h
        | ok states2 =>
          simp only [hloop] at h
          obtain ⟨l1, l2, _⟩ := treeStatesLoop_spec ops stateRewardVector
            backwardsTransitions elements fuel workingSet states states2 hloop
          obtain ⟨i1, i2⟩ := ih _ result h
          constructor
          · intro p m hm
            by_cases hp : p = parameter
            · subst hp
              rw [hts] at hm
              cases hm
              obtain ⟨m2, hr, hsub, hw⟩ := i1 p states2 (lookup_assocSet_self _ _ _)
              exact ⟨m2, hr, fun s x hx => hsub s x (l1 s x hx), fun hwi => hw (l2 hwi)⟩
            · exact i1 p m (by rw [lookup_assocSet_ne _ _ _ _ hp]; exact hm)
          · intro p hnone
            have hp : p ≠ parameter := by
              intro heq
              subst heq
              rw [hts] at hnone
              exact Option.noConfusion hnone
            exact i2 p (by rw [lookup_assocSet_ne _ _ _ _ hp]; exact hnone)

/-- The search of every parameter of the loop is complete when the loop over the
parameters returns and every step the search of a parameter had not to make was complete
before the call; a search that was complete before stays so. -/
theorem updateParameters_closed (ops : RationalFunctionOps V)
    (stateRewardVector : Option (List V)) (backwardsTransitions : SparseMatrix V)
    (workingSets : List (Var × List Nat)) (fuel : Nat) (parameters : List Var) :
    ∀ (treeStates result : List (Var × TreeMap)),
      updateParameters ops stateRewardVector backwardsTransitions workingSets fuel
          parameters treeStates = Except.ok result →
      (∀ p ∈ parameters, ∀ (workingSet : List Nat) (m : TreeMap),
        workingSets.lookup p = some workingSet → treeStates.lookup p = some m →
          ClosedExcept ops stateRewardVector backwardsTransitions workingSet m) →
      ∀ (p : Var),
        (p ∈ parameters ∨ ∀ m, treeStates.lookup p = some m →
          ClosedExcept ops stateRewardVector backwardsTransitions [] m) →
        ∀ m2, result.lookup p = some m2 →
          ClosedExcept ops stateRewardVector backwardsTransitions [] m2 := by
  induction parameters with
  | nil =>
    intro treeStates result h _ p hp m2 hm2
    simp only [updateParameters, Except.ok.injEq] at h
    subst h
    rcases hp with hp | hp
    · simp at hp
    · exact hp m2 hm2
  | cons parameter rest ih =>
    intro treeStates result h hpre p hp m2 hm2
    simp only [updateParameters] at h
    cases hws : workingSets.lookup parameter with
    | none => simp [hws] at h
    | some workingSet =>
      simp only [hws] at h
      cases hts : treeStates.lookup parameter with
      | none =>
        simp only [hts] at h
        cases hab : absentParameterLoop ops stateRewardVector backwardsTransitions
            workingSet with
        | error e => simp [hab] at h
        | ok u =>
          simp only [hab] at h
          apply ih treeStates result h
            (fun q hq ws m hw hm => hpre q (List.mem_cons_of_mem _ hq) ws m hw hm) p _ m2 hm2
          rcases hp with hp | hp
          · rcases List.mem_cons.mp hp with hp | hp
            · subst hp
              right
              intro m hm
              rw [hts] at hm
              exact Option.noConfusion hm
            · exact Or.inl hp
          · exact Or.inr hp
      | some states =>
        simp only [hts] at h
        cases hloop : treeStatesLoop ops stateRewardVector backwardsTransitions fuel
            workingSet states with
        | error e => simp [hloop] at h
        | ok states2 =>
          simp only [hloop] at h
          obtain ⟨_, _, l3⟩ := treeStatesLoop_spec ops stateRewardVector
            backwardsTransitions [] fuel workingSet states states2 hloop
          have hdone : ClosedExcept ops stateRewardVector backwardsTransitions []
              states2 := l3 (hpre parameter (List.mem_cons_self _ _) workingSet states hws hts)
          apply ih _ result h _ p _ m2 hm2
          · intro q hq ws m hw hm
            by_cases hqp : q = parameter
            · subst hqp
              rw [lookup_assocSet_self] at hm
              cases hm
              intro row pred hstep
              rcases hdone row pred hstep with hs | hs
              · exact Or.inl hs
              · simp at hs
            · rw [lookup_assocSet_ne _ _ _ _ hqp] at hm
              exact hpre q (List.mem_cons_of_mem _ hq) ws m hw hm
          · by_cases hqp : p = parameter
            · subst hqp
              right
              intro m hm
              rw [lookup_assocSet_self] at hm
              cases hm
              exact hdone
            · rcases hp with hp | hp
              · rcases List.mem_cons.mp hp with hp | hp
                · exact absurd hp hqp
                · exact Or.inl hp
              · right
                intro m hm
                rw [lookup_assocSet_ne _ _ _ _ hqp] at hm
                exact hp m hm

/-- A failure of the loop over the parameters is no lack of fuel when the fuel exceeds
the number of elements all the sets of a parameter can hold; and the loop does not fail
when, besides, every parameter has a working set and an entry of `treeStates`, and the
states of the working sets and the columns of the matrix are rows and have rewards. -/
theorem updateParameters_runs (ops : RationalFunctionOps V)
    (stateRewardVector : Option (List V)) (backwardsTransitions : SparseMatrix V)
    (workingSets : List (Var × List Nat)) (fuel : Nat) (elements : List Nat)
    (hfuel : (matrixColumns backwardsTransitions).length * elements.length + 1 ≤ fuel)
    (parameters : List Var) :
    ∀ (treeStates : List (Var × TreeMap)),
      (∀ (p : Var) (m : TreeMap), treeStates.lookup p = some m → m.Within elements) →
      ∀ e, updateParameters ops stateRewardVector backwardsTransitions workingSets fuel
          parameters treeStates = Except.error e →
        e ≠ JipFailure.outOfFuel
          ∧ ¬ ((∀ p ∈ parameters, treeStates.lookup p ≠ none
                ∧ ∃ workingSet, workingSets.lookup p = some workingSet
                  ∧ ∀ row ∈ workingSet, row < backwardsTransitions.rows.length)
            ∧ RewardsCover stateRewardVector backwardsTransitions.rows.length
            ∧ ∀ c ∈ matrixColumns backwardsTransitions,
                c < backwardsTransitions.rows.length) := by
  induction parameters with
  | nil =>
    intro treeStates _ e h
    simp [updateParameters] at h
  | cons parameter rest ih =>
    intro treeStates hwithin e h
    simp only [updateParameters] at h
    cases hws : workingSets.lookup parameter with
    | none =>
      simp only [hws, Except.error.injEq] at h
      subst h
      refine ⟨by decide, fun hgood => ?_⟩
      obtain ⟨_, ws, hw, _⟩ := hgood.1 parameter (List.mem_cons_self _ _)
      rw [hws] at hw
      exact Option.noConfusion hw
    | some workingSet =>
      simp only [hws] at h
      cases hts : treeStates.lookup parameter with
      | none =>
        have hbad : ¬ ((∀ p ∈ parameter :: rest, treeStates.lookup p ≠ none
              ∧ ∃ workingSet, workingSets.lookup p = some workingSet
                ∧ ∀ row ∈ workingSet, row < backwardsTransitions.rows.length)
            ∧ RewardsCover stateRewardVector backwardsTransitions.rows.length
            ∧ ∀ c ∈ matrixColumns backwardsTransitions,
                c < backwardsTransitions.rows.length) :=
          fun hgood => (hgood.1 parameter (List.mem_cons_self _ _)).1 hts
        simp only [hts] at h
        cases hab : absentParameterLoop ops stateRewardVector backwardsTransitions
            workingSet with
        | error e2 =>
          simp only [hab, Except.error.injEq] at h
          subst h
          exact ⟨absentParameterLoop_error ops stateRewardVector backwardsTransitions
            workingSet _ hab, hbad⟩
        | ok u =>
          simp only [hab] at h
          exact ⟨(ih treeStates hwithin e h).1, hbad⟩
      | some states =>
        simp only [hts] at h
        have hw := hwithin parameter states hts
        cases hloop : treeStatesLoop ops stateRewardVector backwardsTransitions fuel
            workingSet states with
        | error e2 =>
          simp only [hloop, Except.error.injEq] at h
          subst h
          obtain ⟨r1, r2⟩ := treeStatesLoop_runs ops stateRewardVector
            backwardsTransitions elements fuel workingSet states hw (by omega) _ hloop
          refine ⟨r1, fun hgood => r2 ⟨hgood.2.1, ?_, hgood.2.2⟩⟩
          obtain ⟨_, ws, hw2, hrows⟩ := hgood.1 parameter (List.mem_cons_self _ _)
          rw [hws] at hw2
          cases hw2
          exact hrows
        | ok states2 =>
          simp only [hloop] at h
          obtain ⟨_, l2, _⟩ := treeStatesLoop_spec ops stateRewardVector
            backwardsTransitions elements fuel workingSet states states2 hloop
          have hwithin2 : ∀ (p : Var) (m : TreeMap),
              (assocSet parameter states2 treeStates).lookup p = some m →
                m.Within elements := by
            intro p m hm
            by_cases hp : p = parameter
            · subst hp
              rw [lookup_assocSet_self] at hm
              cases hm
              exact l2 hw
            · rw [lookup_assocSet_ne _ _ _ _ hp] at hm
              exact hwithin p m hm
          obtain ⟨i1, i2⟩ := ih _ hwithin2 e h
          refine ⟨i1, fun hgood => i2 ⟨?_, hgood.2⟩⟩
          intro p hp
          obtain ⟨g1, g2⟩ := hgood.1 p (List.mem_cons_of_mem _ hp)
          refine ⟨?_, g2⟩
          by_cases hpp : p = parameter
          · subst hpp
            rw [lookup_assocSet_self]
            exact fun hcontra => Option.noConfusion hcontra
          · rw [lookup_assocSet_ne _ _ _ _ hpp]
            exact g1

/-- A complete search relates every state to every state reached from it by steps of
the search. -/
theorem closedExcept_reach (ops : RationalFunctionOps V)
    (stateRewardVector : Option (List V)) (backwardsTransitions : SparseMatrix V)
    (m : TreeMap)
    (hclosed : ClosedExcept ops stateRewardVector backwardsTransitions [] m)
    (r q : Nat)
    (hpath : Relation.ReflTransGen
      (BackwardStep ops stateRewardVector backwardsTransitions) r q) :
    ∀ x ∈ m.get r, x ∈ m.get q := by
  induction hpath with
  | refl => exact fun x hx => hx
  | tail _ hstep ih =>
    intro x hx
    rcases hclosed _ _ hstep with hs | hs
    · exact hs x (ih x hx)
    · simp at hs

end TreeParameters

/-! ## Theorems: `updateTreeStates` -/

section TreeStates

theorem lookup_some_mem {K T : Type} [DecidableEq K] (l : List (K × T)) (k : K) (v : T)
    (h : l.lookup k = some v) : (k, v) ∈ l := by
  induction l with
  | nil => simp at h
  | cons e rest ih =>
    obtain ⟨k1, v1⟩ := e
    rw [List.lookup_cons] at h
    cases hk : (k == k1) with
    | true =>
      simp only [hk, Option.some.injEq] at h
      have hkk : k = k1 := by simpa using hk
      subst hkk
      subst h
      exact List.mem_cons_self _ _
    | false =>
      simp only [hk] at h
      exact List.mem_cons_of_mem _ (ih h)

theorem within_of_sets (elements : List Nat) (m : TreeMap)
    (h : ∀ s ∈ m, s.2.Nodup ∧ ∀ x ∈ s.2, x ∈ elements) : m.Within elements := by
  intro state
  unfold TreeMap.get
  cases hl : m.lookup state with
  | none => simp
  | some set => exact h (state, set) (lookup_some_mem m state set hl)

/-- A map in which only states of the working set have a non-empty set, as it is when
the map is created, leaves no step of the search outside the working set to make. -/
theorem closedExcept_of_empty {V : Type} (ops : RationalFunctionOps V)
    (stateRewardVector : Option (List V)) (backwardsTransitions : SparseMatrix V)
    (workingSet : List Nat) (m : TreeMap)
    (h : ∀ state : Nat, state ∉ workingSet → m.get state = []) :
    ClosedExcept ops stateRewardVector backwardsTransitions workingSet m := by
  intro row pred _
  by_cases hrow : row ∈ workingSet
  · exact Or.inr hrow
  · left
    rw [h row hrow]
    intro x hx
    simp at hx

theorem eq_ok_of_toOption {E T : Type} (r : Except E T) (x : T)
    (h : r.toOption = some x) : r = Except.ok x := by
  cases r with
  | error e => simp [Except.toOption] at h
  | ok y =>
    simp only [Except.toOption, Option.some.injEq] at h
    rw [h]

end TreeStates

/-! ## Theorems: termination and completeness of `updateTreeStates` -/

/-- Claim C37: `updateTreeStates` terminates and only adds elements. Let every set of
`treeStates` be a duplicate-free list of states of `elements`, and let `fuel` exceed the
number of entries of the transposed matrix times the number of `elements`. Then no
`while` loop, on whatever matrix, runs out of iterations; the call returns when every
parameter has an entry of `treeStates` and a working set and the states of the working
sets and of the transposed matrix are rows of it and have rewards; and whenever the call
returns, every parameter has its entry still and every set of it contains the set it was
before the call. -/
theorem updateTreeStates_terminates_and_grows {V Var : Type} [DecidableEq Var]
    (ops : RationalFunctionOps V) (transpose : FlexibleSparseMatrix V → SparseMatrix V)
    (fuel : Nat) (treeStates : List (Var × TreeMap)) (workingSets : List (Var × List Nat))
    (flexibleMatrix : FlexibleSparseMatrix V) (allParameters : List Var)
    (stateRewardVector : Option (List V)) (elements : List Nat)
    (hsets : ∀ e ∈ treeStates, ∀ s ∈ e.2, s.2.Nodup ∧ ∀ x ∈ s.2, x ∈ elements)
    (hfuel : (matrixColumns (transpose flexibleMatrix)).length * elements.length + 1
      ≤ fuel) :
    (∀ e, updateTreeStates ops transpose fuel treeStates workingSets flexibleMatrix
        allParameters stateRewardVector = Except.error e → e ≠ JipFailure.outOfFuel)
      ∧ (((∀ p ∈ allParameters, treeStates.lookup p ≠ none
              ∧ ∃ workingSet, workingSets.lookup p = some workingSet
                ∧ ∀ row ∈ workingSet, row < (transpose flexibleMatrix).rows.length)
            ∧ RewardsCover stateRewardVector (transpose flexibleMatrix).rows.length
            ∧ ∀ c ∈ matrixColumns (transpose flexibleMatrix),
                c < (transpose flexibleMatrix).rows.length) →
          ∃ result, updateTreeStates ops transpose fuel treeStates workingSets
            flexibleMatrix allParameters stateRewardVector = Except.ok result)
      ∧ ∀ result, updateTreeStates ops transpose fuel treeStates workingSets
          flexibleMatrix allParameters stateRewardVector = Except.ok result →
        ∀ (p : Var) (m : TreeMap), treeStates.lookup p = some m →
          ∃ m2, result.lookup p = some m2
            ∧ ∀ (state x : Nat), x ∈ m.get state → x ∈ m2.get state := by
  have hwithin : ∀ (p : Var) (m : TreeMap), treeStates.lookup p = some m →
      m.Within elements :=
    fun p m hm => within_of_sets elements m (hsets (p, m) (lookup_some_mem _ _ _ hm))
  have hruns := updateParameters_runs ops stateRewardVector (transpose flexibleMatrix)
    workingSets fuel elements hfuel allParameters treeStates hwithin
  refine ⟨fun e he => (hruns e he).1, ?_, ?_⟩
  · intro hgood
    cases hres : updateTreeStates ops transpose fuel treeStates workingSets flexibleMatrix
        allParameters stateRewardVector with
    | ok result => exact ⟨result, rfl⟩
    | error e => exact absurd hgood (hruns e hres).2
  · intro result hres p m hm
    obtain ⟨m2, h1, h2, _⟩ := (updateParameters_grows ops stateRewardVector
      (transpose flexibleMatrix) workingSets fuel elements allParameters treeStates result
      hres).1 p m hm
    exact ⟨m2, h1, h2⟩

/-- Claim C31: the subset relation along paths after `updateTreeStates`. Let, for every
parameter, every constant entry of the transposed matrix in the row of a state without
reward be settled before the call (the set of the state is contained in the set of the
entry's column) unless the state is in the working set of the parameter. When the call
returns, then for every parameter with an entry in the result and all states `r` and `q`
such that `q` is reached from `r` by constant entries of the transposed matrix through
rows of states without reward, the set of `r` is contained in the set of `q`. -/
theorem updateTreeStates_subset_along_paths {V Var : Type} [DecidableEq Var]
    (ops : RationalFunctionOps V) (transpose : FlexibleSparseMatrix V → SparseMatrix V)
    (fuel : Nat) (treeStates : List (Var × TreeMap)) (workingSets : List (Var × List Nat))
    (flexibleMatrix : FlexibleSparseMatrix V) (allParameters : List Var)
    (stateRewardVector : Option (List V)) (result : List (Var × TreeMap))
    (hsettled : ∀ p ∈ allParameters, ∀ (workingSet : List Nat) (m : TreeMap),
      workingSets.lookup p = some workingSet → treeStates.lookup p = some m →
        ClosedExcept ops stateRewardVector (transpose flexibleMatrix) workingSet m)
    (hreturns : updateTreeStates ops transpose fuel treeStates workingSets flexibleMatrix
      allParameters stateRewardVector = Except.ok result) :
    ∀ p ∈ allParameters, ∀ m2, result.lookup p = some m2 →
      ∀ r q : Nat,
        Relation.ReflTransGen
          (BackwardStep ops stateRewardVector (transpose flexibleMatrix)) r q →
        ∀ x ∈ m2.get r, x ∈ m2.get q := by
  intro p hp m2 hm2 r q hpath
  have hclosed := updateParameters_closed ops stateRewardVector (transpose flexibleMatrix)
    workingSets fuel allParameters treeStates result hreturns hsettled p (Or.inl hp) m2 hm2
  exact closedExcept_reach ops stateRewardVector (transpose flexibleMatrix) m2 hclosed r q
    hpath

/-! ## The theorems at concrete inputs -/

theorem checkLocalMonotonicity_constant_weights_witness :
    (checkLocalMonotonicity affineOps chainMatrix keepOrder 1 0 unitRegion []).map Prod.fst
      = some Monotonicity.Constant :=
  checkLocalMonotonicity_constant_weights affineOps chainMatrix keepOrder 1 0 unitRegion []
    [{ column := 1, value := weightOne }] rfl (by decide)

theorem checkLocalMonotonicity_unplaced_witness :
    (checkLocalMonotonicity affineOps chainMatrix (unplacedOrder 3) 0 0 unitRegion []).map
      Prod.fst = some Monotonicity.Unknown :=
  checkLocalMonotonicity_unplaced affineOps chainMatrix (unplacedOrder 3) 0 0 unitRegion []
    [{ column := 1, value := weightP 0 }, { column := 2, value := weightOneMinusP 0 }]
    rfl ⟨{ column := 1, value := weightP 0 }, by simp, by decide⟩ rfl rfl

theorem checkLocalMonotonicity_two_successors_witness :
    (checkLocalMonotonicity affineOps chainMatrix reverseOrder 0 0 unitRegion []).map Prod.fst
      = some Monotonicity.Decr :=
  (checkLocalMonotonicity_two_successors affineOps chainMatrix reverseOrder 0 0 unitRegion []
    [{ column := 1, value := weightP 0 }, { column := 2, value := weightOneMinusP 0 }]
    rfl rfl (by decide) ⟨{ column := 1, value := weightP 0 }, by simp, by decide⟩
    (List.Perm.swap 1 2 []) (by decide) 1 (by decide) rfl).1.trans (by decide)

theorem checkLocalMonotonicity_scenario_witness :
    (checkLocalMonotonicity affineOps chainMatrix keepOrder 0 0 unitRegion []).map Prod.fst
        = some Monotonicity.Incr
      ∧ (checkLocalMonotonicity affineOps chainMatrix reverseOrder 0 0 unitRegion []).map
        Prod.fst = some Monotonicity.Decr :=
  ⟨(checkLocalMonotonicity_scenario chainMatrix keepOrder 0 1 2 0 []
      [{ column := 1, value := weightP 0 }, { column := 2, value := weightOneMinusP 0 }]
      (cacheSound_nil affineOps) rfl (Or.inl rfl) (by decide) (by decide) (by decide)).1 rfl,
   (checkLocalMonotonicity_scenario chainMatrix reverseOrder 0 1 2 0 []
      [{ column := 1, value := weightP 0 }, { column := 2, value := weightOneMinusP 0 }]
      (cacheSound_nil affineOps) rfl (Or.inl rfl) (by decide) (by decide) (by decide)).2 rfl⟩

theorem checkLocalMonotonicity_one_swap_witness :
    (checkLocalMonotonicity signOps signMatrix keepOrder 0 () () []).map Prod.fst
      = some Monotonicity.Incr :=
  (checkLocalMonotonicity_one_swap signOps signMatrix keepOrder 0 () () []
    [{ column := 1, value := (true, false) }, { column := 2, value := (true, true) },
     { column := 3, value := (false, true) }]
    rfl (by decide) ⟨{ column := 1, value := (true, false) }, by simp, by decide⟩
    (List.Perm.refl _) (by decide) (by decide)).trans (by decide)

theorem checkLocalMonotonicity_not_degrades_witness :
    Monotonicity.Not ∈ rowClassifications signOps () ()
        [{ column := 1, value := (true, false) }, { column := 2, value := (false, false) },
         { column := 3, value := (false, true) }] []
      ∧ ∃ r, (checkLocalMonotonicity signOps signMatrix keepOrder 1 () () []).map Prod.fst
          = some r
        ∧ r ≠ Monotonicity.Not
        ∧ (Monotonicity.Not ∈ rowClassifications signOps () ()
            [{ column := 1, value := (true, false) }, { column := 2, value := (false, false) },
             { column := 3, value := (false, true) }] [] →
          r = Monotonicity.Unknown) :=
  ⟨by decide,
   checkLocalMonotonicity_not_degrades signOps signMatrix keepOrder 1 () () []
    [{ column := 1, value := (true, false) }, { column := 2, value := (false, false) },
     { column := 3, value := (false, true) }]
    rfl (by decide) (by decide) ⟨{ column := 1, value := (true, false) }, by simp, by decide⟩
    rfl (fun _ => List.Perm.refl _)⟩

theorem createAndCheckAssumptions_first_valid_witness :
    ∃ ptr,
      [(samplePtr 1, AssumptionStatus.VALID)] = [(ptr, AssumptionStatus.VALID)]
      ∧ (candidates 0 1).find?
          (fun c => decide (sampleVerdict c () () = AssumptionStatus.VALID))
        = some ptr.target :=
  createAndCheckAssumptions_first_valid 2 sampleVerdict true 0 1 () () freshState
    { checker := (), nextAddress := 3 } _
    ⟨{ firstOperand := { index := 0 }, secondOperand := { index := 1 },
       relationType := RelationType.Greater }, by simp [candidates], rfl⟩ rfl

theorem createAndCheckAssumptions_no_invalid_witness :
    createAndCheckAssumptions (deterministicMaker 2 sampleVerdict) true 0 1 () () freshState
        = Except.ok ([(samplePtr 1, AssumptionStatus.VALID)],
            { checker := (), nextAddress := 3 })
      ∧ (samplePtr 1, AssumptionStatus.VALID).2 ≠ AssumptionStatus.INVALID :=
  ⟨rfl,
   createAndCheckAssumptions_no_invalid (deterministicMaker 2 sampleVerdict) true 0 1 () ()
    freshState { checker := (), nextAddress := 3 } [(samplePtr 1, AssumptionStatus.VALID)]
    rfl (samplePtr 1, AssumptionStatus.VALID) (List.mem_singleton.mpr rfl)⟩

theorem createAndCheckAssumptions_none_valid_witness :
    ∃ res st2,
      createAndCheckAssumptions (deterministicMaker 2 undecidedVerdict) true 0 1 () ()
          freshState = Except.ok (res, st2)
        ∧ res.contents
          = (checkerAnswers (deterministicMaker 2 undecidedVerdict) () () ()
              (candidates 0 1)).filter
              (fun a => decide (a.2 = AssumptionStatus.UNKNOWN))
        ∧ (res.map (fun e => e.1.address)).Nodup :=
  createAndCheckAssumptions_none_valid (deterministicMaker 2 undecidedVerdict) true 0 1 () ()
    freshState (by decide) (by decide) (by decide)

theorem createAndCheckAssumptions_at_most_one_valid_witness :
    ([(samplePtr 0, AssumptionStatus.VALID)].filter
      (fun e => decide (e.2 = AssumptionStatus.VALID))).length ≤ 1 :=
  createAndCheckAssumptions_at_most_one_valid (deterministicMaker 2 sampleVerdict) false 1 0
    () () freshState { checker := (), nextAddress := 1 } _ rfl

/-- C1 fails as stated: the weights `q` and `1 − q` of state `0` do not depend on the
parameter with index `0`, their derivatives in it are zero and both transitions are
classified `Constant`, but with an order that ranks nothing the result is `Unknown`. -/
theorem checkLocalMonotonicity_constant_in_var_counterexample :
    otherParameterMatrix.getRow 0
        = some [{ column := 1, value := weightP 1 },
                { column := 2, value := weightOneMinusP 1 }]
      ∧ affineOps.derivative (weightP 1) 0 = affineOps.zero
      ∧ affineOps.derivative (weightOneMinusP 1) 0 = affineOps.zero
      ∧ rowClassifications affineOps 0 unitRegion
          [{ column := 1, value := weightP 1 },
           { column := 2, value := weightOneMinusP 1 }] []
        = [Monotonicity.Constant, Monotonicity.Constant]
      ∧ (checkLocalMonotonicity affineOps otherParameterMatrix (unplacedOrder 3) 0 0
          unitRegion []).map Prod.fst = some Monotonicity.Unknown
      ∧ (checkLocalMonotonicity affineOps otherParameterMatrix (unplacedOrder 3) 0 0
          unitRegion []).map Prod.fst ≠ some Monotonicity.Constant := by
  refine ⟨rfl, by decide, by decide, by decide, by decide, by decide⟩

theorem checkLocalMonotonicity_all_classified_constant_witness :
    (checkLocalMonotonicity affineOps otherParameterMatrix keepOrder 0 0 unitRegion []).map
        Prod.fst = some Monotonicity.Constant :=
  (checkLocalMonotonicity_all_classified_constant affineOps otherParameterMatrix keepOrder
    0 0 unitRegion []
    [{ column := 1, value := weightP 1 }, { column := 2, value := weightOneMinusP 1 }]
    rfl (by decide) rfl (fun _ => List.Perm.refl _)).trans (by decide)

/-- C11 fails as stated: for the states `0` and `1` the first assumption validated is the
`Greater` relation whose first operand is the variable of state `1`, not the one whose
first operand is the variable of state `0`. -/
theorem createAndCheckAssumptions_first_candidate_counterexample :
    askedBy (createAndCheckAssumptions (recordingMaker 2 undecidedVerdict) false 0 1 () ()
        { checker := [], nextAddress := 0 })
      = some [{ firstOperand := { index := 1 }, secondOperand := { index := 0 },
                relationType := RelationType.Greater },
              { firstOperand := { index := 0 }, secondOperand := { index := 1 },
                relationType := RelationType.Greater },
              { firstOperand := { index := 1 }, secondOperand := { index := 0 },
                relationType := RelationType.Equal }]
      ∧ (askedBy (createAndCheckAssumptions (recordingMaker 2 undecidedVerdict) false 0 1
          () () { checker := [], nextAddress := 0 })).map List.head?
        ≠ some (some claimedFirstCandidate) := by
  constructor
  · rfl
  · decide

theorem createAndCheckAssumptions_priority_order_witness :
    (∃ rest, (true = false → rest = [])
        ∧ [claimedFirstCandidate.swapped, claimedFirstCandidate,
            { claimedFirstCandidate.swapped with relationType := RelationType.Equal }]
          = [] ++
            List.take
              (candidatesTried (sampleVerdict claimedFirstCandidate.swapped () ())
                (sampleVerdict claimedFirstCandidate () ()))
              [claimedFirstCandidate.swapped, claimedFirstCandidate,
               { claimedFirstCandidate.swapped with relationType := RelationType.Equal }]
            ++ rest)
      ∧ ∃ res st2,
          createAndCheckAssumptions (recordingMaker 2 sampleVerdict) false 0 1 () ()
            { checker := [], nextAddress := 0 } = Except.ok (res, st2) :=
  ⟨(createAndCheckAssumptions_priority_order 2 sampleVerdict true 0 1 () ()
      { checker := [], nextAddress := 0 } (by decide) (by decide)).1
      [(samplePtr 1, AssumptionStatus.VALID)]
      { checker := [claimedFirstCandidate.swapped, claimedFirstCandidate,
          { claimedFirstCandidate.swapped with relationType := RelationType.Equal }],
        nextAddress := 3 } rfl,
   (createAndCheckAssumptions_priority_order 2 sampleVerdict true 0 1 () ()
      { checker := [], nextAddress := 0 } (by decide) (by decide)).2⟩

theorem createAndCheckAssumptions_assertion_iff_witness :
    (createAndCheckAssumptions (deterministicMaker 2 sampleVerdict) true 0 1 () ()
          freshState = Except.error Failure.assertionFailed
        ↔ 2 ≤ ((candidates 0 1).filter
            (fun c => decide (sampleVerdict c () () = AssumptionStatus.VALID))).length)
      ∧ (((candidates 0 1).filter
            (fun c => decide (sampleVerdict c () () = AssumptionStatus.VALID))).length ≤ 1 →
          ∃ res st2, createAndCheckAssumptions (deterministicMaker 2 sampleVerdict)
            true 0 1 () () freshState = Except.ok (res, st2)) :=
  createAndCheckAssumptions_assertion_iff 2 sampleVerdict 0 1 () () freshState
    (by decide) (by decide)

theorem wellFormed_ranResult : WellFormed ranResult ranHeap :=
  (calls_spec (specMonotonicityResultOps Nat) sampleCalls newResult.1 ranResult newResult.2
    ranHeap (wellFormed_construct (specMonotonicityResultOps Nat) 2 []) rfl).1

theorem setMonotonicity_then_getMonotonicity_witness :
    ∃ r2 heap2,
      ranResult.setMonotonicity (specMonotonicityResultOps Nat) 1 3 Monotonicity.Decr ranHeap
          = some (r2, heap2)
        ∧ r2.getMonotonicity (specMonotonicityResultOps Nat) 1 3 heap2
          = some Monotonicity.Decr :=
  setMonotonicity_then_getMonotonicity ranResult ranHeap 1 3 Monotonicity.Decr
    wellFormed_ranResult (Or.inr ⟨1, _, rfl, rfl, rfl⟩)

theorem getMonotonicity_never_set_witness :
    ranResult.getMonotonicity (specMonotonicityResultOps Nat) 0 0 ranHeap
        = some (if setsConstant 0 sampleCalls then Monotonicity.Constant
            else Monotonicity.Unknown)
      ∧ newResult.1.getMonotonicity (specMonotonicityResultOps Nat) 0 0 newResult.2
        = some Monotonicity.Unknown :=
  getMonotonicity_never_set (specMonotonicityResultOps Nat) 2 [] sampleCalls ranResult
    ranHeap 0 0 (by decide) rfl rfl

theorem setMonotonicity_unknown_or_not_witness :
    ∃ r2 heap2,
      ranResult.setMonotonicity (specMonotonicityResultOps Nat) 0 0 Monotonicity.Not ranHeap
          = some (r2, heap2)
        ∧ r2.statesMonotone[0]? = some false
        ∧ (ranResult.done = false → r2.isDone = false) :=
  setMonotonicity_unknown_or_not (specMonotonicityResultOps Nat) ranResult ranHeap 0 0
    Monotonicity.Not wellFormed_ranResult (by decide) (Or.inr rfl)

theorem setMonotonicity_recomputes_flag_witness :
    ∃ (r2 : LocalMonotonicityResult) (heap2 : Heap (MonotonicityResult Nat)) (address : Nat)
      (object : MonotonicityResult Nat),
      newResult.1.setMonotonicity (specMonotonicityResultOps Nat) 0 0 Monotonicity.Incr
          newResult.2 = some (r2, heap2)
        ∧ r2.stateMonRes[0]? = some (some address)
        ∧ heap2[address]? = some object
        ∧ object = (specMonotonicityResultOps Nat).addMonotonicityResult
            (stateObject (specMonotonicityResultOps Nat) newResult.1 newResult.2 0) 0
            Monotonicity.Incr
        ∧ r2.statesMonotone[0]?
          = some ((specMonotonicityResultOps Nat).isAllMonotonicity object) :=
  setMonotonicity_recomputes_flag (specMonotonicityResultOps Nat) newResult.1 newResult.2 0 0
    Monotonicity.Incr (wellFormed_construct (specMonotonicityResultOps Nat) 2 [])
    (by decide) (Or.inl rfl)

theorem isDone_iff_forced_or_all_constant_witness :
    (ranResult.isDone = true ↔
        (forcedDone sampleCalls defaultDone = true
          ∨ ∀ s, s < 2 → ranResult.statesMonotone[s]? = some true))
      ∧ (2 = 0 → ranResult.isDone = true) :=
  isDone_iff_forced_or_all_constant (specMonotonicityResultOps Nat) 2 [] sampleCalls
    ranResult ranHeap rfl

theorem copy_independent_witness :
    ∃ (c : LocalMonotonicityResult) (heap1 : Heap (MonotonicityResult Nat)),
      ranResult.copy (specMonotonicityResultOps Nat) ranHeap = some (c, heap1)
        ∧ (∀ (cs : List (Call Nat)) (c2 : LocalMonotonicityResult)
            (heap2 : Heap (MonotonicityResult Nat)),
            LocalMonotonicityResult.calls (specMonotonicityResultOps Nat) cs c heap1
                = some (c2, heap2) →
              (∀ s v, ranResult.getMonotonicity (specMonotonicityResultOps Nat) s v heap2
                  = ranResult.getMonotonicity (specMonotonicityResultOps Nat) s v heap1)
                ∧ ranResult.getGlobalMonotonicityResult heap2
                  = ranResult.getGlobalMonotonicityResult heap1)
        ∧ (∀ (cs : List (Call Nat)) (r2 : LocalMonotonicityResult)
            (heap2 : Heap (MonotonicityResult Nat)),
            LocalMonotonicityResult.calls (specMonotonicityResultOps Nat) cs ranResult heap1
                = some (r2, heap2) →
              (∀ s v, c.getMonotonicity (specMonotonicityResultOps Nat) s v heap2
                  = c.getMonotonicity (specMonotonicityResultOps Nat) s v heap1)
                ∧ c.getGlobalMonotonicityResult heap2
                  = c.getGlobalMonotonicityResult heap1) :=
  copy_independent (specMonotonicityResultOps Nat) ranResult ranHeap wellFormed_ranResult

theorem copy_same_observations_witness :
    ∃ (c : LocalMonotonicityResult) (heap1 : Heap (MonotonicityResult Nat)),
      ranResult.copy (specMonotonicityResultOps Nat) ranHeap = some (c, heap1)
        ∧ c.stateMonRes.length = ranResult.stateMonRes.length
        ∧ c.statesMonotone = ranResult.statesMonotone
        ∧ ∀ s v, c.getMonotonicity (specMonotonicityResultOps Nat) s v heap1
            = ranResult.getMonotonicity (specMonotonicityResultOps Nat) s v ranHeap :=
  copy_same_observations (specMonotonicityResultOps Nat) ranResult ranHeap
    wellFormed_ranResult (fun _ _ => rfl)

/-- C20 fails on the code: a result over one state that was forced done and whose index
fields were fixed to `5` and `7` reports `isDone() = true`, `5` and `7`, and its copy
reports `isDone() = false`, `-1` and `-1`. -/
theorem copy_forgets_done_and_indices :
    forcedDoneResult.map (fun p => doneAndIndices p.1) = some (true, 5, 7)
      ∧ (forcedDoneResult.bind
          (fun p => p.1.copy (specMonotonicityResultOps Nat) p.2)).map
            (fun p => doneAndIndices p.1) = some (false, -1, -1) := by
  constructor <;> rfl

theorem checkLocalMonotonicity_constant_fast_path_witness :
    (∀ order : Order,
        checkLocalMonotonicity affineOps constantRowsMatrix order 0 0 unitRegion []
          = some (Monotonicity.Constant, []))
      ∧ (∀ order : Order,
        checkLocalMonotonicity affineOps constantRowsMatrix order 1 0 unitRegion []
          = some (Monotonicity.Constant, [])) :=
  ⟨checkLocalMonotonicity_constant_fast_path affineOps constantRowsMatrix 0 0 unitRegion []
      [{ column := 0, value := weightOne }, { column := 1, value := weightOne }] rfl
      (Or.inr (by decide)),
   checkLocalMonotonicity_constant_fast_path affineOps constantRowsMatrix 1 0 unitRegion []
      [] rfl (Or.inl rfl)⟩

theorem checkTransitionMonRes_sign_pair_witness :
    (checkTransitionMonRes affineOps (weightP 0) 0 unitRegion []).1 = Monotonicity.Incr
      ∧ (checkTransitionMonRes affineOps weightOne 0 unitRegion []).1
          = Monotonicity.Constant :=
  ⟨(checkTransitionMonRes_sign_pair affineOps (weightP 0) 0 unitRegion [] (by decide)).1
      (true, false) (by decide),
   (checkTransitionMonRes_sign_pair affineOps weightOne 0 unitRegion [] (by decide)).2.2
      (by decide)⟩

/-- The claim C30 at `setMonotonicity(0, 0, Incr)`, `setConstant(0)`: the state is flagged
constant, no classification was recorded for parameter `1`, and `getMonotonicity(0, 1)`
is `Unknown`, not `Constant`. -/
theorem getMonotonicity_flagged_other_parameter_counterexample :
    otherParameterQuery = some (some true, some Monotonicity.Unknown)
      ∧ otherParameterQuery ≠ some (some true, some Monotonicity.Constant) := by
  decide

theorem getMonotonicity_flagged_constant_witness :
    (newResult.1.stateMonRes[0]? = some none →
        ∃ r2, newResult.1.setConstant 0 = some r2
          ∧ r2.getMonotonicity (specMonotonicityResultOps Nat) 0 1 newResult.2
              = some Monotonicity.Constant)
      ∧ ∃ (r1 : LocalMonotonicityResult) (heap1 : Heap (MonotonicityResult Nat))
          (r2 : LocalMonotonicityResult),
          newResult.1.setMonotonicity (specMonotonicityResultOps Nat) 0 0 Monotonicity.Incr
              newResult.2 = some (r1, heap1)
            ∧ r1.setConstant 0 = some r2
            ∧ r2.statesMonotone[0]? = some true
            ∧ r2.getMonotonicity (specMonotonicityResultOps Nat) 0 1 heap1
                = some ((specMonotonicityResultOps Nat).getMonotonicity
                    ((specMonotonicityResultOps Nat).addMonotonicityResult
                      (stateObject (specMonotonicityResultOps Nat) newResult.1 newResult.2 0)
                      0 Monotonicity.Incr) 1) :=
  getMonotonicity_flagged_constant (specMonotonicityResultOps Nat) newResult.1 newResult.2
    0 0 1 Monotonicity.Incr (wellFormed_construct (specMonotonicityResultOps Nat) 2 [])
    (by decide)

theorem jipConvert_true_strictly_descending_witness :
    ∃ row, cycleMatrixConverted[0]? = some row
      ∧ (row.map MatrixEntry.column).Pairwise (fun a b => b < a) :=
  jipConvert_true_strictly_descending linearOps none 4 0
    { matrix := cycleMatrix, alreadyVisited := [] } cycleMatrixConverted (by decide!)

/-- The claim C34 at `mixedRowMatrix`: `jipConvert(0, …)` returns `false` at the
parametric second entry of row `0`, after the constant first entry has made it clear the
row and append to it, so that the row is not what it was. -/
theorem jipConvert_false_changes_row_counterexample :
    returnedAndMatrix
        (jipConvert linearOps none 3 0 { matrix := mixedRowMatrix, alreadyVisited := [] })
        = some (false, mixedRowMatrixLeft)
      ∧ mixedRowMatrixLeft[0]? ≠ mixedRowMatrix[0]? := by
  decide!

theorem jipConvert_false_untouched_witness :
    jipConvert linearOps none 1 0 { matrix := parametricRowMatrix, alreadyVisited := [] }
      = Except.ok (false, { matrix := parametricRowMatrix, alreadyVisited := [] }) :=
  jipConvert_false_untouched linearOps none 0 0
    { matrix := parametricRowMatrix, alreadyVisited := [] } []
    { column := 1, value := { const := 0, slope := 1 } }
    [{ column := 2, value := { const := 1, slope := -1 } }]
    rfl (by simp) (by decide!) (by decide!)

theorem jipConvert_returns_iff_constant_witness :
    ∃ (b : Bool) (st2 : JipState LinearFunction),
      jipConvert linearOps none 5 0 { matrix := mixedRowMatrix, alreadyVisited := [] }
          = Except.ok (b, st2)
        ∧ b = false :=
  match (jipConvert_returns_iff_constant linearOps none 5 0
      { matrix := mixedRowMatrix, alreadyVisited := [] }
      [{ column := 1, value := constantFunction (1 / 2) },
       { column := 2, value := { const := 0, slope := 1 / 2 } },
       { column := 3, value := { const := 1 / 2, slope := -1 / 2 } }]
      (by unfold ColumnsInRange; decide) rfl (fun _ h => Option.noConfusion h)
      (Or.inr (by decide)) (by decide)).1 with
  | ⟨b, st2, h, _, hfalse⟩ =>
    ⟨b, st2, h, hfalse.mpr ⟨{ column := 2, value := { const := 0, slope := 1 / 2 } },
      by simp, by decide!, by decide!⟩⟩

theorem checkLocalMonotonicity_in_bounds_witness :
    ∃ result, checkLocalMonotonicity signOps signMatrix reverseOrder 0 () () [] = some result :=
  (checkLocalMonotonicity_in_bounds signOps signMatrix reverseOrder 0 () () []
    [{ column := 1, value := (true, false) }, { column := 2, value := (true, true) },
     { column := 3, value := (false, true) }]
    rfl rfl (fun _ => List.reverse_perm _)).1

theorem setMonotonicity_frame_witness :
    ∃ (r2 : LocalMonotonicityResult) (heap2 : Heap (MonotonicityResult Nat)),
      twoResults.setMonotonicity (specMonotonicityResultOps Nat) 0 0 Monotonicity.Decr
          twoResultsHeap = some (r2, heap2)
        ∧ r2.statesMonotone[1]? = twoResults.statesMonotone[1]?
        ∧ r2.getMonotonicity (specMonotonicityResultOps Nat) 1 0 heap2
            = twoResults.getMonotonicity (specMonotonicityResultOps Nat) 1 0 twoResultsHeap
        ∧ r2.done = twoResults.done
        ∧ r2.indexMinimize = twoResults.indexMinimize
        ∧ r2.indexMaximize = twoResults.indexMaximize :=
  setMonotonicity_frame (specMonotonicityResultOps Nat) twoResults twoResultsHeap 0 1 0 0
    Monotonicity.Decr
    ⟨by decide, rfl, by
      intro a ha
      simp only [twoResults, List.mem_cons, Option.some.injEq, List.mem_singleton,
        List.not_mem_nil, or_false] at ha
      rcases ha with ha | ha <;> subst ha <;> decide⟩
    (by
      intro i j a hij hi hj
      have hi2 : i < 2 := by
        by_contra hge
        rw [List.getElem?_eq_none (by simp [twoResults]; omega)] at hi
        exact Option.noConfusion hi
      have hj2 : j < 2 := by
        by_contra hge
        rw [List.getElem?_eq_none (by simp [twoResults]; omega)] at hj
        exact Option.noConfusion hj
      interval_cases i <;> interval_cases j <;> simp [twoResults] at hi hj hij <;> omega)
    (by decide) (by decide)
/-- On the chain `0 → 1 → 2` of constant transitions with state `2` in the working set,
a call of `updateTreeStates` that finds the tree state `2` at state `1` already stops
there: it returns the map unchanged, and the set of state `2` is not contained in the
set of state `0`, from which state `2` is reached by constant transitions. -/
theorem updateTreeStates_subset_counterexample :
    ∃ (result : List (Nat × TreeMap)) (m2 : TreeMap),
      updateTreeStates linearOps transposeMatrix 26 pathTreeStatesFilled pathWorkingSets
          pathMatrix [0] none = Except.ok result
        ∧ result.lookup 0 = some m2
        ∧ 2 ∈ (pathWorkingSets.lookup 0).getD []
        ∧ Relation.ReflTransGen
            (BackwardStep linearOps none (transposeMatrix pathMatrix)) 2 0
        ∧ ¬ ∀ x ∈ m2.get 2, x ∈ m2.get 0 := by
  refine ⟨pathTreeStatesFilled, [(1, [2]), (2, [2])], eq_ok_of_toOption _ _ (by decide!),
    rfl, by decide, ?_, by decide⟩
  have h21 : BackwardStep linearOps none (transposeMatrix pathMatrix) 2 1 :=
    ⟨rfl, [{ column := 1, value := constantFunction 1 }],
      { column := 1, value := constantFunction 1 }, by decide!, by simp, rfl, by decide!⟩
  have h10 : BackwardStep linearOps none (transposeMatrix pathMatrix) 1 0 :=
    ⟨rfl, [{ column := 0, value := constantFunction 1 }],
      { column := 0, value := constantFunction 1 }, by decide!, by simp, rfl, by decide!⟩
  exact Relation.ReflTransGen.tail (Relation.ReflTransGen.single h21) h10

theorem updateTreeStates_terminates_and_grows_witness :
    (matrixColumns (transposeMatrix cycleMatrix)).length * [0, 1, 2].length + 1 ≤ 13
      ∧ (∀ e ∈ cycleTreeStates, ∀ s ∈ e.2, s.2.Nodup ∧ ∀ x ∈ s.2, x ∈ [0, 1, 2])
      ∧ ∃ result, updateTreeStates linearOps transposeMatrix 13 cycleTreeStates
            cycleWorkingSets cycleMatrix [0] none = Except.ok result
          ∧ ∀ (p : Nat) (m : TreeMap), cycleTreeStates.lookup p = some m →
              ∃ m2, result.lookup p = some m2
                ∧ ∀ (state x : Nat), x ∈ m.get state → x ∈ m2.get state := by
  have hfuel : (matrixColumns (transposeMatrix cycleMatrix)).length * [0, 1, 2].length + 1
      ≤ 13 := by decide!
  have hsets : ∀ e ∈ cycleTreeStates, ∀ s ∈ e.2, s.2.Nodup ∧ ∀ x ∈ s.2, x ∈ [0, 1, 2] := by
    decide
  obtain ⟨_, hret, hgrow⟩ := updateTreeStates_terminates_and_grows linearOps
    transposeMatrix 13 cycleTreeStates cycleWorkingSets cycleMatrix [0] none [0, 1, 2]
    hsets hfuel
  have hgood : (∀ p ∈ [0], cycleTreeStates.lookup p ≠ none
        ∧ ∃ workingSet, cycleWorkingSets.lookup p = some workingSet
          ∧ ∀ row ∈ workingSet, row < (transposeMatrix cycleMatrix).rows.length)
      ∧ RewardsCover (none : Option (List LinearFunction))
          (transposeMatrix cycleMatrix).rows.length
      ∧ ∀ c ∈ matrixColumns (transposeMatrix cycleMatrix),
          c < (transposeMatrix cycleMatrix).rows.length := by
    refine ⟨?_, ?_, by decide!⟩
    · intro p hp
      have hp0 : p = 0 := by simpa using hp
      subst hp0
      exact ⟨by decide, [2], rfl, by decide!⟩
    · intro rewards h
      exact Option.noConfusion h
  obtain ⟨result, hres⟩ := hret hgood
  exact ⟨hfuel, hsets, result, hres, hgrow result hres⟩

theorem updateTreeStates_subset_along_paths_witness :
    updateTreeStates linearOps transposeMatrix 26 pathTreeStates pathWorkingSets
        pathMatrix [0] none = Except.ok [(0, [(2, [2]), (1, [2]), (0, [2])])]
      ∧ (∀ p ∈ [0], ∀ (workingSet : List Nat) (m : TreeMap),
          pathWorkingSets.lookup p = some workingSet → pathTreeStates.lookup p = some m →
            ClosedExcept linearOps none (transposeMatrix pathMatrix) workingSet m)
      ∧ ∀ p ∈ [0], ∀ m2 : TreeMap,
          List.lookup p ([(0, [(2, [2]), (1, [2]), (0, [2])])] : List (Nat × TreeMap))
            = some m2 →
          ∀ r q : Nat,
            Relation.ReflTransGen
              (BackwardStep linearOps none (transposeMatrix pathMatrix)) r q →
            ∀ x ∈ m2.get r, x ∈ m2.get q := by
  have hret : updateTreeStates linearOps transposeMatrix 26 pathTreeStates pathWorkingSets
      pathMatrix [0] none = Except.ok [(0, [(2, [2]), (1, [2]), (0, [2])])] :=
    eq_ok_of_toOption _ _ (by decide!)
  have hsettled : ∀ p ∈ [0], ∀ (workingSet : List Nat) (m : TreeMap),
      pathWorkingSets.lookup p = some workingSet → pathTreeStates.lookup p = some m →
        ClosedExcept linearOps none (transposeMatrix pathMatrix) workingSet m := by
    intro p hp workingSet m hws hm
    have hp0 : p = 0 := by simpa using hp
    subst hp0
    have h1 : workingSet = [2] := by
      have : pathWorkingSets.lookup 0 = some [2] := rfl
      rw [this] at hws
      exact (Option.some.inj hws).symm
    have h2 : m = [(2, [2])] := by
      have : pathTreeStates.lookup 0 = some [(2, [2])] := rfl
      rw [this] at hm
      exact (Option.some.inj hm).symm
    subst h1
    subst h2
    apply closedExcept_of_empty
    intro state hstate
    have hne : state ≠ 2 := by simpa using hstate
    have hb : (state == 2) = false := by simpa using hne
    simp [TreeMap.get, List.lookup, hb]
  exact ⟨hret, hsettled, updateTreeStates_subset_along_paths linearOps transposeMatrix 26
    pathTreeStates pathWorkingSets pathMatrix [0] none _ hsettled hret⟩


end storm.analysis
